import Mathlib

/-!
# Verification of the CONL tokenizer and schema validator

This file gives a shallow embedding, in Lean 4, of the core of the
`conl-go` repository: the lexer/normalizer pipeline (`conl.go`), the
literal quote/escape codec (`conl.go` / `schema/conl_value.go`), and the
schema validation engine (`schema/schema.go`, `schema/validation_error.go`),
together with theorems settling a list of claims about that code.

Modelling conventions:

* Go strings are modelled as `List Char` (sequences of Unicode scalar
  values).  The Go code indexes strings by byte, but every index it forms
  lies on a rune boundary, so rune-level slicing is faithful; where a
  *length* of a string is compared against a constant (the escape length
  checks in `decodeLiteral`) we use the UTF-8 byte length `utf8Len` to
  stay faithful.  A `List Char` always denotes valid UTF-8, so Go's
  `utf8.ValidString` checks are embedded as a constantly-true predicate
  `utf8ValidString` (the branches they guard are kept in place).
* Go iterators (`iter.Seq2`) are embedded as the full list of yielded
  elements; an early-stopping consumer sees a prefix, which is irrelevant
  to the claims below.
* Go maps are embedded as association lists in insertion order; Go's
  randomized iteration order is discussed where it matters (the claim
  about purity of validation).
-/

namespace Conl

/-- Go `string`, modelled as a list of runes. -/
abbrev Str := List Char

/-- Is this character horizontal whitespace (the Go cutset `" \t"`)? -/
def isWS (c : Char) : Bool := c == ' ' || c == '\t'

/-- `strings.TrimLeft(s, " \t")`. -/
def trimLeftWS (s : Str) : Str := s.dropWhile isWS

/-- `strings.TrimRight(s, " \t")`. -/
def trimRightWS (s : Str) : Str := (s.reverse.dropWhile isWS).reverse

/-- Characters of the Go cutset `" \t\r\n"`. -/
def isWSNL (c : Char) : Bool := c == ' ' || c == '\t' || c == '\r' || c == '\n'

/-- `strings.TrimRight(s, " \t\r\n")`. -/
def trimRightWSNL (s : Str) : Str := (s.reverse.dropWhile isWSNL).reverse

/-- `strings.HasPrefix(s, pre)` (arguments: the candidate prefix first). -/
def startsWithStr (pre s : Str) : Bool :=
  match pre, s with
  | [], _ => true
  | _ :: _, [] => false
  | p :: ps, c :: cs => p == c && startsWithStr ps cs

/-- `strings.CutPrefix(s, pre)`: the remainder when `pre` is a prefix. -/
def cutPre (pre s : Str) : Option Str :=
  match pre, s with
  | [], s => some s
  | _ :: _, [] => none
  | p :: ps, c :: cs => if p = c then cutPre ps cs else none

/-- `strings.Cut(s, string(sep))`: split at the first occurrence of `sep`. -/
def cutChar (sep : Char) : Str → Option (Str × Str)
  | [] => none
  | c :: cs =>
    if c = sep then some ([], cs)
    else (cutChar sep cs).map (fun p => (c :: p.1, p.2))

/-- `strings.Index(s, string(sep))`: the split `(before, from-sep-on)` at the
first occurrence of `sep`, if any. -/
def splitAtChar (sep : Char) : Str → Option (Str × Str)
  | [] => none
  | c :: cs =>
    if c = sep then some ([], c :: cs)
    else (splitAtChar sep cs).map (fun p => (c :: p.1, p.2))

/-- UTF-8 byte length of a rune sequence. -/
def utf8Len (s : Str) : Nat := (s.map (·.utf8Size)).sum

/-- `utf8.ValidString`: a `List Char` always denotes valid UTF-8, so this is
constantly true; the guard sites in the Go code are kept. -/
def utf8ValidString (_ : Str) : Bool := true

/-! ## Token kinds (`conl.go`, `TokenKind`) -/

/-- The token kinds yielded from `Tokens` (the exported constants of
`conl.go`; `endOfFile` is internal and never yielded). -/
inductive TokenKind where
  | comment | indent | outdent | mapKey | listItem | value | noValue
  | multilineValue | multilineHint | error
deriving DecidableEq, Repr

/-- `conl.Token`. -/
structure Token where
  kind : TokenKind
  content : Str
deriving DecidableEq, Repr

/-! ## `lines`: split input into physical lines

Go splits on the regexp `\r\n|\r|\n` (leftmost-first, so `\r\n` is
preferred over a lone `\r`). -/

/-- The list of physical lines of the input (at least one, possibly
empty, mirroring the final `yield(lno, input)`). -/
def splitLines : Str → List Str
  | [] => [[]]
  | '\r' :: '\n' :: rest => [] :: splitLines rest
  | '\r' :: rest => [] :: splitLines rest
  | '\n' :: rest => [] :: splitLines rest
  | c :: rest =>
    match splitLines rest with
    | [] => [[c]]
    | l :: ls => (c :: l) :: ls

/-! ## `splitLiteral` / `splitUnquoted` -/

/-- `splitUnquoted(input, key)` from `conl.go`. -/
def splitUnquoted (input : Str) (key : Bool) : Str × Str :=
  match key, cutChar '=' input with
  | true, some (before, after) => (trimRightWS before, trimLeftWS after)
  | _, _ =>
    match splitAtChar ';' input with
    | some (before, fromSemi) => (trimRightWS before, fromSemi)
    | none => (trimRightWS input, [])

/-- The scan inside `splitLiteral` over `input[1:]`: find the first
unescaped `"` and return the consumed middle together with the suffix
starting at that quote (`wasEsc` tracks Go's `wasEscape` flag). -/
def quotedScan (wasEsc : Bool) : Str → Option (Str × Str)
  | [] => none
  | c :: rest =>
    if c = '"' ∧ wasEsc = false then some ([], c :: rest)
    else (quotedScan (c == '\\' && !wasEsc) rest).map (fun p => (c :: p.1, p.2))

/-- `splitLiteral(input, key)` from `conl.go`. -/
def splitLiteral (input : Str) (key : Bool) : Str × Str :=
  match input with
  | '"' :: tail =>
    match quotedScan false tail with
    | some (middle, closeRest) =>
      -- Go: `splitUnquoted(input[i+1:], key)` where `input[i+1:]` starts at
      -- the closing quote; the quote is re-attached through `before`.
      let p := splitUnquoted closeRest key
      if p.1 ≠ [] then ('"' :: middle ++ p.1, p.2)
      else ('"' :: middle, p.2)
    | none => (input, [])
  | _ => splitUnquoted input key

/-! ## Literal decoding (`decodeLiteral`, `decodeMultiline`) -/

/-- The character `{` (named, to keep brace characters out of string and
character literals). -/
def lbrace : Char := Char.ofNat 123

/-- The character `}`. -/
def rbrace : Char := Char.ofNat 125

/-- An ASCII hex digit's value, if `c` is one. -/
def hexDigit? (c : Char) : Option Nat :=
  if '0' ≤ c ∧ c ≤ '9' then some (c.toNat - '0'.toNat)
  else if 'a' ≤ c ∧ c ≤ 'f' then some (c.toNat - 'a'.toNat + 10)
  else if 'A' ≤ c ∧ c ≤ 'F' then some (c.toNat - 'A'.toNat + 10)
  else none

/-- Accumulate hex digits (`none` on a non-digit). -/
def hexDigits (acc : Nat) : Str → Option Nat
  | [] => some acc
  | c :: cs =>
    match hexDigit? c with
    | some d => hexDigits (acc * 16 + d) cs
    | none => none

/-- `strconv.ParseInt(s, 16, 32)`: optional sign, non-empty hex digits,
result must fit in an `int32`. -/
def parseInt16_32 (s : Str) : Option Int :=
  let p : Bool × Str :=
    match s with
    | '+' :: rest => (false, rest)
    | '-' :: rest => (true, rest)
    | _ => (false, s)
  match p.2 with
  | [] => none
  | _ =>
    match hexDigits 0 p.2 with
    | none => none
    | some v =>
      let i : Int := if p.1 then -(v : Int) else (v : Int)
      if -(2 ^ 31 : Int) ≤ i ∧ i ≤ 2 ^ 31 - 1 then some i else none

/-- `utf8.ValidRune`. -/
def validRune (i : Int) : Prop :=
  (0 ≤ i ∧ i < 0xd800) ∨ (0xdfff < i ∧ i ≤ 0x10ffff)

instance (i : Int) : Decidable (validRune i) := by
  unfold validRune; infer_instance

/-- The `case` arm for brace escapes in `decodeLiteral`: `escape` is the
whole matched escape (starting with a backslash-brace).  Returns the
replacement, or `none` when the escape is invalid (Go `break`s out of the
switch, recording a bad escape). -/
def braceEscape (escape : Str) : Option Str :=
  if escape.getLast? ≠ some rbrace ∨ utf8Len escape = 3 ∨ utf8Len escape > 11 then
    none
  else
    match parseInt16_32 ((escape.drop 2).dropLast) with
    | none => none
    | some cp =>
      if validRune cp then
        -- `string(rune(codePoint))`
        some [Char.ofNat cp.toNat]
      else none

/-- One escape replacement (the body of the `ReplaceAllStringFunc`
callback): the replacement string, or `none` to record a bad escape (in
which case Go substitutes the escape text itself). -/
def escapeCase (escape : Str) : Option Str :=
  match escape with
  | _ :: 'n' :: _ => some ['\n']
  | _ :: 'r' :: _ => some ['\r']
  | _ :: 't' :: _ => some ['\t']
  | _ :: '"' :: _ => some ['"']
  | _ :: '\\' :: _ => some ['\\']
  | _ :: c :: _ => if c = lbrace then braceEscape escape else none
  | _ => none

/-- `escapeRegex.ReplaceAllStringFunc` over the regexp `\\(\{.*\}?|.)`,
with Go's leftmost-first semantics: at a backslash followed by an open
brace, the greedy `.*` (which excludes `\n`) extends the match to the end
of the line and the optional closing-brace part matches empty; otherwise
the escape is the backslash and the one following character.  Returns the
rewritten string and the first bad escape, if any. -/
def escapeReplaceF : Nat → Str → Str × Option Str
  | 0, _ => ([], none)
  | _ + 1, [] => ([], none)
  | _ + 1, ['\\'] => (['\\'], none)
  | fuel + 1, '\\' :: c :: rest =>
    if c = lbrace then
      let escape := '\\' :: c :: rest.takeWhile (· != '\n')
      let t := escapeReplaceF fuel (rest.dropWhile (· != '\n'))
      match escapeCase escape with
      | some repl => (repl ++ t.1, t.2)
      | none => (escape ++ t.1, some escape)
    else
      let t := escapeReplaceF fuel rest
      match escapeCase ['\\', c] with
      | some repl => (repl ++ t.1, t.2)
      | none => ('\\' :: c :: t.1, some ['\\', c])
  | fuel + 1, c :: rest =>
    let t := escapeReplaceF fuel rest
    (c :: t.1, t.2)

/-- The wrapper supplying sufficient fuel: every recursive step of
`escapeReplaceF` consumes at least one character, so `length + 1` steps
always finish the scan. -/
def escapeReplace (s : Str) : Str × Option Str :=
  escapeReplaceF (s.length + 1) s

/-- `literalRegex.FindStringSubmatch` for the anchored literal regexp: on
the text after the opening quote, return the capture group and the suffix
after the closing quote, if the regexp matches.  A backslash-dot unit
matches a backslash and any rune except `\n`; the bracket class matches
any rune except backslash and `"` (including `\n`). -/
def literalScan : Str → Option (Str × Str)
  | [] => none
  | '"' :: rest => some ([], rest)
  | '\\' :: c :: rest =>
    if c = '\n' then none
    else (literalScan rest).map (fun p => ('\\' :: c :: p.1, p.2))
  | ['\\'] => none
  | c :: rest =>
    (literalScan rest).map (fun p => (c :: p.1, p.2))

/-- `decodeLiteral(input)` from `conl.go`: returns `(value, errorMessage)`
with an empty message on success. -/
def decodeLiteral (input : Str) : Str × Str :=
  if ¬ utf8ValidString input then ([], "invalid UTF-8".data)
  else if ¬ startsWithStr ['"'] input then (input, [])
  else
    match literalScan (input.drop 1) with
    | none => ([], "unclosed quotes".data)
    | some (middle, rest) =>
      -- `len(match[0]) != len(input)`: the match is a prefix, so this says
      -- the closing quote must end the input.
      if rest ≠ [] then ([], "characters after quotes".data)
      else
        let er := escapeReplace middle
        match er.2 with
        | some b => ([], "invalid escape code: ".data ++ b)
        | none => (er.1, [])

/-- `decodeMultiline(input)` from `conl.go`. -/
def decodeMultiline (input : Str) : Str × Str :=
  if ¬ utf8ValidString input then ([], "invalid UTF-8".data)
  else (input, [])

/-! ## The raw tokenizer (`tokenize` in `conl.go`)

The Go function is a line-driven loop over mutable state; we embed it as
structural recursion over the list of numbered lines, threading the state
record `TokSt`.  The Go indentation stack appends at the end (top is
`stack[len(stack)-1]`); here the head of `TokSt.stack` is the top, so the
bottom sentinel `""` is the last element. -/

/-- The mutable state of `tokenize`. -/
structure TokSt where
  stack : List Str
  multiline : Bool
  mlPre : Str
  mlValue : Str
  mlLno : Nat
deriving Repr

/-- The initial state of `tokenize`. -/
def initTokSt : TokSt := ⟨[[]], false, [], [], 0⟩

/-- `stack[len(stack)-1]` (the stack is never empty in Go; the default is
unreachable). -/
def stackTop (st : TokSt) : Str := st.stack.headD []

/-- The pop-and-emit-`Outdent` loop: pop while the line's indent does not
extend the stack top.  Returns the new stack and the emitted tokens, in
emission order.  The loop terminates in Go because the bottom `""` is a
prefix of everything; the `[]` case is unreachable. -/
def popOutdents (lno : Nat) (indent : Str) : List Str → List Str × List (Nat × Token)
  | [] => ([], [])
  | top :: rest =>
    if startsWithStr top indent then (top :: rest, [])
    else
      let p := popOutdents lno indent rest
      (p.1, (lno, ⟨.outdent, []⟩) :: p.2)

/-- The non-multiline part of one `tokenize` loop iteration (from the
`if rest == ""` check to the end of the loop body): emitted tokens and the
updated state.  `rest` and `indent` are the split of the line computed at
the top of the loop body. -/
def keyValuePart (st : TokSt) (lno : Nat) (rest : Str) : List (Nat × Token) × TokSt :=
  -- list item or map key, leaving `rest` positioned after it
  let keyPart : List (Nat × Token) × Str :=
    match cutPre ['='] rest with
    | some l => ([(lno, ⟨.listItem, []⟩)], trimLeftWS l)
    | none =>
      let kv := splitLiteral rest true
      let r := trimLeftWS kv.2
      let r := match cutPre ['='] r with | some r' => r' | none => r
      ([(lno, ⟨.mapKey, kv.1⟩)], trimLeftWS r)
  let rest := keyPart.2
  let valuePart : List (Nat × Token) × TokSt :=
    match cutPre [';'] rest with
    | some c => ([(lno, ⟨.comment, c⟩)], st)
    | none =>
      match cutPre ['"', '"', '"'] rest with
      | some indic =>
        let p := splitLiteral indic false
        let hint := [(lno, ⟨.multilineHint, p.1⟩)]
        let com : List (Nat × Token) :=
          match cutPre [';'] p.2 with
          | some c => [(lno, ⟨.comment, c⟩)]
          | none => []
        (hint ++ com, { st with multiline := true })
      | none =>
        let p := splitLiteral rest false
        let v : List (Nat × Token) := if p.1 ≠ [] then [(lno, ⟨.value, p.1⟩)] else []
        let com : List (Nat × Token) :=
          match cutPre [';'] p.2 with
          | some c => [(lno, ⟨.comment, c⟩)]
          | none => []
        (v ++ com, st)
  (keyPart.1 ++ valuePart.1, valuePart.2)

def lineStep (st : TokSt) (lno : Nat) (rest indent : Str) : List (Nat × Token) × TokSt :=
  if rest = [] then ([], st)
  else
    match cutPre [';'] rest with
    | some c => ([(lno, ⟨.comment, c⟩)], st)
    | none =>
      let pop := popOutdents lno indent st.stack
      let pushed : List (Nat × Token) × List Str :=
        if indent ≠ pop.1.headD [] then ([(lno, ⟨.indent, indent⟩)], indent :: pop.1)
        else ([], pop.1)
      let kv := keyValuePart { st with stack := pushed.2 } lno rest
      (pop.2 ++ pushed.1 ++ kv.1, kv.2)

/-- Result of the multiline check at the head of the `tokenize` loop body:
emitted tokens, updated state, and whether the iteration `continue`s
without processing the line further.  `rest` and `indent` are the split
of `content` computed at the top of the loop body. -/
def mlStep (st : TokSt) (lno : Nat) (content rest indent : Str) :
    List (Nat × Token) × TokSt × Bool :=
  if st.multiline = false then ([], st, false)
  else
    if st.mlPre = [] then
      if startsWithStr (stackTop st) indent ∧ indent ≠ stackTop st then
        ([], { st with mlPre := indent, mlValue := rest, mlLno := lno }, true)
      else if rest = [] then ([], st, true)
      else ([], { st with multiline := false }, false)
    else
      match cutPre st.mlPre content with
      | some r => ([], { st with mlValue := st.mlValue ++ '\n' :: r }, true)
      | none =>
        -- Go shadows `rest` with the `CutPrefix` result, which on a failed
        -- cut is the whole *untrimmed* line, so the blank-continuation
        -- check here is `content == ""`, not the trimmed `rest`.
        if content = [] then ([], { st with mlValue := st.mlValue ++ ['\n'] }, true)
        else
          ([(st.mlLno, ⟨.multilineValue, trimRightWSNL st.mlValue⟩)],
            { st with multiline := false, mlPre := [], mlValue := [] }, false)

/-- The `tokenize` loop over the numbered lines (`n` is the current line
number), including the trailing multiline flush after the loop. -/
def tokenizeAux : Nat → List Str → TokSt → List (Nat × Token)
  | _, [], st =>
    if st.mlValue ≠ [] then [(st.mlLno, ⟨.multilineValue, trimRightWSNL st.mlValue⟩)]
    else []
  | n, content :: rest, st =>
    let r := trimLeftWS content
    let indent := content.take (content.length - r.length)
    let m := mlStep st n content r indent
    if m.2.2 then m.1 ++ tokenizeAux (n + 1) rest m.2.1
    else
      let l := lineStep m.2.1 n r indent
      m.1 ++ l.1 ++ tokenizeAux (n + 1) rest l.2

/-- `tokenize(input)` from `conl.go`: the full raw token stream with
1-based line numbers. -/
def tokenize (input : Str) : List (Nat × Token) :=
  tokenizeAux 1 (splitLines input) initTokSt

/-! ## The normalizer (`Tokens` in `conl.go`) -/

/-- `parseState`. -/
inductive PState where
  | unknown | listItem | listValue | listMultiline | mapKey | mapValue | mapMultiline
deriving DecidableEq, Repr

/-- `yieldDecoded`: decode the token's content as a literal, yielding an
`Error` token on failure. -/
def yieldDecoded (lno : Nat) (tok : Token) : Nat × Token :=
  let d := decodeLiteral tok.content
  if d.2 ≠ [] then (lno, ⟨.error, d.2⟩) else (lno, ⟨tok.kind, d.1⟩)

/-- `yieldChecked`: UTF-8 check (constantly valid in this model, see
`utf8ValidString`). -/
def yieldChecked (lno : Nat) (tok : Token) : Nat × Token :=
  if utf8ValidString tok.content = false then (lno, ⟨.error, "invalid UTF-8".data⟩)
  else (lno, tok)

/-- `yieldMultiline`: decode via `decodeMultiline`. -/
def yieldMultiline (lno : Nat) (tok : Token) : Nat × Token :=
  let d := decodeMultiline tok.content
  if d.2 ≠ [] then (lno, ⟨.error, d.2⟩) else (lno, ⟨tok.kind, d.1⟩)

/-- One step of the normalizer state machine in `Tokens`: the emitted
tokens and the updated state stack (head is the innermost level, matching
Go's `states[len(states)-1]`).  Popping an empty tail (which would make
the Go code panic on its next access) is modelled by `List.tail`; it is
unreachable for streams produced by `tokenize`. -/
def normStep (states : List PState) (lno : Nat) (tok : Token) :
    List (Nat × Token) × List PState :=
  let state := states.headD .unknown
  let rest := states.tail
  match tok.kind with
  | .comment => ([yieldChecked lno tok], states)
  | .indent =>
    match state with
    | .listValue => ([(lno, tok)], .unknown :: .listItem :: rest)
    | .mapValue => ([(lno, tok)], .unknown :: .mapKey :: rest)
    | _ => ([(lno, ⟨.error, "unexpected indent".data⟩)], .unknown :: state :: rest)
  | .outdent =>
    match state with
    | .listItem | .mapKey => ([(lno, tok)], rest)
    | .listValue | .mapValue => ([(lno, ⟨.noValue, []⟩), (lno, tok)], rest)
    | _ => ([(lno, ⟨.error, "unexpected outdent".data⟩)], rest)
  | .listItem =>
    match state with
    | .unknown | .listItem => ([(lno, tok)], .listValue :: rest)
    | .listValue => ([(lno, ⟨.noValue, []⟩), (lno, tok)], states)
    | _ => ([(lno, ⟨.error, "unexpected list item".data⟩)], states)
  | .mapKey =>
    match state with
    | .unknown | .mapKey => ([yieldDecoded lno tok], .mapValue :: rest)
    | .mapValue => ([(lno, ⟨.noValue, []⟩), yieldDecoded lno tok], states)
    | _ => ([(lno, ⟨.error, "unexpected map key".data⟩)], states)
  | .value =>
    match state with
    | .listValue => ([yieldDecoded lno tok], .listItem :: rest)
    | .mapValue => ([yieldDecoded lno tok], .mapKey :: rest)
    | _ => ([(lno, ⟨.error, "unexpected value".data⟩)], states)
  | .multilineHint =>
    match state with
    | .listValue => ([yieldChecked lno tok], .listMultiline :: rest)
    | .mapValue => ([yieldChecked lno tok], .mapMultiline :: rest)
    | _ => ([(lno, ⟨.error, "unexpected multiline hint".data⟩)], states)
  | .multilineValue =>
    match state with
    | .listValue | .listMultiline => ([yieldMultiline lno tok], .listItem :: rest)
    | .mapValue | .mapMultiline => ([yieldMultiline lno tok], .mapKey :: rest)
    | _ => ([(lno, ⟨.error, "unexpected value".data⟩)], states)
  | _ => ([], states)

/-- The end-of-stream flush of `Tokens`: close every outstanding level
(`for len(states) > 1`), then the final switch on the bottom state. -/
def normFlush : List PState → Nat → List (Nat × Token)
  | [], _ => []
  | [s], l =>
    match s with
    | .listValue | .mapValue => [(l, ⟨.noValue, []⟩)]
    | .listItem | .mapKey | .unknown => []
    | _ => [(l, ⟨.error, "missing value".data⟩)]
  | s :: s2 :: rest, l =>
    (match s with
      | .listValue | .mapValue => [(l, ⟨.noValue, []⟩), (l, ⟨.outdent, []⟩)]
      | .listItem | .mapKey => [(l, ⟨.outdent, []⟩)]
      | _ => [(l, ⟨.error, "missing value".data⟩)]) ++ normFlush (s2 :: rest) l

/-- The normalizer loop of `Tokens`, threading the state stack and
`lastLine`. -/
def normAux : List (Nat × Token) → List PState → Nat → List (Nat × Token)
  | [], states, lastLine => normFlush states lastLine
  | (lno, tok) :: rest, states, _ =>
    let s := normStep states lno tok
    s.1 ++ normAux rest s.2 lno

/-- `Tokens(input)` from `conl.go`: the normalized token stream with
1-based line numbers. -/
def Tokens (input : Str) : List (Nat × Token) :=
  normAux (tokenize input) [.unknown] 0

/-! ## Line-number monotonicity of the token stream (claim C9) -/

/-- Weaken the head of a `≤`-chain. -/
lemma chain'_le_head_mono {p q : Nat} {l : List Nat} (h : p ≤ q)
    (hc : List.Chain' (· ≤ ·) (q :: l)) : List.Chain' (· ≤ ·) (p :: l) := by
  cases l with
  | nil => simp
  | cons a l =>
    rw [List.chain'_cons] at hc ⊢
    exact ⟨le_trans h hc.1, hc.2⟩

/-- Prepend a block of equal entries to a `≤`-chain. -/
lemma chain'_le_block {l₁ l₂ : List Nat} {p n : Nat} (hpn : p ≤ n)
    (h1 : ∀ x ∈ l₁, x = n) (h2 : List.Chain' (· ≤ ·) (n :: l₂)) :
    List.Chain' (· ≤ ·) (p :: (l₁ ++ l₂)) := by
  induction l₁ generalizing p with
  | nil => exact chain'_le_head_mono hpn h2
  | cons a l₁ ih =>
    have ha : a = n := h1 a (by simp)
    subst ha
    rw [List.cons_append, List.chain'_cons]
    exact ⟨hpn, ih le_rfl (fun x hx => h1 x (by simp [hx]))⟩

/-- All tokens emitted by the `Outdent`-popping loop are on the current
line. -/
lemma popOutdents_fst (lno : Nat) (indent : Str) :
    ∀ (stk : List Str), ∀ x ∈ (popOutdents lno indent stk).2, x.1 = lno := by
  intro stk
  induction stk with
  | nil => simp [popOutdents]
  | cons top rest ih =>
    intro x hx
    simp only [popOutdents] at hx
    split at hx
    · simp at hx
    · simp only [List.mem_cons] at hx
      rcases hx with h | h
      · rw [h]
      · exact ih x h

/-- All tokens emitted by the key/value part are on the current line. -/
lemma keyValuePart_fst (st : TokSt) (lno : Nat) (rest : Str) :
    ∀ x ∈ (keyValuePart st lno rest).1, x.1 = lno := by
  intro x hx
  simp only [keyValuePart, List.mem_append] at hx
  rcases hx with h | h
  · split at h <;> (simp at h; rw [h])
  · split at h
    · simp at h; rw [h]
    · split at h
      · simp only [List.mem_append] at h
        rcases h with h | h
        · simp at h; rw [h]
        · split at h <;> simp_all
      · simp only [List.mem_append] at h
        rcases h with h | h
        · split at h <;> simp_all
        · split at h <;> simp_all

/-- All tokens emitted by `lineStep` are on the current line. -/
lemma lineStep_fst (st : TokSt) (lno : Nat) (rest indent : Str) :
    ∀ x ∈ (lineStep st lno rest indent).1, x.1 = lno := by
  intro x hx
  have hout := popOutdents_fst lno indent st.stack
  simp only [lineStep] at hx
  split at hx
  · simp at hx
  · split at hx
    · simp at hx; rw [hx]
    · simp only [List.append_assoc, List.mem_append] at hx
      rcases hx with h | h | h
      · exact hout x h
      · split at h <;> simp_all
      · exact keyValuePart_fst _ lno rest x h

/-- The key/value part does not touch the stack or the capture fields
(it may only arm `multiline`). -/
lemma keyValuePart_state (st : TokSt) (lno : Nat) (rest : Str) :
    (keyValuePart st lno rest).2.stack = st.stack ∧
    (keyValuePart st lno rest).2.mlPre = st.mlPre ∧
    (keyValuePart st lno rest).2.mlValue = st.mlValue ∧
    (keyValuePart st lno rest).2.mlLno = st.mlLno := by
  simp only [keyValuePart]
  refine ⟨?_, ?_, ?_, ?_⟩ <;> (repeat' split) <;> rfl

/-- `lineStep` does not touch the multiline capture fields. -/
lemma lineStep_mlFields (st : TokSt) (lno : Nat) (rest indent : Str) :
    (lineStep st lno rest indent).2.mlPre = st.mlPre ∧
    (lineStep st lno rest indent).2.mlValue = st.mlValue ∧
    (lineStep st lno rest indent).2.mlLno = st.mlLno := by
  simp only [lineStep]
  split
  · exact ⟨rfl, rfl, rfl⟩
  · split
    · exact ⟨rfl, rfl, rfl⟩
    · have h := keyValuePart_state
        { st with stack :=
            ((if indent ≠ (popOutdents lno indent st.stack).1.headD [] then
              ([(lno, ⟨.indent, indent⟩)], indent :: (popOutdents lno indent st.stack).1)
            else ([], (popOutdents lno indent st.stack).1) :
              List (Nat × Token) × List Str)).2 } lno rest
      exact ⟨h.2.1, h.2.2.1, h.2.2.2⟩

/-- The state invariant for the line-number proofs: `p` is the line of the
last emitted token, `n` the next line to be read.  A fixed multiline
capture was opened strictly earlier than `n` but no earlier than `p`, and
a pending multiline buffer only exists inside a fixed capture. -/
def TInv (st : TokSt) (n p : Nat) : Prop :=
  (st.multiline = true ∧ st.mlPre ≠ [] → p ≤ st.mlLno ∧ st.mlLno < n) ∧
  (st.mlValue ≠ [] → st.multiline = true ∧ st.mlPre ≠ []) ∧
  (st.multiline = false → st.mlPre = [])

/-- A non-empty strict extension: if `indent` strictly extends `top` then
it is non-empty. -/
lemma startsWith_ne_nil {top indent : Str}
    (h1 : startsWithStr top indent = true) (h2 : indent ≠ top) : indent ≠ [] := by
  intro he
  subst he
  cases top with
  | nil => exact h2 rfl
  | cons c cs => simp [startsWithStr] at h1

/-! Equation lemmas for `mlStep`, one per branch of its decision tree. -/

lemma mlStep_off {st : TokSt} (h : st.multiline = false) (lno : Nat)
    (content rest indent : Str) :
    mlStep st lno content rest indent = ([], st, false) := by
  simp [mlStep, h]

lemma mlStep_fix {st : TokSt} (h : st.multiline = true) (h2 : st.mlPre = [])
    (lno : Nat) (content rest indent : Str)
    (h3 : startsWithStr (stackTop st) indent = true) (h4 : indent ≠ stackTop st) :
    mlStep st lno content rest indent =
      ([], { st with mlPre := indent, mlValue := rest, mlLno := lno }, true) := by
  simp [mlStep, h, h2, h3, h4]

lemma mlStep_blank1 {st : TokSt} (h : st.multiline = true) (h2 : st.mlPre = [])
    (lno : Nat) (content rest indent : Str)
    (h3 : ¬ (startsWithStr (stackTop st) indent = true ∧ indent ≠ stackTop st))
    (h4 : rest = []) :
    mlStep st lno content rest indent = ([], st, true) := by
  simp only [mlStep, h, h2, h4]
  simp [h3]

lemma mlStep_abort {st : TokSt} (h : st.multiline = true) (h2 : st.mlPre = [])
    (lno : Nat) (content rest indent : Str)
    (h3 : ¬ (startsWithStr (stackTop st) indent = true ∧ indent ≠ stackTop st))
    (h4 : rest ≠ []) :
    mlStep st lno content rest indent = ([], { st with multiline := false }, false) := by
  simp only [mlStep, h, h2]
  simp [h3, h4]

lemma mlStep_append {st : TokSt} (h : st.multiline = true) (h2 : st.mlPre ≠ [])
    (lno : Nat) (content rest indent : Str) {r : Str}
    (h3 : cutPre st.mlPre content = some r) :
    mlStep st lno content rest indent =
      ([], { st with mlValue := st.mlValue ++ '\n' :: r }, true) := by
  simp [mlStep, h, h2, h3]

lemma mlStep_blank2 {st : TokSt} (h : st.multiline = true) (h2 : st.mlPre ≠ [])
    (lno : Nat) (content rest indent : Str)
    (h3 : cutPre st.mlPre content = none) (h4 : content = []) :
    mlStep st lno content rest indent =
      ([], { st with mlValue := st.mlValue ++ ['\n'] }, true) := by
  subst h4
  simp [mlStep, h, h2, h3]

lemma mlStep_finish {st : TokSt} (h : st.multiline = true) (h2 : st.mlPre ≠ [])
    (lno : Nat) (content rest indent : Str)
    (h3 : cutPre st.mlPre content = none) (h4 : content ≠ []) :
    mlStep st lno content rest indent =
      ([(st.mlLno, ⟨.multilineValue, trimRightWSNL st.mlValue⟩)],
        { st with multiline := false, mlPre := [], mlValue := [] }, false) := by
  simp [mlStep, h, h2, h3, h4]

/-- Line numbers in the raw token stream are non-decreasing, starting
from the line `p` of the last token already emitted. -/
lemma tokenizeAux_chain (ls : List Str) :
    ∀ (n p : Nat) (st : TokSt), TInv st n p → p ≤ n →
      List.Chain' (· ≤ ·) (p :: (tokenizeAux n ls st).map Prod.fst) := by
  induction ls with
  | nil =>
    intro n p st hinv _
    simp only [tokenizeAux]
    split
    · rename_i hv
      have h1 := hinv.1 (hinv.2.1 hv)
      simp [List.chain'_cons, h1.1]
    · simp
  | cons content rest ih =>
    intro n p st hinv hpn
    simp only [tokenizeAux]
    have hline : ∀ (st' : TokSt) (q : Nat), q ≤ n → st'.multiline = false →
        st'.mlPre = [] → st'.mlValue = [] →
        List.Chain' (· ≤ ·)
          (q :: ((lineStep st' n (trimLeftWS content)
              (content.take (content.length - (trimLeftWS content).length))).1 ++
            tokenizeAux (n + 1) rest
              (lineStep st' n (trimLeftWS content)
                (content.take (content.length - (trimLeftWS content).length))).2).map
            Prod.fst) := by
      intro st' q hq hml hpre hval
      rw [List.map_append]
      refine chain'_le_block hq (fun x hx => ?_) (ih (n + 1) n _ ?_ (by omega))
      · simp only [List.mem_map] at hx
        obtain ⟨y, hy, hxy⟩ := hx
        rw [← hxy]
        exact lineStep_fst _ _ _ _ y hy
      · obtain ⟨hp1, hp2, hp3⟩ := lineStep_mlFields st' n (trimLeftWS content)
          (content.take (content.length - (trimLeftWS content).length))
        refine ⟨fun h => absurd (hp1.trans hpre) h.2, fun h => absurd (hp2.trans hval) h,
          fun _ => hp1.trans hpre⟩
    by_cases hml : st.multiline = false
    · have hpre := hinv.2.2 hml
      have hval : st.mlValue = [] := by
        by_contra hv
        exact absurd ((hinv.2.1 hv).1) (by simp [hml])
      rw [mlStep_off hml]
      simp only [List.nil_append]
      exact hline st p hpn hml hpre hval
    · have hml' : st.multiline = true := by
        cases h : st.multiline
        · exact absurd h hml
        · rfl
      by_cases hpre : st.mlPre = []
      · have hval : st.mlValue = [] := by
          by_contra hv
          exact absurd (hinv.2.1 hv).2 (by simp [hpre])
        by_cases hfix : startsWithStr (stackTop st)
              (content.take (content.length - (trimLeftWS content).length)) = true ∧
            content.take (content.length - (trimLeftWS content).length) ≠ stackTop st
        · rw [mlStep_fix hml' hpre n content (trimLeftWS content) _ hfix.1 hfix.2]
          simp only [List.nil_append]
          refine ih (n + 1) p _ ?_ (by omega)
          exact ⟨fun _ => ⟨hpn, Nat.lt_succ_self n⟩,
            fun _ => ⟨hml', startsWith_ne_nil hfix.1 hfix.2⟩,
            fun hf => absurd (hml'.symm.trans hf) (by decide)⟩
        · by_cases hrest : trimLeftWS content = []
          · rw [mlStep_blank1 hml' hpre n content (trimLeftWS content) _ hfix hrest]
            simp only [List.nil_append]
            refine ih (n + 1) p st ?_ (by omega)
            exact ⟨fun h => absurd hpre h.2, fun h => absurd hval h, fun _ => hpre⟩
          · rw [mlStep_abort hml' hpre n content (trimLeftWS content) _ hfix hrest]
            simp only [List.nil_append]
            exact hline { st with multiline := false } p hpn rfl hpre hval
      · have hbound := hinv.1 ⟨hml', hpre⟩
        cases hcp : cutPre st.mlPre content with
        | some r =>
          rw [mlStep_append hml' hpre n content (trimLeftWS content) _ hcp]
          simp only [List.nil_append]
          refine ih (n + 1) p _ ?_ (by omega)
          exact ⟨fun _ => ⟨hbound.1, Nat.lt_succ_of_lt hbound.2⟩, fun _ => ⟨hml', hpre⟩,
            fun hf => absurd (hml'.symm.trans hf) (by decide)⟩
        | none =>
          by_cases hrest : content = []
          · rw [mlStep_blank2 hml' hpre n content (trimLeftWS content) _ hcp hrest]
            simp only [List.nil_append]
            refine ih (n + 1) p _ ?_ (by omega)
            exact ⟨fun _ => ⟨hbound.1, Nat.lt_succ_of_lt hbound.2⟩, fun _ => ⟨hml', hpre⟩,
              fun hf => absurd (hml'.symm.trans hf) (by decide)⟩
          · rw [mlStep_finish hml' hpre n content (trimLeftWS content) _ hcp hrest]
            simp only [Bool.false_eq_true, if_false, List.singleton_append, List.cons_append]
            rw [List.map_cons, List.chain'_cons]
            exact ⟨hbound.1,
              hline { st with multiline := false, mlPre := [], mlValue := [] }
                st.mlLno (le_of_lt hbound.2) rfl rfl rfl⟩


/-- `yieldDecoded` emits on the given line. -/
lemma yieldDecoded_fst (lno : Nat) (tok : Token) : (yieldDecoded lno tok).1 = lno := by
  simp only [yieldDecoded]
  split <;> rfl

/-- `yieldChecked` emits on the given line. -/
lemma yieldChecked_fst (lno : Nat) (tok : Token) : (yieldChecked lno tok).1 = lno := by
  simp only [yieldChecked]
  split <;> rfl

/-- `yieldMultiline` emits on the given line. -/
lemma yieldMultiline_fst (lno : Nat) (tok : Token) : (yieldMultiline lno tok).1 = lno := by
  simp only [yieldMultiline]
  split <;> rfl

/-- Every token emitted by a normalizer step is on the line of the raw
token being processed. -/
lemma normStep_fst (states : List PState) (lno : Nat) (tok : Token) :
    ∀ x ∈ (normStep states lno tok).1, x.1 = lno := by
  intro x hx
  rcases tok with ⟨k, c⟩
  cases k <;> simp only [normStep] at hx <;> (try split at hx) <;>
    simp only [List.mem_singleton, List.mem_cons, List.not_mem_nil, or_false] at hx <;>
    first
      | exact hx.elim
      | (rcases hx with h | h <;> subst h <;>
          simp [yieldDecoded_fst, yieldChecked_fst, yieldMultiline_fst])
      | (subst hx; simp [yieldDecoded_fst, yieldChecked_fst, yieldMultiline_fst])

/-- Every token emitted by the end-of-stream flush is on `lastLine`. -/
lemma normFlush_fst (l : Nat) :
    ∀ (states : List PState), ∀ x ∈ normFlush states l, x.1 = l := by
  intro states
  induction states with
  | nil => simp [normFlush]
  | cons s rest ih =>
    intro x hx
    cases rest with
    | nil =>
      simp only [normFlush] at hx
      split at hx <;> simp_all
    | cons s2 rest2 =>
      simp only [normFlush, List.mem_append] at hx
      rcases hx with h | h
      · split at h <;> simp only [List.mem_singleton, List.mem_cons, List.not_mem_nil,
          or_false] at h <;>
          first
            | (rcases h with h | h <;> subst h <;> rfl)
            | (subst h; rfl)
      · exact ih x h

/-- A chain with a constant tail. -/
lemma chain'_le_of_const {l : List Nat} {p n : Nat} (hpn : p ≤ n)
    (h : ∀ x ∈ l, x = n) : List.Chain' (· ≤ ·) (p :: l) := by
  have := @chain'_le_block l [] p n hpn h (by simp)
  simpa using this

/-- The normalizer preserves monotone line numbers: tokens are emitted on
the line of the raw token being consumed, and the flush on the last line
seen. -/
lemma normAux_chain :
    ∀ (raw : List (Nat × Token)) (states : List PState) (last : Nat),
      List.Chain' (· ≤ ·) (last :: raw.map Prod.fst) →
      List.Chain' (· ≤ ·) (last :: (normAux raw states last).map Prod.fst) := by
  intro raw
  induction raw with
  | nil =>
    intro states last _
    exact chain'_le_of_const le_rfl (by
      intro x hx
      simp only [List.mem_map] at hx
      obtain ⟨y, hy, hxy⟩ := hx
      rw [← hxy]
      exact normFlush_fst last states y (by simpa [normAux] using hy))
  | cons hd rest ih =>
    intro states last hc
    obtain ⟨lno, tok⟩ := hd
    simp only [List.map_cons, List.chain'_cons] at hc
    simp only [normAux, List.map_append]
    refine chain'_le_block hc.1 (fun x hx => ?_) (ih _ lno hc.2)
    simp only [List.mem_map] at hx
    obtain ⟨y, hy, hxy⟩ := hx
    rw [← hxy]
    exact normStep_fst states lno tok y hy

/-- The full normalized stream has non-decreasing line numbers (with the
virtual initial `lastLine = 0`). -/
lemma tokens_chain (input : Str) :
    List.Chain' (· ≤ ·) (0 :: (Tokens input).map Prod.fst) := by
  refine normAux_chain _ _ _ ?_
  refine tokenizeAux_chain (splitLines input) 1 0 initTokSt ?_ (by omega)
  exact ⟨fun h => absurd h.1 (by decide), fun h => absurd rfl h, fun _ => rfl⟩

/-- **C9** (confirmed): for every input string, the tokens yielded by
`Tokens` carry non-decreasing line numbers throughout the stream — in
particular the `MultilineValue` token emitted when a multiline capture is
terminated by a later line (it is stamped with the line the capture
started on, which lies strictly between the hint line and the current
line), and the synthetic `NoValue`/`Outdent`/`Error` tokens emitted at end
of stream (stamped with the last line seen). -/
theorem c9_tokens_lines_monotone (input : Str) :
    List.Chain' (fun a b : Nat × Token => a.1 ≤ b.1) (Tokens input) := by
  have h := (tokens_chain input).tail
  simpa [List.chain'_map] using h

/-! ## Stream well-formedness (claim C2)

Predicates expressing the claimed invariants of the normalized stream:
proper `Indent`/`Outdent` nesting, and the follower set of
`MapKey`/`ListItem` tokens. -/

/-- Proper nesting starting with `d` open levels: every `Indent` is closed
by a matching `Outdent` and the stream never closes more than it opened. -/
def nestedB (d : Nat) : List (Nat × Token) → Bool
  | [] => d == 0
  | (_, t) :: rest =>
    match t.kind with
    | .indent => nestedB (d + 1) rest
    | .outdent => decide (0 < d) && nestedB (d - 1) rest
    | _ => nestedB d rest

/-- The follower sets: the token kinds the claim allows immediately after
a `MapKey`/`ListItem` (ignoring comments). -/
def allowedClaim : TokenKind → Bool
  | .value | .multilineValue | .noValue | .indent => true
  | _ => false

/-- The follower set as amended: the normalizer may also answer a key with
a `MultilineHint` (and, on malformed input, an `Error`, excluded here by
the no-`Error` hypothesis). -/
def allowedAmended : TokenKind → Bool
  | .value | .multilineValue | .noValue | .indent | .multilineHint => true
  | _ => false

/-- Scan of the follower property: `expect` records whether the previous
non-comment token was a `MapKey`/`ListItem`; such a token must be
followed (ignoring comments) by a token of an allowed kind, and the
stream must not end while one is expected. -/
def followsB (allowed : TokenKind → Bool) : Bool → List (Nat × Token) → Bool
  | expect, [] => !expect
  | expect, (_, t) :: rest =>
    if t.kind = .comment then followsB allowed expect rest
    else (!expect || allowed t.kind) &&
      followsB allowed (t.kind == .mapKey || t.kind == .listItem) rest

/-- No `Error` tokens in the stream. -/
def noErrTok (ts : List (Nat × Token)) : Bool := ts.all (fun x => x.2.kind != .error)

/-- Raw-stream balance relative to a normalizer stack of height `n`:
every `Outdent` arrives while at least two levels are open, so the
normalizer's state stack never underflows. -/
def okRaw (n : Nat) : List (Nat × Token) → Prop
  | [] => True
  | (_, t) :: rest =>
    match t.kind with
    | .indent => okRaw (n + 1) rest
    | .outdent => 2 ≤ n ∧ okRaw (n - 1) rest
    | _ => okRaw n rest

/-- Tokens that are neither `Indent` nor `Outdent` are transparent to
`okRaw`. -/
lemma okRaw_transparent {n : Nat} {l rest : List (Nat × Token)}
    (h : ∀ x ∈ l, x.2.kind ≠ .indent ∧ x.2.kind ≠ .outdent) :
    okRaw n (l ++ rest) ↔ okRaw n rest := by
  induction l with
  | nil => simp
  | cons hd tl ih =>
    obtain ⟨h1, h2⟩ := h hd (by simp)
    obtain ⟨lno, t⟩ := hd
    rw [List.cons_append]
    have heq : okRaw n ((lno, t) :: (tl ++ rest)) ↔ okRaw n (tl ++ rest) := by
      rcases t with ⟨k, c⟩
      cases k
      case indent => exact absurd rfl h1
      case outdent => exact absurd rfl h2
      all_goals exact Iff.rfl
    rw [heq]
    exact ih (fun x hx => h x (by simp [hx]))

/-- Invariant of the tokenizer's indentation stack: non-empty with the
empty-string sentinel at the bottom. -/
def SInv (stk : List Str) : Prop := stk ≠ [] ∧ stk.getLast? = some ([] : Str)

/-- The tail of a sentinelled stack is sentinelled when non-empty. -/
lemma sinv_tail {top : Str} {tl : List Str} (h : SInv (top :: tl)) (hne : tl ≠ []) :
    SInv tl := by
  obtain ⟨a, b, rfl⟩ := List.exists_cons_of_ne_nil hne
  have h2 := h.2
  rw [List.getLast?_cons_cons] at h2
  exact ⟨by simp, h2⟩

/-- When the pop loop recurses, the popped stack is non-empty (the bottom
sentinel is a prefix of every indent). -/
lemma pop_tail_ne {top indent : Str} {tl : List Str} (h : SInv (top :: tl))
    (hns : ¬ startsWithStr top indent = true) : tl ≠ [] := by
  intro he
  subst he
  have : top = [] := by simpa [List.getLast?] using h.2
  subst this
  simp [startsWithStr] at hns

/-- `popOutdents` keeps the sentinel at the bottom. -/
lemma popOutdents_sinv (lno : Nat) (indent : Str) :
    ∀ {stk : List Str}, SInv stk → SInv (popOutdents lno indent stk).1 := by
  intro stk
  induction stk with
  | nil => intro h; exact absurd rfl h.1
  | cons top tl ih =>
    intro h
    simp only [popOutdents]
    split
    · exact h
    · rename_i hns
      dsimp only
      exact ih (sinv_tail h (pop_tail_ne h hns))

/-- Peeling the emitted `Outdent`s of `popOutdents` off an `okRaw` stream. -/
lemma popOutdents_okRaw (lno : Nat) (indent : Str) :
    ∀ {stk : List Str}, SInv stk → ∀ {tail : List (Nat × Token)},
      okRaw (popOutdents lno indent stk).1.length tail →
      okRaw stk.length ((popOutdents lno indent stk).2 ++ tail) := by
  intro stk
  induction stk with
  | nil => intro h; exact absurd rfl h.1
  | cons top tl ih =>
    intro h tail htail
    by_cases hns : startsWithStr top indent = true
    · simp only [popOutdents, if_pos hns] at htail ⊢
      simpa using htail
    · have hne := pop_tail_ne h hns
      simp only [popOutdents, if_neg hns] at htail ⊢
      rw [List.cons_append]
      refine ⟨?_, ?_⟩
      · simp only [List.length_cons]
        have : 1 ≤ tl.length := List.length_pos.mpr hne
        omega
      · simpa using ih (sinv_tail h hne) htail

/-- A sentinelled stack stays sentinelled under a push. -/
lemma sinv_cons {s : List Str} (a : Str) (h : SInv s) : SInv (a :: s) := by
  obtain ⟨b, t, rfl⟩ := List.exists_cons_of_ne_nil h.1
  exact ⟨by simp, by rw [List.getLast?_cons_cons]; exact h.2⟩

/-- The key/value part emits no `Indent`/`Outdent` tokens. -/
lemma keyValuePart_kinds (st : TokSt) (lno : Nat) (rest : Str) :
    ∀ x ∈ (keyValuePart st lno rest).1, x.2.kind ≠ .indent ∧ x.2.kind ≠ .outdent := by
  intro x hx
  simp only [keyValuePart, List.mem_append] at hx
  rcases hx with h | h
  · split at h <;> (simp at h; rw [h]; simp)
  · split at h
    · simp at h; rw [h]; simp
    · split at h
      · simp only [List.mem_append] at h
        rcases h with h | h
        · simp at h; rw [h]; simp
        · split at h <;> simp_all
      · simp only [List.mem_append] at h
        rcases h with h | h
        · split at h <;> simp_all
        · split at h <;> simp_all

/-- The multiline part keeps the stack unchanged. -/
lemma mlStep_stack (st : TokSt) (lno : Nat) (content rest indent : Str) :
    (mlStep st lno content rest indent).2.1.stack = st.stack := by
  simp only [mlStep]
  (repeat' split) <;> rfl

/-- The multiline part emits only `MultilineValue` tokens. -/
lemma mlStep_kinds (st : TokSt) (lno : Nat) (content rest indent : Str) :
    ∀ x ∈ (mlStep st lno content rest indent).1,
      x.2.kind ≠ .indent ∧ x.2.kind ≠ .outdent := by
  intro x hx
  simp only [mlStep] at hx
  (repeat' split at hx) <;> simp_all

/-- `lineStep` preserves the stack invariant, and its emissions respect
`okRaw` relative to the stack heights before and after. -/
lemma lineStep_okRaw (st : TokSt) (lno : Nat) (rest indent : Str) (h : SInv st.stack) :
    SInv (lineStep st lno rest indent).2.stack ∧
    ∀ tail : List (Nat × Token),
      okRaw (lineStep st lno rest indent).2.stack.length tail →
      okRaw st.stack.length ((lineStep st lno rest indent).1 ++ tail) := by
  by_cases hre : rest = []
  · simp only [lineStep, if_pos hre]
    exact ⟨h, fun tail ht => by simpa using ht⟩
  · cases hcm : cutPre [';'] rest with
    | some c =>
      simp only [lineStep, if_neg hre, hcm]
      exact ⟨h, fun tail ht =>
        (okRaw_transparent (by simp)).mpr ht⟩
    | none =>
      simp only [lineStep, if_neg hre, hcm]
      set pop := popOutdents lno indent st.stack with hpop
      have hsp : SInv pop.1 := popOutdents_sinv lno indent h
      by_cases hpi : indent ≠ pop.1.headD []
      · simp only [if_pos hpi]
        have hkv := keyValuePart_state { st with stack := indent :: pop.1 } lno rest
        constructor
        · rw [hkv.1]
          exact sinv_cons indent hsp
        · intro tail ht
          rw [hkv.1] at ht
          simp only [List.append_assoc]
          refine popOutdents_okRaw lno indent h ?_
          rw [List.cons_append]
          show okRaw (pop.1.length + 1)
            ((keyValuePart { st with stack := indent :: pop.1 } lno rest).1 ++ tail)
          exact (okRaw_transparent (keyValuePart_kinds _ lno rest)).mpr (by simpa using ht)
      · simp only [if_neg hpi]
        have hkv := keyValuePart_state { st with stack := pop.1 } lno rest
        constructor
        · rw [hkv.1]
          exact hsp
        · intro tail ht
          rw [hkv.1] at ht
          simp only [List.append_assoc, List.nil_append]
          refine popOutdents_okRaw lno indent h ?_
          refine (okRaw_transparent ?_).mpr ht
          exact keyValuePart_kinds _ lno rest

/-- The raw stream produced by the tokenizer is balanced relative to the
initial stack height. -/
lemma tokenizeAux_okRaw :
    ∀ (ls : List Str) (n : Nat) (st : TokSt), SInv st.stack →
      okRaw st.stack.length (tokenizeAux n ls st) := by
  intro ls
  induction ls with
  | nil =>
    intro n st _
    simp only [tokenizeAux]
    split <;> trivial
  | cons content rest ih =>
    intro n st h
    simp only [tokenizeAux]
    set r := trimLeftWS content with hr
    set ind := content.take (content.length - r.length) with hind
    set m := mlStep st n content r ind with hm
    have hms : m.2.1.stack = st.stack := by rw [hm]; exact mlStep_stack st n content r ind
    have hmk : ∀ x ∈ m.1, x.2.kind ≠ .indent ∧ x.2.kind ≠ .outdent := by
      rw [hm]; exact mlStep_kinds st n content r ind
    cases hsk : m.2.2
    · simp only [hsk, Bool.false_eq_true, if_false]
      have hls := lineStep_okRaw m.2.1 n r ind (by rw [hms]; exact h)
      rw [List.append_assoc]
      refine (okRaw_transparent hmk).mpr ?_
      rw [← hms]
      exact hls.2 _ (ih (n + 1) _ hls.1)
    · simp only [hsk, if_true]
      refine (okRaw_transparent hmk).mpr ?_
      rw [← hms]
      exact ih (n + 1) m.2.1 (by rw [hms]; exact h)

/-- The raw token stream of any input is balanced for a unit-height
normalizer stack. -/
lemma tokenize_okRaw (input : Str) : okRaw 1 (tokenize input) := by
  have h := tokenizeAux_okRaw (splitLines input) 1 initTokSt ⟨by simp [initTokSt], rfl⟩
  simpa [initTokSt] using h

/-- All normalizer states below the top are completed levels
(`mapKey`/`listItem`): an `Indent` records its parent as awaiting the
next key/item. -/
def belowOK (states : List PState) : Prop :=
  ∀ s ∈ states.tail, s = PState.mapKey ∨ s = PState.listItem

/-- Whether the previous emission was a `MapKey`/`ListItem` awaiting its
value, read off the top normalizer state. -/
def expectOf (states : List PState) : Bool :=
  match states.headD .unknown with
  | .mapValue | .listValue => true
  | _ => false

/-- The end-of-stream flush closes every level properly and never leaves
a key/item unanswered, provided it emits no `Error`. -/
lemma normFlush_good (l : Nat) :
    ∀ states : List PState, belowOK states →
      noErrTok (normFlush states l) = true →
      nestedB (states.length - 1) (normFlush states l) = true ∧
      followsB allowedAmended (expectOf states) (normFlush states l) = true := by
  intro states
  induction states with
  | nil => intro _ _; simp [normFlush, nestedB, followsB, expectOf]
  | cons s rest ih =>
    intro hbel hne
    cases rest with
    | nil =>
      cases s <;>
        simp_all [normFlush, nestedB, followsB, expectOf, noErrTok, allowedAmended]
    | cons s2 rest2 =>
      have hbel2 : belowOK (s2 :: rest2) := by
        intro x hx
        exact hbel x (by simp at hx ⊢; tauto)
      have hs2 := hbel s2 (by simp)
      have hex2 : expectOf (s2 :: rest2) = false := by
        rcases hs2 with h | h <;> simp [expectOf, h]
      cases s
      case unknown | listMultiline | mapMultiline =>
        simp [normFlush, noErrTok] at hne
      case listValue | mapValue =>
        all_goals (
          simp only [normFlush, List.cons_append, List.nil_append] at hne ⊢
          simp only [noErrTok, List.all_cons, Bool.and_eq_true] at hne
          have hrec := ih hbel2 (by simpa [noErrTok] using hne.2.2)
          have h1 := hrec.1
          have h2 := hrec.2
          rw [hex2] at h2
          simp only [List.length_cons, Nat.add_sub_cancel] at h1 ⊢
          constructor
          · simp [nestedB, h1]
          · exact h2)
      case listItem | mapKey =>
        all_goals (
          simp only [normFlush, List.cons_append, List.nil_append] at hne ⊢
          simp only [noErrTok, List.all_cons, Bool.and_eq_true] at hne
          have hrec := ih hbel2 (by simpa [noErrTok] using hne.2)
          have h1 := hrec.1
          have h2 := hrec.2
          rw [hex2] at h2
          simp only [List.length_cons, Nat.add_sub_cancel] at h1 ⊢
          constructor
          · simp [nestedB, h1]
          · exact h2)

/-- Below completed levels, the next expected token is never a value. -/
lemma expectOf_tail_false {states : List PState} (h : belowOK states) :
    expectOf states.tail = false := by
  cases hs : states.tail with
  | nil => simp [expectOf]
  | cons a t =>
    have ha := h a (by rw [hs]; simp)
    rcases ha with h' | h' <;> simp [expectOf, hs, h']

/-- `belowOK` survives popping a level. -/
lemma belowOK_tail {states : List PState} (h : belowOK states) : belowOK states.tail := by
  intro x hx
  cases states with
  | nil => simp at hx
  | cons s t => exact h x (List.mem_of_mem_tail hx)

/-- `belowOK` survives replacing the top state. -/
lemma belowOK_set {states : List PState} (s' : PState) (h : belowOK states) :
    belowOK (s' :: states.tail) := by
  intro x hx
  exact h x (by simpa using hx)

/-- Replacing the top state preserves the stack height. -/
lemma length_set {states : List PState} (h : 1 ≤ states.length) (s' : PState) :
    (s' :: states.tail).length = states.length := by
  cases states with
  | nil => simp at h
  | cons a t => simp

/-- Main normalizer invariant: if the raw stream is balanced for the
current stack height and the normalized output contains no `Error`
tokens, the output is properly nested and every `MapKey`/`ListItem` is
immediately followed (ignoring comments) by a value-like token. -/
lemma normAux_good :
    ∀ (raw : List (Nat × Token)) (states : List PState) (last : Nat),
      okRaw states.length raw → 1 ≤ states.length → belowOK states →
      noErrTok (normAux raw states last) = true →
      nestedB (states.length - 1) (normAux raw states last) = true ∧
      followsB allowedAmended (expectOf states) (normAux raw states last) = true := by
  intro raw
  induction raw with
  | nil =>
    intro states last _ _ hbel hne
    simpa [normAux] using normFlush_good last states hbel (by simpa [normAux] using hne)
  | cons hd rest ih =>
    rcases hd with ⟨lno, k, c⟩
    intro states last hok h1 hbel hne
    have htl : states.tail.length = states.length - 1 := by
      cases states <;> simp_all
    cases k
    case comment =>
      simp only [normAux, normStep, yieldChecked, utf8ValidString, Bool.true_eq_false,
        if_false, List.singleton_append] at hne ⊢
      simp only [noErrTok, List.all_cons, Bool.and_eq_true] at hne
      have hrec := ih states lno hok h1 hbel (by simpa [noErrTok] using hne.2)
      exact ⟨by simpa [nestedB] using hrec.1, by simpa [followsB] using hrec.2⟩
    case noValue =>
      simp only [normAux, normStep, List.nil_append] at hne ⊢
      exact ih states lno hok h1 hbel hne
    case error =>
      simp only [normAux, normStep, List.nil_append] at hne ⊢
      exact ih states lno hok h1 hbel hne
    case indent =>
      have hok' : okRaw (states.length + 1) rest := hok
      cases hh : states.headD PState.unknown
      case listValue =>
        simp only [normAux, normStep, hh, List.singleton_append] at hne ⊢
        simp only [noErrTok, List.all_cons, Bool.and_eq_true] at hne
        have hlen : (PState.unknown :: PState.listItem :: states.tail).length =
            states.length + 1 := by simp [htl]; omega
        have hbel' : belowOK (PState.unknown :: PState.listItem :: states.tail) := by
          intro x hx
          simp only [List.tail_cons, List.mem_cons] at hx
          rcases hx with rfl | hx
          · exact Or.inr rfl
          · exact hbel x (by simpa using hx)
        have hrec := ih _ lno (by rw [hlen]; exact hok') (by rw [hlen]; omega) hbel'
          (by simpa [noErrTok] using hne.2)
        constructor
        · have h := hrec.1
          rw [hlen] at h
          simp only [Nat.add_sub_cancel] at h
          simp only [nestedB]
          have he : states.length - 1 + 1 = states.length := by omega
          rw [he]
          exact h
        · have h := hrec.2
          have hexp : expectOf states = true := by simp only [expectOf, hh]
          have hexp' : expectOf (PState.unknown :: PState.listItem :: states.tail) = false := by
            simp [expectOf]
          rw [hexp'] at h
          rw [hexp]
          simpa [followsB, allowedAmended] using h
      case mapValue =>
        simp only [normAux, normStep, hh, List.singleton_append] at hne ⊢
        simp only [noErrTok, List.all_cons, Bool.and_eq_true] at hne
        have hlen : (PState.unknown :: PState.mapKey :: states.tail).length =
            states.length + 1 := by simp [htl]; omega
        have hbel' : belowOK (PState.unknown :: PState.mapKey :: states.tail) := by
          intro x hx
          simp only [List.tail_cons, List.mem_cons] at hx
          rcases hx with rfl | hx
          · exact Or.inl rfl
          · exact hbel x (by simpa using hx)
        have hrec := ih _ lno (by rw [hlen]; exact hok') (by rw [hlen]; omega) hbel'
          (by simpa [noErrTok] using hne.2)
        constructor
        · have h := hrec.1
          rw [hlen] at h
          simp only [Nat.add_sub_cancel] at h
          simp only [nestedB]
          have he : states.length - 1 + 1 = states.length := by omega
          rw [he]
          exact h
        · have h := hrec.2
          have hexp : expectOf states = true := by simp only [expectOf, hh]
          have hexp' : expectOf (PState.unknown :: PState.mapKey :: states.tail) = false := by
            simp [expectOf]
          rw [hexp'] at h
          rw [hexp]
          simpa [followsB, allowedAmended] using h
      case unknown | listItem | listMultiline | mapKey | mapMultiline =>
        all_goals (
          simp only [normAux, normStep, hh, List.singleton_append] at hne
          simp [noErrTok] at hne)
    case outdent =>
      obtain ⟨h2n, hok'⟩ : 2 ≤ states.length ∧ okRaw (states.length - 1) rest := hok
      have hlt : 1 ≤ states.tail.length := by omega
      have hbt := belowOK_tail hbel
      have hext := expectOf_tail_false hbel
      cases hh : states.headD PState.unknown
      case listItem | mapKey =>
        all_goals (
          simp only [normAux, normStep, hh, List.singleton_append] at hne ⊢
          simp only [noErrTok, List.all_cons, Bool.and_eq_true] at hne
          have hrec := ih states.tail lno (by rw [htl]; exact hok') hlt hbt
            (by simpa [noErrTok] using hne.2)
          constructor
          · have h := hrec.1
            rw [htl] at h
            simp only [nestedB, decide_eq_true_eq]
            rw [Bool.and_eq_true]
            exact ⟨by simp; omega, h⟩
          · have h := hrec.2
            rw [hext] at h
            have hexp : expectOf states = false := by simp only [expectOf, hh]
            rw [hexp]
            simpa [followsB] using h)
      case listValue | mapValue =>
        all_goals (
          simp only [normAux, normStep, hh, List.cons_append, List.nil_append] at hne ⊢
          simp only [noErrTok, List.all_cons, Bool.and_eq_true] at hne
          have hrec := ih states.tail lno (by rw [htl]; exact hok') hlt hbt
            (by simpa [noErrTok] using hne.2.2)
          constructor
          · have h := hrec.1
            rw [htl] at h
            simp only [nestedB, decide_eq_true_eq]
            rw [Bool.and_eq_true]
            exact ⟨by simp; omega, h⟩
          · have h := hrec.2
            rw [hext] at h
            have hexp : expectOf states = true := by simp only [expectOf, hh]
            rw [hexp]
            simpa [followsB, allowedAmended] using h)
      case unknown | listMultiline | mapMultiline =>
        all_goals (
          simp only [normAux, normStep, hh, List.singleton_append] at hne
          simp [noErrTok] at hne)
    case listItem =>
      have hok' : okRaw states.length rest := hok
      cases hh : states.headD PState.unknown
      case unknown | listItem =>
        all_goals (
          simp only [normAux, normStep, hh, List.singleton_append] at hne ⊢
          simp only [noErrTok, List.all_cons, Bool.and_eq_true] at hne
          have hlen := length_set h1 PState.listValue
          have hrec := ih (PState.listValue :: states.tail) lno (by rw [hlen]; exact hok')
            (by rw [hlen]; exact h1) (belowOK_set _ hbel) (by simpa [noErrTok] using hne.2)
          constructor
          · have h := hrec.1
            rw [hlen] at h
            simpa [nestedB] using h
          · have h := hrec.2
            have hexp : expectOf states = false := by simp only [expectOf, hh]
            have hexp' : expectOf (PState.listValue :: states.tail) = true := by
              simp [expectOf]
            rw [hexp'] at h
            rw [hexp]
            simpa [followsB] using h)
      case listValue =>
        simp only [normAux, normStep, hh, List.cons_append, List.nil_append] at hne ⊢
        simp only [noErrTok, List.all_cons, Bool.and_eq_true] at hne
        have hstv : states = PState.listValue :: states.tail := by
          cases states with
          | nil => simp at h1
          | cons a t => simp only [List.headD_cons] at hh; rw [hh]; rfl
        have hrec := ih states lno hok' h1 hbel (by simpa [noErrTok] using hne.2.2)
        constructor
        · have h := hrec.1
          simpa [nestedB] using h
        · have h := hrec.2
          have hexp : expectOf states = true := by simp only [expectOf, hh]
          rw [hexp] at h ⊢
          simpa [followsB, allowedAmended] using h
      case listMultiline | mapKey | mapValue | mapMultiline =>
        all_goals (
          simp only [normAux, normStep, hh, List.singleton_append] at hne
          simp [noErrTok] at hne)
    case mapKey =>
      have hok' : okRaw states.length rest := hok
      by_cases hdc : (decodeLiteral c).2 = []
      case neg =>
        have hyd : yieldDecoded lno ⟨.mapKey, c⟩ = (lno, ⟨.error, (decodeLiteral c).2⟩) := by
          simp [yieldDecoded, hdc]
        cases hh : states.headD PState.unknown <;>
          (simp only [normAux, normStep, hh, hyd, List.singleton_append, List.cons_append,
            List.nil_append] at hne <;> simp [noErrTok] at hne)
      case pos =>
        have hyd : yieldDecoded lno ⟨.mapKey, c⟩ =
            (lno, ⟨.mapKey, (decodeLiteral c).1⟩) := by
          simp [yieldDecoded, hdc]
        cases hh : states.headD PState.unknown
        case unknown | mapKey =>
          all_goals (
            simp only [normAux, normStep, hh, hyd, List.singleton_append] at hne ⊢
            simp only [noErrTok, List.all_cons, Bool.and_eq_true] at hne
            have hlen := length_set h1 PState.mapValue
            have hrec := ih (PState.mapValue :: states.tail) lno (by rw [hlen]; exact hok')
              (by rw [hlen]; exact h1) (belowOK_set _ hbel) (by simpa [noErrTok] using hne.2)
            constructor
            · have h := hrec.1
              rw [hlen] at h
              simpa [nestedB] using h
            · have h := hrec.2
              have hexp : expectOf states = false := by simp only [expectOf, hh]
              have hexp' : expectOf (PState.mapValue :: states.tail) = true := by
                simp [expectOf]
              rw [hexp'] at h
              rw [hexp]
              simpa [followsB] using h)
        case mapValue =>
          simp only [normAux, normStep, hh, hyd, List.cons_append, List.nil_append] at hne ⊢
          simp only [noErrTok, List.all_cons, Bool.and_eq_true] at hne
          have hrec := ih states lno hok' h1 hbel (by simpa [noErrTok] using hne.2.2)
          constructor
          · have h := hrec.1
            simpa [nestedB] using h
          · have h := hrec.2
            have hexp : expectOf states = true := by simp only [expectOf, hh]
            rw [hexp] at h ⊢
            simpa [followsB, allowedAmended] using h
        case listItem | listValue | listMultiline | mapMultiline =>
          all_goals (
            simp only [normAux, normStep, hh, List.singleton_append] at hne
            simp [noErrTok] at hne)
    case value =>
      have hok' : okRaw states.length rest := hok
      by_cases hdc : (decodeLiteral c).2 = []
      case neg =>
        have hyd : yieldDecoded lno ⟨.value, c⟩ = (lno, ⟨.error, (decodeLiteral c).2⟩) := by
          simp [yieldDecoded, hdc]
        cases hh : states.headD PState.unknown <;>
          (simp only [normAux, normStep, hh, hyd, List.singleton_append] at hne <;>
            simp [noErrTok] at hne)
      case pos =>
        have hyd : yieldDecoded lno ⟨.value, c⟩ =
            (lno, ⟨.value, (decodeLiteral c).1⟩) := by
          simp [yieldDecoded, hdc]
        cases hh : states.headD PState.unknown
        case listValue | mapValue =>
          all_goals (
            first
            | (have hset : PState.listItem = PState.listItem := rfl
               have hlen := length_set h1 PState.listItem
               simp only [normAux, normStep, hh, hyd, List.singleton_append] at hne ⊢
               simp only [noErrTok, List.all_cons, Bool.and_eq_true] at hne
               have hrec := ih (PState.listItem :: states.tail) lno (by rw [hlen]; exact hok')
                 (by rw [hlen]; exact h1) (belowOK_set _ hbel)
                 (by simpa [noErrTok] using hne.2))
            | (have hset : PState.mapKey = PState.mapKey := rfl
               have hlen := length_set h1 PState.mapKey
               simp only [normAux, normStep, hh, hyd, List.singleton_append] at hne ⊢
               simp only [noErrTok, List.all_cons, Bool.and_eq_true] at hne
               have hrec := ih (PState.mapKey :: states.tail) lno (by rw [hlen]; exact hok')
                 (by rw [hlen]; exact h1) (belowOK_set _ hbel)
                 (by simpa [noErrTok] using hne.2))
            constructor
            · have h := hrec.1
              rw [hlen] at h
              simpa [nestedB] using h
            · have h := hrec.2
              have hexp : expectOf states = true := by simp only [expectOf, hh]
              rw [hexp]
              simp only [expectOf, List.headD_cons] at h
              simpa [followsB, allowedAmended] using h)
        case unknown | listItem | listMultiline | mapKey | mapMultiline =>
          all_goals (
            simp only [normAux, normStep, hh, List.singleton_append] at hne
            simp [noErrTok] at hne)
    case multilineHint =>
      have hok' : okRaw states.length rest := hok
      cases hh : states.headD PState.unknown
      case listValue | mapValue =>
        all_goals (
          simp only [normAux, normStep, hh, yieldChecked, utf8ValidString,
            Bool.true_eq_false, if_false, List.singleton_append] at hne ⊢
          simp only [noErrTok, List.all_cons, Bool.and_eq_true] at hne
          first
          | (have hlen := length_set h1 PState.listMultiline
             have hrec := ih (PState.listMultiline :: states.tail) lno
               (by rw [hlen]; exact hok') (by rw [hlen]; exact h1) (belowOK_set _ hbel)
               (by simpa [noErrTok] using hne.2))
          | (have hlen := length_set h1 PState.mapMultiline
             have hrec := ih (PState.mapMultiline :: states.tail) lno
               (by rw [hlen]; exact hok') (by rw [hlen]; exact h1) (belowOK_set _ hbel)
               (by simpa [noErrTok] using hne.2))
          constructor
          · have h := hrec.1
            rw [hlen] at h
            simpa [nestedB] using h
          · have h := hrec.2
            have hexp : expectOf states = true := by simp only [expectOf, hh]
            rw [hexp]
            simp only [expectOf, List.headD_cons] at h
            simpa [followsB, allowedAmended] using h)
      case unknown | listItem | listMultiline | mapKey | mapMultiline =>
        all_goals (
          simp only [normAux, normStep, hh, List.singleton_append] at hne
          simp [noErrTok] at hne)
    case multilineValue =>
      have hok' : okRaw states.length rest := hok
      have hym : yieldMultiline lno ⟨.multilineValue, c⟩ =
          (lno, ⟨.multilineValue, c⟩) := by
        simp [yieldMultiline, decodeMultiline, utf8ValidString]
      cases hh : states.headD PState.unknown
      case listValue =>
        simp only [normAux, normStep, hh, hym, List.singleton_append] at hne ⊢
        simp only [noErrTok, List.all_cons, Bool.and_eq_true] at hne
        have hlen := length_set h1 PState.listItem
        have hrec := ih (PState.listItem :: states.tail) lno
          (by rw [hlen]; exact hok') (by rw [hlen]; exact h1) (belowOK_set _ hbel)
          (by simpa [noErrTok] using hne.2)
        constructor
        · have h := hrec.1
          rw [hlen] at h
          simpa [nestedB] using h
        · have h := hrec.2
          simp only [expectOf, List.headD_cons] at h
          have hexp : expectOf states = true := by simp only [expectOf, hh]
          rw [hexp]
          simpa [followsB, allowedAmended] using h
      case listMultiline =>
        simp only [normAux, normStep, hh, hym, List.singleton_append] at hne ⊢
        simp only [noErrTok, List.all_cons, Bool.and_eq_true] at hne
        have hlen := length_set h1 PState.listItem
        have hrec := ih (PState.listItem :: states.tail) lno
          (by rw [hlen]; exact hok') (by rw [hlen]; exact h1) (belowOK_set _ hbel)
          (by simpa [noErrTok] using hne.2)
        constructor
        · have h := hrec.1
          rw [hlen] at h
          simpa [nestedB] using h
        · have h := hrec.2
          simp only [expectOf, List.headD_cons] at h
          have hexp : expectOf states = false := by simp only [expectOf, hh]
          rw [hexp]
          simpa [followsB, allowedAmended] using h
      case mapValue =>
        simp only [normAux, normStep, hh, hym, List.singleton_append] at hne ⊢
        simp only [noErrTok, List.all_cons, Bool.and_eq_true] at hne
        have hlen := length_set h1 PState.mapKey
        have hrec := ih (PState.mapKey :: states.tail) lno
          (by rw [hlen]; exact hok') (by rw [hlen]; exact h1) (belowOK_set _ hbel)
          (by simpa [noErrTok] using hne.2)
        constructor
        · have h := hrec.1
          rw [hlen] at h
          simpa [nestedB] using h
        · have h := hrec.2
          simp only [expectOf, List.headD_cons] at h
          have hexp : expectOf states = true := by simp only [expectOf, hh]
          rw [hexp]
          simpa [followsB, allowedAmended] using h
      case mapMultiline =>
        simp only [normAux, normStep, hh, hym, List.singleton_append] at hne ⊢
        simp only [noErrTok, List.all_cons, Bool.and_eq_true] at hne
        have hlen := length_set h1 PState.mapKey
        have hrec := ih (PState.mapKey :: states.tail) lno
          (by rw [hlen]; exact hok') (by rw [hlen]; exact h1) (belowOK_set _ hbel)
          (by simpa [noErrTok] using hne.2)
        constructor
        · have h := hrec.1
          rw [hlen] at h
          simpa [nestedB] using h
        · have h := hrec.2
          simp only [expectOf, List.headD_cons] at h
          have hexp : expectOf states = false := by simp only [expectOf, hh]
          rw [hexp]
          simpa [followsB, allowedAmended] using h
      case unknown | listItem | mapKey =>
        all_goals (
          simp only [normAux, normStep, hh, List.singleton_append] at hne
          simp [noErrTok] at hne)

/-- **C2 counterexample**: the claim fails as stated.  On the input
`"a\n  b = \"\"\""` the normalized stream is
`MapKey, Indent, MapKey, MultilineHint, Error`: the `Indent` has no
matching `Outdent` (the multiline-armed level is flushed as a
`missing value` error, not closed), and the second `MapKey` is followed
by a `MultilineHint`, which is not in the claim's follower set. -/
theorem c2_counterexample :
    nestedB 0 (Tokens "a\n  b = \"\"\"".data) = false ∧
    followsB allowedClaim false (Tokens "a\n  b = \"\"\"".data) = false := by
  decide

/-- **C2** (corrected): for every input whose normalized stream contains
no `Error` token, every `Indent` is paired with a matching `Outdent`
(end-of-stream included), and every `MapKey`/`ListItem` is immediately
followed, ignoring `Comment` tokens, by exactly one token of kind
`Value` (Scalar), `MultilineValue` (MultilineScalar), `NoValue`,
`Indent`, or `MultilineHint`.  (Amended from the original claim by
restricting to `Error`-free streams — the counterexample shows pairing
can break around an `Error` — and by adding `MultilineHint` to the
follower set.) -/
theorem c2_normalized_stream_invariants (input : Str)
    (h : noErrTok (Tokens input) = true) :
    nestedB 0 (Tokens input) = true ∧
    followsB allowedAmended false (Tokens input) = true := by
  have hg := normAux_good (tokenize input) [PState.unknown] 0
    (by simpa using tokenize_okRaw input) (by simp)
    (by intro x hx; simp at hx) h
  simpa [Tokens, expectOf] using hg

/-- Witness for C2: a concrete error-free input satisfying both
conclusions. -/
theorem c2_normalized_stream_invariants_witness :
    noErrTok (Tokens "m\n  a = 1".data) = true ∧
    nestedB 0 (Tokens "m\n  a = 1".data) = true ∧
    followsB allowedAmended false (Tokens "m\n  a = 1".data) = true := by
  refine ⟨by decide, ?_⟩
  exact c2_normalized_stream_invariants "m\n  a = 1".data (by decide)

/-- `requiresQuote(r)`. -/
def requiresQuote (r : Char) : Bool :=
  r.toNat ≤ 0x1f || r == ';' || r == '='

/-- `unicode.IsControl` (the Cc category). -/
def isControl (c : Char) : Bool :=
  c.toNat ≤ 0x1f || (0x7f ≤ c.toNat && c.toNat ≤ 0x9f)

/-- An uppercase hex digit. -/
def hexDigitUpper (n : Nat) : Char :=
  if n < 10 then Char.ofNat ('0'.toNat + n) else Char.ofNat ('A'.toNat + n - 10)

/-- `fmt.Sprintf("%02X", n)`: uppercase hex, left-padded to two digits. -/
def hexPad2 (n : Nat) : Str :=
  let rec digits (fuel n : Nat) : Str :=
    match fuel with
    | 0 => []
    | fuel + 1 => if n = 0 then [] else digits fuel (n / 16) ++ [hexDigitUpper (n % 16)]
  let d := digits 16 n
  if d.length = 0 then ['0', '0'] else if d.length = 1 then '0' :: d else d

/-- The per-rune escape in the quoted branch of `quoteString`. -/
def quoteEsc (c : Char) : Str :=
  if c = '\\' then ['\\', '\\']
  else if c = '"' then ['\\', '"']
  else if c = '\n' then ['\\', 'n']
  else if c = '\r' then ['\\', 'r']
  else if c = '\t' then ['\\', 't']
  else if isControl c then '\\' :: lbrace :: (hexPad2 c.toNat ++ [rbrace])
  else [c]

/-- `quoteString(s)` from the marshalling code (`schema/conl_value.go`,
`conl` package half): return `s` bare when it needs no quoting, otherwise
the quoted-and-escaped form. -/
def quoteString (s : Str) : Str :=
  if ¬ (s.any requiresQuote ∨ s = [] ∨ s.head? = some '"' ∨ s.head? = some ' '
        ∨ s.getLast? = some ' ') then
    s
  else
    '"' :: s.flatMap quoteEsc ++ ['"']

/-! ## Claim C4: the quote/decode round trip

`quoteString` encodes control characters other than `\n`, `\r`, `\t` as
brace escapes.  `decodeLiteral`'s escape regexp matches such an escape
greedily to the end of the string (the quantifier on the dot is greedy
and the closing-brace part is optional), so whenever a brace escape is
followed by further content the whole tail is taken as one escape, the
trailing-brace check fails, and decoding reports an invalid escape code
instead of round-tripping.  The decoder's own brace arm (hex parse,
1–8-digit length window, `ValidRune` check) shows decoding embedded brace
escapes is intended, so this is a slip in the escape regexp. -/

/-- **C4** (code bug): decoding the quoted-and-escaped encoding of a
string does *not* always yield the string back.  At the failing input
`"\x01a"`, `quoteString` produces a quoted brace escape followed by `a`,
and `decodeLiteral` rejects it with an invalid-escape error, whereas the
claim requires the round trip to return the input exactly.  (A brace
escape in final position, such as the encoding of `"\x01"`, does round
trip, confirming the failure is the greedy escape match.) -/
theorem c4_roundtrip_failure :
    decodeLiteral (quoteString [Char.ofNat 1, 'a']) =
      ([], "invalid escape code: ".data ++ ['\\', lbrace, '0', '1', rbrace, 'a']) ∧
    decodeLiteral (quoteString [Char.ofNat 1, 'a']) ≠ ([Char.ofNat 1, 'a'], []) ∧
    decodeLiteral (quoteString [Char.ofNat 1]) = ([Char.ofNat 1], []) := by
  decide

/-! ## The schema validation engine (`schema/schema.go`, newer version)

The repository's `schema/schema.go` contains two generations of the
engine; the claims cite line ranges in both.  We embed the newer engine
(the `anyOf`/`pickBestResult`/`resultPos` generation, lines 991–1741)
for the validation claims, and the older `resolve` (lines 300–349 and
649–664) for the resolution claims, which is the version that threads
the DFS path through recursive calls.

Embedding conventions for this section:

* Go pointers to `definition` are embedded as the definition's *name*
  (`resolvedName`); `getDef` reproduces the pointer dereference by name
  lookup (with the `d == nil` ⇒ empty-definition convention of
  `resolve`).
* `nil` slices/maps are `Option`-wrapped lists so that Go's `x != nil`
  checks translate exactly; `nil` maps iterate as the empty list.
* Go maps (`definitions`, `Keys`, `RequiredKeys`, `result.raw`) are
  association lists in insertion order.  Go's randomized map iteration
  order means the Go code is *nondeterministic* exactly where the list
  order shows up in our results; this is discussed at claim C5.
* `math.MaxInt` is `2^63 - 1` (the 64-bit build). -/

/-- `conl.Token` as seen by the schema package (the newer `conl` API):
a token with a line number and an optional attached error.  `value` and
`multilineValue` play the roles of the newer `Scalar` and
`MultilineScalar` kinds. -/
structure CTok where
  lno : Nat
  kind : TokenKind
  content : Str
  error : Option Str
deriving DecidableEq, Repr

/-- `schema.conlValue` (`schema/conl_value.go`): a parsed document node.
An entry of a map or list is `(key, value, parentLno)`, embedding
`schema.entry`.  The fields embed `Scalar`, `Map` and `List`. -/
inductive ConlValue where
  | mk : Option CTok → List (CTok × ConlValue × Nat) → List (CTok × ConlValue × Nat) →
      ConlValue
deriving Repr

/-- `schema.entry`. -/
abbrev VEntry := CTok × ConlValue × Nat

/-- Field `Scalar` of `schema.conlValue`. -/
def ConlValue.Scalar : ConlValue → Option CTok
  | .mk s _ _ => s

/-- Field `Map` of `schema.conlValue`. -/
def ConlValue.MapE : ConlValue → List VEntry
  | .mk _ m _ => m

/-- Field `List` of `schema.conlValue`. -/
def ConlValue.ListE : ConlValue → List VEntry
  | .mk _ _ l => l

/-- Key of a `schema.entry`. -/
def VEntry.key (e : VEntry) : CTok := e.1

/-- Value of a `schema.entry`. -/
def VEntry.val (e : VEntry) : ConlValue := e.2.1

/-- `parentLno` of a `schema.entry`. -/
def VEntry.parentLno (e : VEntry) : Nat := e.2.2

/-- The zero `conlValue` (`&conlValue{}`). -/
def emptyValue : ConlValue := .mk none [] []

/-- `schema.matcher` (the newer version, flattening the embedded
`valueMatcher`): `pattern` holds the *source text of the compiled
regexp* (`(?s)^…$`, see `unmarshalText`), `resolvedName` stands for the
`resolved *definition` pointer (definitions are referred to by name),
`raw` is the raw matcher text and `docs` the attached docs. -/
structure Matcher where
  pattern : Option Str
  reference : Str
  resolvedName : Option Str
  raw : Str
  docs : Str
deriving DecidableEq, Repr

/-- `schema.definition` (newer version; the older version names the
`anyOf` field `OneOf`, with the same role).  `Option` distinguishes
absent (`nil`) collections from present-but-empty ones, matching the
`!= nil` checks in the source. -/
structure Definition where
  name : Str
  docs : Str
  scalar : Option Matcher
  anyOf : Option (List Matcher)
  keys : Option (List (Matcher × Matcher))
  requiredKeys : Option (List (Matcher × Matcher))
  items : Option Matcher
  requiredItems : Option (List Matcher)
deriving DecidableEq, Repr

/-- The zero `definition` (`&definition{}`). -/
def emptyDefinition : Definition := ⟨[], [], none, none, none, none, none, none⟩

/-- `schema.Schema`: the root matcher and the definitions map (an
association list in insertion order). -/
structure CSchema where
  root : Matcher
  definitions : List (Str × Definition)
deriving DecidableEq, Repr

/-- Lookup in the `definitions` map. -/
def lookupDef (s : CSchema) (n : Str) : Option Definition :=
  (s.definitions.find? (fun p => p.1 == n)).map (·.2)

/-- Dereference the `resolved` pointer of a matcher: `none` when the
matcher is a pattern matcher (`m.resolved == nil`), otherwise the named
definition (an absent name dereferences to the empty definition, the
`d == nil` convention of `resolve`). -/
def getDef (s : CSchema) (m : Matcher) : Option Definition :=
  match m.resolvedName with
  | none => none
  | some n => some ((lookupDef s n).getD emptyDefinition)

/-- `strings.Split(s, "|")`, with an accumulator for the current
segment (stored reversed). -/
def splitBarAux : Str → Str → List Str
  | [], acc => [acc.reverse]
  | c :: rest, acc =>
    if c = '|' then acc.reverse :: splitBarAux rest []
    else splitBarAux rest (c :: acc)

/-- `strings.Split(s, "|")`. -/
def splitBar (s : Str) : List Str := splitBarAux s []

/-- Modelled from the spec: Go compiles a pattern matcher `p` to the
regular expression `(?s)^p$` (see `unmarshalText` below) and tests
scalars with `MatchString`.  We model the semantics of that compiled,
fully-anchored regexp on the fragment of regexp syntax the claims
exercise: after stripping the five-character prefix `(?s)^` and the
trailing `$`, the pattern `.*` matches every string, and any other
pattern is read as a `|`-alternation of literal strings matched against
the whole scalar. -/
def matchesPattern (anchored : Str) (s : Str) : Bool :=
  let p := (anchored.drop 5).dropLast
  if p = ['.', '*'] then true else (splitBar p).contains s

/-- `valueMatcher.UnmarshalText` (newer version, `schema.go` lines
1145–1161; the older version at 711–725 is identical up to field
names): `<name>` becomes a reference, anything else compiles the
anchored pattern `(?s)^data$`.  Go indexes `data[0]`, panicking on
empty input; we return an error for the empty string and note the
branch is unreachable from the CONL unmarshaller (scalars are
non-empty).  A regexp-compilation failure is not modelled (the pattern
is stored as source text). -/
def unmarshalText (data : Str) : Except Str Matcher :=
  match data with
  | [] => .error "empty matcher".data
  | c :: _ =>
    if c == '<' then
      if data.getLast? != some '>' then .error "missing closing >".data
      else .ok ⟨none, (data.drop 1).dropLast, none, data, []⟩
    else
      .ok ⟨some ("(?s)^".data ++ data ++ "$".data), [], none, data, []⟩

/-! ## Result positions and scores (`schema.go` lines 1428–1455) -/

/-- `success = math.MaxInt` (64-bit build). -/
def success : Int := 2 ^ 63 - 1

/-- `posForKey(lno)`: key positions are negated line numbers. -/
def posForKey (lno : Nat) : Int := -(lno : Int)

/-- `posForValue(lno)`. -/
def posForValue (lno : Nat) : Int := (lno : Int)

/-- `resultPos.isKey()`. -/
def resultPosIsKey (rp : Int) : Bool := rp < 0

/-- `resultPos.Lno()`. -/
def resultPosLno (rp : Int) : Int := if rp < 0 then -rp else rp

/-- `schema.attempt` (field order as in the source; `parentLno`
defaults to `0` for value attempts). -/
structure Attempt where
  matcher : Option Matcher
  val : ConlValue
  ok : Bool
  missingKeys : List Matcher
  duplicate : Option Matcher
  parentLno : Nat
deriving Repr

/-- `valueAttempt(val, ok, matcher)`. -/
def valueAttempt (val : ConlValue) (ok : Bool) (m : Option Matcher) : Attempt :=
  ⟨m, val, ok, [], none, 0⟩

/-- `keyAttempt(entry, ok, matcher)`: the attempt is against the key
token wrapped as a scalar value. -/
def keyAttempt (e : VEntry) (ok : Bool) (m : Option Matcher) : Attempt :=
  ⟨m, .mk (some e.key) [] [], ok, [], none, e.parentLno⟩

/-- `attempt.withMissingKeys`. -/
def Attempt.withMissingKeys (a : Attempt) (missing : List Matcher) : Attempt :=
  { a with missingKeys := missing }

/-- `attempt.withDuplicate`. -/
def Attempt.withDuplicate (a : Attempt) (dup : Matcher) : Attempt :=
  { a with duplicate := some dup }

/-- `schema.result`: attempts grouped by position, the score of the
furthest error, and the number of distinct failing positions.  `raw` is
the Go map as an association list in insertion order. -/
structure VResult where
  raw : List (Int × List Attempt)
  firstErr : Int
  errCount : Nat
deriving Repr

/-- The zero `result` (`var combined result`). -/
def zeroResult : VResult := ⟨[], 0, 0⟩

/-- `r.raw[pos]` (as an `Option`; the `nil` slice is `none`). -/
def rawFind (raw : List (Int × List Attempt)) (pos : Int) : Option (List Attempt) :=
  (raw.find? (fun p => p.1 == pos)).map (·.2)

/-- `r.raw[pos] = append(r.raw[pos], att)`: append at an existing
position, or add a fresh position at the end. -/
def rawAppend (raw : List (Int × List Attempt)) (pos : Int) (att : Attempt) :
    List (Int × List Attempt) :=
  match raw with
  | [] => [(pos, [att])]
  | (p, ms) :: rest =>
    if p == pos then (p, ms ++ [att]) :: rest else (p, ms) :: rawAppend rest pos att

/-- `newResult(pos, att)` (`schema.go` lines 1457–1472). -/
def newResult (pos : Int) (att : Attempt) : VResult :=
  if att.ok then ⟨[(pos, [att])], success, 0⟩
  else ⟨[(pos, [att])], resultPosLno pos, 1⟩

/-- `appendResult(r, pos, att)` (`schema.go` lines 1474–1487): a fresh
failing position bumps `errCount`, and a failing append moves
`firstErr` to the larger line number (`firstErr` tracks the *maximum*
failing line seen, `success` standing for "no error yet"). -/
def appendResult (r : VResult) (pos : Int) (att : Attempt) : VResult :=
  if r.raw.isEmpty then newResult pos att
  else
    let errCount :=
      if !att.ok && (rawFind r.raw pos).isNone then r.errCount + 1 else r.errCount
    let firstErr :=
      if !att.ok && (resultPosLno pos > r.firstErr || r.firstErr == success) then
        resultPosLno pos
      else r.firstErr
    ⟨rawAppend r.raw pos att, firstErr, errCount⟩

/-- `appendAllResults(r1, r2)` (`schema.go` lines 1489–1496), iterating
`r2.raw` in insertion order. -/
def appendAllResults (r1 r2 : VResult) : VResult :=
  r2.raw.foldl (fun acc pm => pm.2.foldl (fun a m => appendResult a pm.1 m) acc) r1

/-- `pickBestResult(r1, r2)` (`schema.go` lines 1498–1515). -/
def pickBestResult (r1 r2 : VResult) : VResult :=
  if r1.raw.isEmpty then r2
  else if r2.raw.isEmpty then r1
  else if r1.firstErr > r2.firstErr then r1
  else if r2.firstErr > r1.firstErr then r2
  else if r1.errCount < r2.errCount then r1
  else if r2.errCount < r1.errCount then r2
  else appendAllResults r1 r2

/-! ## Claim C1: the ambiguity/merge rule of `pickBestResult`

`pickBestResult` prefers the candidate whose furthest error is on a
later line; on a tie of `firstErr` it prefers the candidate with
*fewer* distinct failing positions (`errCount`), not more; only full
ties are unioned.  The concrete pair below (same `firstErr`, error
counts 1 vs 2) shows the spec's "more total errors wins" reading picks
the wrong candidate. -/

/-- A failing attempt used to build concrete results for claim C1. -/
def c1att : Attempt := valueAttempt emptyValue false none

/-- A result with one failing position on line 2. -/
def c1r1 : VResult := newResult (posForValue 2) c1att

/-- A result with two failing positions whose furthest error is also on
line 2. -/
def c1r2 : VResult := appendResult (newResult (posForKey 2) c1att) (posForValue 2) c1att

/-- **C1** (counterexample): two candidate error sets whose first
errors are on the same line (`firstErr` both `2`), where the first has
1 total error and the second has 2.  The spec says the set with *more*
total errors wins, i.e. the merged result should be the second; but
`pickBestResult` keeps the set with *fewer* errors — the merged result
has error count 1, not 2. -/
theorem c1_counterexample :
    c1r1.firstErr = c1r2.firstErr ∧
    c1r1.errCount = 1 ∧ c1r2.errCount = 2 ∧
    (pickBestResult c1r1 c1r2).errCount = 1 ∧
    (pickBestResult c1r2 c1r1).errCount = 1 := by
  decide

/-- **C1** (amended): when two candidate error sets are compared, the
set whose first (furthest) error occurs on a later line wins outright;
when both are on the same line, the set with *fewer* total errors wins;
and only true ties (same furthest line and same error count) are
unioned per position. -/
theorem c1_merge_rule (r1 r2 : VResult)
    (h1 : r1.raw.isEmpty = false) (h2 : r2.raw.isEmpty = false) :
    (r1.firstErr > r2.firstErr → pickBestResult r1 r2 = r1) ∧
    (r2.firstErr > r1.firstErr → pickBestResult r1 r2 = r2) ∧
    (r1.firstErr = r2.firstErr → r1.errCount < r2.errCount →
      pickBestResult r1 r2 = r1) ∧
    (r1.firstErr = r2.firstErr → r2.errCount < r1.errCount →
      pickBestResult r1 r2 = r2) ∧
    (r1.firstErr = r2.firstErr → r1.errCount = r2.errCount →
      pickBestResult r1 r2 = appendAllResults r1 r2) := by
  have e1 : ¬(r1.raw.isEmpty = true) := by simp [h1]
  have e2 : ¬(r2.raw.isEmpty = true) := by simp [h2]
  unfold pickBestResult
  refine ⟨fun hgt => ?_, fun hgt => ?_, fun heq hlt => ?_, fun heq hlt => ?_,
    fun heq hec => ?_⟩
  · rw [if_neg e1, if_neg e2, if_pos hgt]
  · rw [if_neg e1, if_neg e2, if_neg (by omega), if_pos hgt]
  · rw [if_neg e1, if_neg e2, if_neg (by omega), if_neg (by omega), if_pos hlt]
  · rw [if_neg e1, if_neg e2, if_neg (by omega), if_neg (by omega), if_neg (by omega),
      if_pos hlt]
  · rw [if_neg e1, if_neg e2, if_neg (by omega), if_neg (by omega), if_neg (by omega),
      if_neg (by omega)]

/-- Witness for C1 at the concrete pair: same furthest line, error
counts 1 vs 2, so the set with fewer errors is kept. -/
theorem c1_merge_rule_witness : pickBestResult c1r1 c1r2 = c1r1 :=
  (c1_merge_rule c1r1 c1r2 rfl rfl).2.2.1 (by decide) (by decide)

/-! ## `matcher.validate` (`schema.go` lines 1275–1396)

The recursion is made total with a fuel parameter (first argument,
decreasing on every recursive call); running out of fuel — which cannot
happen for schemas produced by `resolve`, whose reference chains are
acyclic — yields a successful attempt.  The inner loops of the keys and
items branches are factored into top-level functions taking the
fuel-applied recursive call (`validateF`) as an argument. -/

/-- Outcome of the `RequiredKeys` scan for one map entry: the document
key matched an already-seen required matcher (`dup`), matched the
`i`-th required matcher whose value matcher is `v` (`matched`), or
matched none (`noMatch`). -/
inductive ReqOutcome where
  | dup (k : Matcher)
  | matched (i : Nat) (v : Matcher)
  | noMatch
deriving Repr

/-- The `for k, v := range d.RequiredKeys` loop of the keys branch: scan
the (indexed) required-key matchers, accumulating `keyResult`; as soon
as the accumulated result is a full success the loop breaks, reporting
a duplicate when that matcher was already seen. -/
def scanRequired (validateF : Matcher → ConlValue → Int → VResult)
    (keyVal : ConlValue) (posK : Int) (seenReq : List Nat) :
    List (Nat × Matcher × Matcher) → VResult → VResult × ReqOutcome
  | [], kr => (kr, .noMatch)
  | (i, k, v) :: rest, kr =>
    let kr' := pickBestResult kr (validateF k keyVal posK)
    if kr'.firstErr == success then
      if seenReq.contains i then (kr', .dup k) else (kr', .matched i v)
    else scanRequired validateF keyVal posK seenReq rest kr'

/-- The `for k, v := range d.Keys` loop of the keys branch: every
matching key contributes its value matcher to `anyOf`, and every
result is merged into `keyResult`. -/
def scanKeys (validateF : Matcher → ConlValue → Int → VResult)
    (keyVal : ConlValue) (posK : Int) :
    List (Matcher × Matcher) → VResult × List Matcher → VResult × List Matcher
  | [], acc => acc
  | (k, v) :: rest, acc =>
    let nr := validateF k keyVal posK
    let anyOf := if nr.firstErr == success then acc.2 ++ [v] else acc.2
    scanKeys validateF keyVal posK rest (pickBestResult acc.1 nr, anyOf)

/-- One iteration of the `for _, entry := range val.Map` loop of the
keys branch, updating `(combined, seen, seenRequired)`. -/
def keysEntryStep (validateF : Matcher → ConlValue → Int → VResult)
    (reqs : List (Matcher × Matcher)) (keys : List (Matcher × Matcher))
    (st : VResult × List Str × List Nat) (e : VEntry) :
    VResult × List Str × List Nat :=
  let combined := st.1
  let seen := st.2.1
  let seenReq := st.2.2
  if seen.contains e.key.content then
    (appendResult combined (posForKey e.key.lno) (keyAttempt e false none), seen, seenReq)
  else
    let seen' := e.key.content :: seen
    let keyVal : ConlValue := .mk (some e.key) [] []
    let posK := posForKey e.key.lno
    let scanned := scanRequired validateF keyVal posK seenReq reqs.enum zeroResult
    match scanned.2 with
    | .dup k =>
      (appendResult combined posK ((keyAttempt e false none).withDuplicate k), seen', seenReq)
    | .matched i v =>
      let combined := appendAllResults combined scanned.1
      let vres := pickBestResult zeroResult (validateF v e.val (posForValue e.key.lno))
      (appendAllResults combined vres, seen', i :: seenReq)
    | .noMatch =>
      let kres := scanKeys validateF keyVal posK keys (scanned.1, [])
      let combined := appendAllResults combined kres.1
      if kres.2.isEmpty then (combined, seen', seenReq)
      else
        let vres := kres.2.foldl
          (fun acc mm => pickBestResult acc (validateF mm e.val (posForValue e.key.lno)))
          zeroResult
        (appendAllResults combined vres, seen', seenReq)

/-- The `for ix, entry := range val.List` loop of the items branch,
consuming the remaining `RequiredItems` in lockstep with the entries
(`ix < len(d.RequiredItems)` becomes "required items remain"). -/
def itemsFold (validateF : Matcher → ConlValue → Int → VResult)
    (items : Option Matcher) :
    List VEntry → List Matcher → VResult → VResult
  | [], _, acc => acc
  | e :: rest, reqRem, acc =>
    if e.key.error.isSome then
      itemsFold validateF items rest reqRem.tail
        (appendResult acc (posForKey e.key.lno) (keyAttempt e false none))
    else
      let acc := appendResult acc (posForKey e.key.lno) (keyAttempt e true none)
      match reqRem with
      | rm :: reqRem' =>
        itemsFold validateF items rest reqRem'
          (appendAllResults acc (validateF rm e.val (posForValue e.key.lno)))
      | [] =>
        match items with
        | some im =>
          itemsFold validateF items rest []
            (appendAllResults acc (validateF im e.val (posForValue e.key.lno)))
        | none =>
          itemsFold validateF items rest []
            (appendResult acc (posForKey e.key.lno) (keyAttempt e false none))

/-- The pattern branch of `matcher.validate` (`d == nil`): a scalar
with no attached error matched against the compiled pattern.  (Go
dereferences `m.pattern` unconditionally here; a matcher with neither
`resolved` nor `pattern` cannot leave `resolve`, and is modelled as a
non-match.) -/
def patternBranch (m : Matcher) (val : ConlValue) (pos : Int) : VResult :=
  match val.Scalar with
  | none => newResult pos (valueAttempt val false (some m))
  | some t =>
    if t.error.isSome then newResult pos (valueAttempt val false (some m))
    else
      match m.pattern with
      | some p =>
        if matchesPattern p t.content then
          newResult pos (valueAttempt val true (some m))
        else newResult pos (valueAttempt val false (some m))
      | none => newResult pos (valueAttempt val false (some m))

/-- The items branch of `matcher.validate`. -/
def itemsBranch (validateF : Matcher → ConlValue → Int → VResult)
    (m : Matcher) (val : ConlValue) (pos : Int) (d : Definition) : VResult :=
  if val.Scalar.isSome || !val.MapE.isEmpty then
    newResult pos (valueAttempt val false (some m))
  else
    let req := d.requiredItems.getD []
    let combined :=
      newResult pos (valueAttempt val (decide (req.length ≤ val.ListE.length)) (some m))
    itemsFold validateF d.items val.ListE req combined

/-- The keys branch of `matcher.validate`. -/
def keysBranch (validateF : Matcher → ConlValue → Int → VResult)
    (m : Matcher) (val : ConlValue) (pos : Int) (d : Definition) : VResult :=
  if val.Scalar.isSome || !val.ListE.isEmpty then
    newResult pos (valueAttempt val false (some m))
  else
    let reqs := d.requiredKeys.getD []
    let st := val.MapE.foldl
      (keysEntryStep validateF reqs (d.keys.getD [])) (zeroResult, [], [])
    let missing : List Matcher :=
      match reqs.enum.find? (fun p => !st.2.2.contains p.1) with
      | some p => [p.2.1]
      | none => []
    let att := (valueAttempt val missing.isEmpty (some m)).withMissingKeys missing
    appendResult st.1 pos att

/-- `matcher.validate(val, pos)` with fuel.  Branches in source order:
resolved-pattern matching, `Scalar` delegation, `AnyOf` merging via
`pickBestResult`, the items branch, the keys branch, and the empty
shape. -/
def mvalidate (s : CSchema) : Nat → Matcher → ConlValue → Int → VResult
  | 0, m, val, pos => newResult pos (valueAttempt val true (some m))
  | fuel + 1, m, val, pos =>
    match getDef s m with
    | none => patternBranch m val pos
    | some d =>
      match d.scalar with
      | some sm => mvalidate s fuel sm val pos
      | none =>
      match d.anyOf with
      | some choices =>
        choices.foldl
          (fun acc mm => pickBestResult acc (mvalidate s fuel mm val pos)) zeroResult
      | none =>
      if d.items.isSome || d.requiredItems.isSome then
        itemsBranch (mvalidate s fuel) m val pos d
      else if d.keys.isSome || d.requiredKeys.isSome then
        keysBranch (mvalidate s fuel) m val pos d
      else
        let empt := val.Scalar.isNone && val.MapE.isEmpty && val.ListE.isEmpty
        newResult pos (valueAttempt val empt (some m))

/-- One unfolding of `mvalidate` at positive fuel. -/
theorem mvalidate_succ (s : CSchema) (fuel : Nat) (m : Matcher) (val : ConlValue)
    (pos : Int) :
    mvalidate s (fuel + 1) m val pos =
      match getDef s m with
      | none => patternBranch m val pos
      | some d =>
        match d.scalar with
        | some sm => mvalidate s fuel sm val pos
        | none =>
        match d.anyOf with
        | some choices =>
          choices.foldl
            (fun acc mm => pickBestResult acc (mvalidate s fuel mm val pos)) zeroResult
        | none =>
        if d.items.isSome || d.requiredItems.isSome then
          itemsBranch (mvalidate s fuel) m val pos d
        else if d.keys.isSome || d.requiredKeys.isSome then
          keysBranch (mvalidate s fuel) m val pos d
        else
          let empt := val.Scalar.isNone && val.MapE.isEmpty && val.ListE.isEmpty
          newResult pos (valueAttempt val empt (some m)) := rfl

/-! ## Validation errors (`schema/validation_error.go`, newer version)

The newer file's `buildError` and the earlier `validationError` share
one body (up to wrapping the string); we embed that body.  The panic
branch (`d.Scalar != nil || d.OneOf != nil`, unreachable for results
produced by `validate`) contributes nothing. -/

/-- `schema.ValidationError`. -/
structure ValidationError where
  msg : Str
  pos : Int
deriving DecidableEq, Repr

/-- `ValidationError.Lno()`: position `0` (the whole document) reports
line 1. -/
def ValidationError.Lno (ve : ValidationError) : Int :=
  if ve.pos == 0 then 1 else resultPosLno ve.pos

/-- Decimal digit character. -/
def digitChar (d : Nat) : Char := Char.ofNat (48 + d)

/-- Decimal digits of `n` (with fuel; `natToDecimal` supplies enough). -/
def natDigits : Nat → Nat → Str
  | 0, _ => []
  | fuel + 1, n =>
    if n < 10 then [digitChar n]
    else natDigits fuel (n / 10) ++ [digitChar (n % 10)]

/-- `fmt.Sprintf("%d", n)` for a natural number. -/
def natToDecimal (n : Nat) : Str := natDigits (n + 1) n

/-- `joinWithOr`: comma-separate all but the last item, which is
attached with `" or "`. -/
def joinWithOr : List Str → Str
  | [] => []
  | [x] => x
  | x :: y :: rest =>
    x ++ (if (y :: rest).length == 1 then " or ".data else ", ".data) ++
      joinWithOr (y :: rest)

/-- The metacharacters of `strings.ContainsAny(pattern, ".\\[](){}^$?*+")`. -/
def metaChars : Str :=
  ['.', '\\', '[', ']', '(', ')', lbrace, rbrace, '^', '$', '?', '*', '+']

/-- `strings.ContainsAny(s, set)`. -/
def containsAny (s set : Str) : Bool := s.any (fun c => set.contains c)

/-- `suggestionsFromPattern(pattern, raw)` (`schema.go` lines
1733–1741). -/
def suggestionsFromPattern (pattern : Str) (raw : Bool) : List Str :=
  if containsAny pattern metaChars then (if raw then [pattern] else [])
  else splitBar pattern

/-- Lexicographic strict order on strings (rune order; Go sorts
byte-wise, which agrees on the ASCII strings produced here). -/
def strLT : Str → Str → Bool
  | [], [] => false
  | [], _ :: _ => true
  | _ :: _, [] => false
  | a :: as, b :: bs => a < b || (a == b && strLT as bs)

/-- Insert into a `slices.Sort`-ascending list of strings. -/
def insertStr (x : Str) : List Str → List Str
  | [] => [x]
  | y :: ys => if strLT y x then y :: insertStr x ys else x :: y :: ys

/-- `slices.Sort` for strings (insertion sort; the sorted sequence is
what matters). -/
def sortStrs : List Str → List Str
  | [] => []
  | x :: xs => insertStr x (sortStrs xs)

/-- `slices.Compact`: drop adjacent duplicates. -/
def compactAdj : List Str → List Str
  | [] => []
  | [x] => [x]
  | x :: y :: rest =>
    if x == y then compactAdj (y :: rest) else x :: compactAdj (y :: rest)

/-- State of the `buildError` fold: the highest priority seen with its
message, and the accumulated `expected`/`missingKeys` suggestion
lists. -/
structure ErrState where
  topP : Nat
  msg : Str
  expected : List Str
  missingKeys : List Str
deriving Repr

/-- `addError(p, newMsg)`: keep the highest-priority message,
first-come on ties. -/
def addError (st : ErrState) (p : Nat) (newMsg : Str) : ErrState :=
  if p > st.topP then { st with topP := p, msg := newMsg } else st

/-- One iteration of the `for _, m := range ms` loop of `buildError`
(`validation_error.go` lines 319–372): priorities 100 (decode error),
90 (duplicate key / unexpected list item), 80 (unexpected key), 40
(missing required list item), and the `expected`/`missingKeys`
accumulation. -/
def buildErrStep (s : CSchema) (pos : Int) (st : ErrState) (m : Attempt) : ErrState :=
  if m.ok then st
  else if (m.val.Scalar.bind (fun t => t.error)).isSome then
    addError st 100 ((m.val.Scalar.bind (fun t => t.error)).getD [])
  else
    match m.matcher with
    | none =>
      if (m.val.Scalar.map (fun t => t.kind)) == some .listItem then
        addError st 90 "unexpected list item".data
      else
        match m.duplicate with
        | some dup => addError st 90 ("duplicate key ".data ++ dup.raw)
        | none =>
          addError st 90
            ("duplicate key ".data ++ ((m.val.Scalar.map (fun t => t.content)).getD []))
    | some mm =>
      if !m.missingKeys.isEmpty then
        { st with missingKeys :=
            st.missingKeys ++
              m.missingKeys.flatMap (fun k => suggestionsFromPattern k.raw true) }
      else
        match getDef s mm with
        | none =>
          if resultPosIsKey pos then
            addError st 80
              ("unexpected key ".data ++ ((m.val.Scalar.map (fun t => t.content)).getD []))
          else if m.val.Scalar.isNone then
            { st with expected := st.expected ++ ["any scalar".data] }
          else
            { st with expected := st.expected ++ suggestionsFromPattern mm.raw true }
        | some d =>
          if d.keys.isSome || d.requiredKeys.isSome then
            { st with expected := st.expected ++ ["a map".data] }
          else if d.items.isSome || d.requiredItems.isSome then
            if !m.val.ListE.isEmpty &&
                m.val.ListE.length < (d.requiredItems.getD []).length then
              addError st 40
                ("missing required list item ".data ++
                  natToDecimal (d.requiredItems.getD []).length)
            else { st with expected := st.expected ++ ["a list".data] }
          else if d.scalar.isSome || d.anyOf.isSome then st
          else { st with expected := st.expected ++ ["no value".data] }

/-- `buildError(pos, ms)` (`validation_error.go` lines 305–391): fold
the attempts, then report by priority — a high-priority message, the
deduplicated sorted `expected` list, the missing keys, or the
message. -/
def buildError (s : CSchema) (pos : Int) (ms : List Attempt) : Str :=
  let st := ms.foldl (buildErrStep s pos) ⟨0, [], [], []⟩
  if st.topP > 50 then st.msg
  else if !st.expected.isEmpty then
    "expected ".data ++ joinWithOr (compactAdj (sortStrs st.expected))
  else if !st.missingKeys.isEmpty then
    "missing required key ".data ++ joinWithOr (compactAdj (sortStrs st.missingKeys))
  else st.msg

/-- `schema.Result`. -/
structure SResult where
  raw : List (Int × List Attempt)
  score : Int
  doc : ConlValue
  schema : CSchema
deriving Repr

/-- `Result.Valid()`. -/
def SResult.Valid (r : SResult) : Bool := r.score == success

/-- The comparator of `Result.Errors()` as a Boolean total order:
ascending line number, and at equal line numbers ascending `pos` (so a
key position `-lno` sorts before the value position `lno`). -/
def veLE (a b : ValidationError) : Bool :=
  a.Lno < b.Lno || (a.Lno == b.Lno && a.pos ≤ b.pos)

/-- Insert into a `veLE`-sorted list. -/
def insertVE (x : ValidationError) : List ValidationError → List ValidationError
  | [] => [x]
  | y :: ys => if veLE x y then x :: y :: ys else y :: insertVE x ys

/-- `slices.SortFunc` of `Result.Errors()` (insertion sort; all
positions in `raw` are distinct, so the sorted sequence is uniquely
determined and algorithm choice is immaterial). -/
def sortVEs : List ValidationError → List ValidationError
  | [] => []
  | x :: xs => insertVE x (sortVEs xs)

/-- `Result.Errors()` (`schema.go` lines 1571–1588): empty on success,
otherwise one error per raw position with a non-empty message,
sorted. -/
def SResult.Errors (r : SResult) : List ValidationError :=
  if r.score == success then []
  else
    sortVEs (r.raw.filterMap (fun pm =>
      let msg := buildError r.schema pm.1 pm.2
      if msg.isEmpty then none else some ⟨msg, pm.1⟩))

/-! ## `parseDoc` (`schema/conl_value.go` lines 21–70)

The newer `parseDoc` consumes the newer `conl.Tokens` stream, which is
not part of this repository snapshot (`src/conl.go` holds the older
generation).  Modelled from the spec: we adapt the older stream by
mapping each normalized token to a `CTok`; an `Error` token becomes a
scalar-shaped token carrying the message in its `error` field (in the
newer API the error rides on the token at the same position).  The Go
code mutates values through stack pointers; we keep an explicit stack
and attach each finished child into its parent's last entry when it is
popped (or when the stream ends), which commutes with the pointer
mutations. -/

/-- Modelled from the spec: adapter from the older token stream to the
newer token-with-error shape consumed by `parseDoc`. -/
def adaptToken (lt : Nat × Token) : CTok :=
  if lt.2.kind == .error then ⟨lt.1, .value, [], some lt.2.content⟩
  else ⟨lt.1, lt.2.kind, lt.2.content, none⟩

/-- Replace the value of the last entry of a list (no-op when there is
none, where Go would panic on an index out of range). -/
def replaceLastVal : List VEntry → ConlValue → List VEntry
  | [], _ => []
  | [e], c => [(e.1, c, e.2.2)]
  | e :: e' :: rest, c => e :: replaceLastVal (e' :: rest) c

/-- Set the value of the last entry of `v` — of the map when non-empty,
else of the list (`if len(current.Map) > 0 { … } else { … }`). -/
def setLastEntryValue (v : ConlValue) (child : ConlValue) : ConlValue :=
  match v with
  | .mk s m l =>
    if !m.isEmpty then .mk s (replaceLastVal m child) l
    else .mk s m (replaceLastVal l child)

/-- Append a map entry to `v`. -/
def appendMapEntry (v : ConlValue) (e : VEntry) : ConlValue :=
  match v with
  | .mk s m l => .mk s (m ++ [e]) l

/-- Append a list entry to `v`. -/
def appendListEntry (v : ConlValue) (e : VEntry) : ConlValue :=
  match v with
  | .mk s m l => .mk s m (l ++ [e])

/-- The token loop of `parseDoc`.  The stack pairs each value under
construction with its `lnoStack` entry; `lastLno` is the line of the
last key or list item seen. -/
def parseDocAux : List CTok → List (ConlValue × Nat) → Nat → List (ConlValue × Nat)
  | [], stack, _ => stack
  | tok :: rest, stack, lastLno =>
    match tok.kind, stack with
    | .mapKey, (cur, pl) :: up =>
      parseDocAux rest ((appendMapEntry cur (tok, emptyValue, pl), pl) :: up) tok.lno
    | .listItem, (cur, pl) :: up =>
      parseDocAux rest ((appendListEntry cur (tok, emptyValue, pl), pl) :: up) tok.lno
    | .value, (cur, pl) :: up =>
      parseDocAux rest ((setLastEntryValue cur (.mk (some tok) [] []), pl) :: up) lastLno
    | .multilineValue, (cur, pl) :: up =>
      parseDocAux rest ((setLastEntryValue cur (.mk (some tok) [] []), pl) :: up) lastLno
    | .indent, _ =>
      parseDocAux rest ((emptyValue, lastLno) :: stack) lastLno
    | .outdent, (child, _) :: (parent, pl) :: up =>
      parseDocAux rest ((setLastEntryValue parent child, pl) :: up) lastLno
    | _, _ => parseDocAux rest stack lastLno

/-- Attach the values remaining on the stack into their parents (in Go
children are linked into the document at `Indent` time, so a stack left
unbalanced by an erroneous stream still contributes to the root). -/
def parseDocCollapse : ConlValue → List (ConlValue × Nat) → ConlValue
  | child, [] => child
  | child, (parent, _) :: up => parseDocCollapse (setLastEntryValue parent child) up

/-- `parseDoc(input)`. -/
def parseDoc (input : Str) : ConlValue :=
  match parseDocAux ((Tokens input).map adaptToken) [(emptyValue, 0)] 0 with
  | [] => emptyValue
  | (v, _) :: up => parseDocCollapse v up

/-- Fuel for `Validate`: enough for any resolved schema, whose
reference chains are bounded by the number of definitions and whose
value recursion is bounded by the token count. -/
def docFuel (s : CSchema) (input : Str) : Nat :=
  ((Tokens input).length + 2) * (s.definitions.length + 2)

/-- `Schema.Validate(input)` (`schema.go` lines 1038–1050). -/
def Validate (s : CSchema) (input : Str) : SResult :=
  let doc := parseDoc input
  let r := mvalidate s (docFuel s input) s.root doc 0
  ⟨r.raw, r.firstErr, doc, s⟩

/-! ## Schema resolution (`schema.go` lines 300–349 and 649–664, the
older generation, which threads the DFS path `seen` through recursive
calls: `matcher.resolve` appends the reference to the path before
recursing into the definition; keys/values/items recurse with a `nil`
path)

The Go functions report success by mutating `Resolved` fields; the
embedding returns `Except` with no mutation (matchers record resolution
in `resolvedName`), made total with fuel decreasing on every step (the
Go recursion relies on `Resolved`-pointer marking for termination on
shared substructure). -/

/-- `sumIf`. -/
def sumIf (bs : List Bool) : Nat := (bs.filter id).length

/-- A pending resolution task: a matcher with a DFS path, a definition
with its name and path, or the lists iterated by `definition.resolve`. -/
inductive RTask where
  | rm (m : Matcher) (seen : List Str)
  | rd (d : Definition) (name : Str) (seen : List Str)
  | rl (ms : List Matcher) (seen : List Str)
  | rp (ps : List (Matcher × Matcher))

/-- Run one resolution task (fueled).  `.rm` is `matcher.resolve`
(lines 649–664): already-resolved matchers are a no-op, a missing
definition and a reference already on the path are errors, and
otherwise resolution recurses into the definition with the reference
appended to the path.  `.rd` is `definition.resolve` (lines 300–349):
named (builtin) definitions are skipped, mixed shapes are rejected,
then scalar, one-of choices, keys, required keys, items and required
items are resolved — the keyed collections with an empty path. -/
def resolveRun (s : CSchema) : Nat → RTask → Except Str Unit
  | 0, _ => .error "resolution recursion limit reached".data
  | fuel + 1, .rm m seen =>
    if m.pattern.isSome || m.resolvedName.isSome then .ok ()
    else
      match lookupDef s m.reference with
      | none => .error ('<' :: m.reference ++ "> is not defined".data)
      | some d =>
        if seen.contains m.reference then
          .error ('<' :: m.reference ++ "> is defined in terms of itself".data)
        else resolveRun s fuel (.rd d m.reference (seen ++ [m.reference]))
  | fuel + 1, .rd d name seen =>
    if !d.name.isEmpty then .ok ()
    else if 1 < sumIf [d.scalar.isSome, d.anyOf.isSome,
        d.keys.isSome || d.requiredKeys.isSome,
        d.items.isSome || d.requiredItems.isSome] then
      .error ("invalid schema: ".data ++ name ++
        " must have only one of pattern, enum, (required) keys, or (required) items".data)
    else
      (match d.scalar with
        | some sm => resolveRun s fuel (.rm sm seen)
        | none => .ok ()).bind fun _ =>
      (resolveRun s fuel (.rl (d.anyOf.getD []) seen)).bind fun _ =>
      (resolveRun s fuel (.rp (d.keys.getD []))).bind fun _ =>
      (resolveRun s fuel (.rp (d.requiredKeys.getD []))).bind fun _ =>
      (match d.items with
        | some im => resolveRun s fuel (.rm im [])
        | none => .ok ()).bind fun _ =>
      resolveRun s fuel (.rl (d.requiredItems.getD []) [])
  | _ + 1, .rl [] _ => .ok ()
  | fuel + 1, .rl (m :: rest) seen =>
    (resolveRun s fuel (.rm m seen)).bind fun _ => resolveRun s fuel (.rl rest seen)
  | _ + 1, .rp [] => .ok ()
  | fuel + 1, .rp ((k, v) :: rest) =>
    (resolveRun s fuel (.rm k [])).bind fun _ =>
    (resolveRun s fuel (.rm v [])).bind fun _ =>
    resolveRun s fuel (.rp rest)

/-- `matcher.resolve(s, seen)`. -/
def resolveMatcher (s : CSchema) (fuel : Nat) (m : Matcher) (seen : List Str) :
    Except Str Unit :=
  resolveRun s fuel (.rm m seen)

/-- `definition.resolve(s, name, seen)`. -/
def resolveDef (s : CSchema) (fuel : Nat) (d : Definition) (name : Str)
    (seen : List Str) : Except Str Unit :=
  resolveRun s fuel (.rd d name seen)

/-! ## Claim C7: pattern matchers are compiled fully anchored -/

/-- **C7**: a non-reference matcher text `p` (non-empty, not starting
with `<`) is compiled as the anchored regular expression `(?s)^p$` —
dot matching newlines, anchored at both ends — so a scalar is tested
against the whole pattern over its whole text; moreover the anchoring
wrapper is lossless: the embedded match semantics strips exactly the
five-character prefix `(?s)^` and the final `$`, recovering `p`
itself. -/
theorem c7_pattern_anchored (data : Str) (c : Char) (rest : Str)
    (hd : data = c :: rest) (hc : c ≠ '<') :
    unmarshalText data =
      .ok ⟨some ("(?s)^".data ++ data ++ "$".data), [], none, data, []⟩ ∧
    ((("(?s)^".data ++ data ++ "$".data).drop 5).dropLast) = data := by
  subst hd
  constructor
  · simp [unmarshalText, hc]
  · have h5 : ("(?s)^".data ++ ((c :: rest) ++ "$".data)).drop 5 = (c :: rest) ++ "$".data :=
      List.drop_left' (by rfl)
    rw [List.append_assoc, h5]
    exact List.dropLast_concat

/-- Witness for C7 at the matcher text `a|b`. -/
theorem c7_pattern_anchored_witness :
    unmarshalText "a|b".data =
      .ok ⟨some ("(?s)^".data ++ "a|b".data ++ "$".data), [], none, "a|b".data, []⟩ ∧
    ((("(?s)^".data ++ "a|b".data ++ "$".data).drop 5).dropLast) = "a|b".data :=
  c7_pattern_anchored "a|b".data 'a' "|b".data rfl (by decide)

/-! ## Claim C6: reference resolution errors and the DFS path -/

/-- **C6**: resolving an unresolved reference matcher fails with
`<name> is not defined` when the name has no definition; fails with
`<name> is defined in terms of itself` when the name is already on the
current DFS path; and otherwise recurses into the target definition
with the name appended to the path. -/
theorem c6_resolve_reference (s : CSchema) (fuel : Nat) (m : Matcher) (seen : List Str)
    (hp : m.pattern = none) (hr : m.resolvedName = none) :
    (lookupDef s m.reference = none →
      resolveMatcher s (fuel + 1) m seen =
        .error ('<' :: m.reference ++ "> is not defined".data)) ∧
    (∀ d, lookupDef s m.reference = some d → m.reference ∈ seen →
      resolveMatcher s (fuel + 1) m seen =
        .error ('<' :: m.reference ++ "> is defined in terms of itself".data)) ∧
    (∀ d, lookupDef s m.reference = some d → m.reference ∉ seen →
      resolveMatcher s (fuel + 1) m seen =
        resolveDef s fuel d m.reference (seen ++ [m.reference])) := by
  have step : resolveMatcher s (fuel + 1) m seen =
      match lookupDef s m.reference with
      | none => .error ('<' :: m.reference ++ "> is not defined".data)
      | some d =>
        if seen.contains m.reference then
          .error ('<' :: m.reference ++ "> is defined in terms of itself".data)
        else resolveRun s fuel (.rd d m.reference (seen ++ [m.reference])) := by
    show resolveRun s (fuel + 1) (.rm m seen) = _
    rw [show resolveRun s (fuel + 1) (.rm m seen) =
      if m.pattern.isSome || m.resolvedName.isSome then .ok ()
      else
        match lookupDef s m.reference with
        | none => .error ('<' :: m.reference ++ "> is not defined".data)
        | some d =>
          if seen.contains m.reference then
            .error ('<' :: m.reference ++ "> is defined in terms of itself".data)
          else resolveRun s fuel (.rd d m.reference (seen ++ [m.reference])) from rfl]
    simp [hp, hr]
  refine ⟨fun hnone => ?_, fun d hsome hmem => ?_, fun d hsome hmem => ?_⟩
  · rw [step, hnone]
  · rw [step, hsome]
    simp [hmem]
  · rw [step, hsome]
    have hc : seen.contains m.reference = false := by
      simpa using hmem
    rw [hc]
    simp only [Bool.false_eq_true, if_false]
    rfl

/-- A schema for the C6 witness: one empty definition named `x`. -/
def c6schema : CSchema :=
  ⟨⟨none, "x".data, none, "<x>".data, []⟩, [("x".data, emptyDefinition)]⟩

/-- An unresolved reference matcher `<x>` for the C6 witness. -/
def c6m : Matcher := ⟨none, "x".data, none, "<x>".data, []⟩

/-- Witness for C6: against an empty definitions map `<x>` is not
defined; with `x` on the path the cycle error fires; with a fresh path
resolution recurses into the definition of `x` with `x` appended. -/
theorem c6_resolve_reference_witness :
    resolveMatcher ⟨c6m, []⟩ 3 c6m [] =
      .error ('<' :: "x".data ++ "> is not defined".data) ∧
    resolveMatcher c6schema 3 c6m ["x".data] =
      .error ('<' :: "x".data ++ "> is defined in terms of itself".data) ∧
    resolveMatcher c6schema 3 c6m [] =
      resolveDef c6schema 2 emptyDefinition "x".data ["x".data] :=
  ⟨(c6_resolve_reference ⟨c6m, []⟩ 2 c6m [] rfl rfl).1 rfl,
   (c6_resolve_reference c6schema 2 c6m ["x".data] rfl rfl).2.1 emptyDefinition rfl
     (by decide),
   by
     have h := (c6_resolve_reference c6schema 2 c6m [] rfl rfl).2.2 emptyDefinition rfl
       (by decide)
     simpa using h⟩

/-! ## Claim C5: purity of `Validate` and idempotence of `resolve`

The resolve-idempotence half of the claim is true (and proved below).
The purity half overclaims: `Result.Errors()` depends on the iteration
order of the Go maps `definition.RequiredKeys` (the `validate` loops
and in particular the first-missing-key scan iterate them), and Go
randomizes map iteration order, so two runs on identical inputs may
report different errors whenever two orders are observable.  In the
embedding the map order is the association-list order; the
counterexample exhibits two schemas that are equal as finite maps —
same root, same single definition name, `RequiredKeys` association
lists that are permutations of each other — yet produce different
error lists on the same input. -/

/-- Key matcher `a` for the C5 counterexample. -/
def c5ka : Matcher := ⟨some "(?s)^a$".data, [], none, ['a'], []⟩

/-- Key matcher `b` for the C5 counterexample. -/
def c5kb : Matcher := ⟨some "(?s)^b$".data, [], none, ['b'], []⟩

/-- Value matcher `.*` for the C5 counterexample. -/
def c5vm : Matcher := ⟨some "(?s)^.*$".data, [], none, ".*".data, []⟩

/-- Schema requiring keys `a` and `b`, in that association order. -/
def c5sA : CSchema :=
  ⟨⟨none, "d".data, some "d".data, "<d>".data, []⟩,
   [("d".data, ⟨[], [], none, none, none, some [(c5ka, c5vm), (c5kb, c5vm)], none, none⟩)]⟩

/-- The same schema with the `RequiredKeys` entries in the other
order. -/
def c5sB : CSchema :=
  ⟨⟨none, "d".data, some "d".data, "<d>".data, []⟩,
   [("d".data, ⟨[], [], none, none, none, some [(c5kb, c5vm), (c5ka, c5vm)], none, none⟩)]⟩

/-- **C5** (counterexample): the two schemas have the same root and the
same single definition whose `RequiredKeys` lists are permutations of
each other (equal as Go maps), yet validating the empty document
reports `missing required key a` under one order and `missing required
key b` under the other — `Result.Errors()` is not a function of the
(schema, input) pair alone, but also of the map iteration order. -/
theorem c5_counterexample :
    c5sA.root = c5sB.root ∧
    c5sA.definitions.map Prod.fst = c5sB.definitions.map Prod.fst ∧
    (((c5sA.definitions.map (fun p => p.2.requiredKeys.getD [])).flatten).Perm
      ((c5sB.definitions.map (fun p => p.2.requiredKeys.getD [])).flatten)) ∧
    (Validate c5sA []).Errors = [⟨"missing required key ".data ++ ['a'], 0⟩] ∧
    (Validate c5sB []).Errors = [⟨"missing required key ".data ++ ['b'], 0⟩] ∧
    (Validate c5sA []).Errors ≠ (Validate c5sB []).Errors := by
  refine ⟨rfl, rfl, ?_, by decide, by decide, by decide⟩
  simp [c5sA, c5sB]
  exact List.Perm.swap' _ _ (List.Perm.refl _)

/-- **C5** (amended, the true part): resolving an already-resolved
matcher — one whose `pattern` or `resolved` field is set — is a no-op:
it succeeds immediately, for any schema, any path and any fuel, reading
nothing and (in Go) writing nothing.  (The purity half of the claim
holds only relative to a fixed map iteration order; in this embedding,
where the order is the association order, `Validate` is definitionally
a function of the schema and input.) -/
theorem c5_resolve_idempotent (s : CSchema) (fuel : Nat) (m : Matcher) (seen : List Str)
    (h : m.pattern.isSome = true ∨ m.resolvedName.isSome = true) :
    resolveMatcher s (fuel + 1) m seen = .ok () := by
  unfold resolveMatcher resolveRun
  rcases h with h | h <;> simp [h]

/-- Witness for C5 at a concrete resolved (pattern) matcher. -/
theorem c5_resolve_idempotent_witness :
    resolveMatcher c5sA 1 c5ka ["d".data] = .ok () :=
  c5_resolve_idempotent c5sA 0 c5ka ["d".data] (Or.inl rfl)

/-! ## Claim C3: `Result.Errors()` is sorted

The comparator orders by line number and, within a line, by `pos` — a
key position is the negated line number, so on one line key errors
(`-lno`) precede value errors (`lno`).  `Validate` and `Errors` are
total functions of the input (the "never raises" half of the claim is
totality of the embedding, which holds by construction). -/

/-- The sortedness relation of C3 as a proposition. -/
def veP (a b : ValidationError) : Prop :=
  a.Lno < b.Lno ∨ (a.Lno = b.Lno ∧ a.pos ≤ b.pos)

/-- The Boolean comparator agrees with `veP`. -/
theorem veLE_iff (a b : ValidationError) : veLE a b = true ↔ veP a b := by
  simp [veLE, veP]

/-- `veP` is total. -/
theorem veP_total (a b : ValidationError) : veP a b ∨ veP b a := by
  unfold veP; omega

/-- `veP` is transitive. -/
theorem veP_trans {a b c : ValidationError} : veP a b → veP b c → veP a c := by
  unfold veP; omega

/-- Elements of `insertVE x l` are `x` or elements of `l`. -/
theorem mem_insertVE (x z : ValidationError) :
    ∀ l, z ∈ insertVE x l → z = x ∨ z ∈ l := by
  intro l
  induction l with
  | nil => simp [insertVE]
  | cons y ys ih =>
    simp only [insertVE]
    split
    · intro h
      rcases List.mem_cons.mp h with h | h
      · exact Or.inl h
      · exact Or.inr h
    · intro h
      rcases List.mem_cons.mp h with h | h
      · exact Or.inr (h ▸ List.mem_cons_self y ys)
      · rcases ih h with h | h
        · exact Or.inl h
        · exact Or.inr (List.mem_cons_of_mem y h)

/-- Inserting into a `veP`-pairwise list keeps it pairwise. -/
theorem pairwise_insertVE (x : ValidationError) :
    ∀ l, l.Pairwise veP → (insertVE x l).Pairwise veP := by
  intro l
  induction l with
  | nil => intro _; simp [insertVE, veP]
  | cons y ys ih =>
    intro h
    rcases h with - | ⟨hy, hys⟩
    simp only [insertVE]
    split
    · rename_i hxy
      refine List.Pairwise.cons ?_ (List.Pairwise.cons hy hys)
      intro z hz
      rcases List.mem_cons.mp hz with h | h
      · exact h ▸ (veLE_iff x y).mp hxy
      · exact veP_trans ((veLE_iff x y).mp hxy) (hy z h)
    · rename_i hxy
      have hyx : veP y x := by
        rcases veP_total x y with h' | h'
        · exact absurd ((veLE_iff x y).mpr h') hxy
        · exact h'
      refine List.Pairwise.cons ?_ (ih hys)
      intro z hz
      rcases mem_insertVE x z ys hz with h | h
      · exact h ▸ hyx
      · exact hy z h

/-- `sortVEs` always produces a `veP`-pairwise list. -/
theorem pairwise_sortVEs : ∀ l, (sortVEs l).Pairwise veP := by
  intro l
  induction l with
  | nil => simp [sortVEs]
  | cons x xs ih => exact pairwise_insertVE x (sortVEs xs) ih

/-- `insertVE` never returns the empty list. -/
theorem insertVE_ne_nil (x : ValidationError) : ∀ l, insertVE x l ≠ [] := by
  intro l
  cases l with
  | nil => simp [insertVE]
  | cons y ys => simp only [insertVE]; split <;> simp

/-- `sortVEs` is empty only on the empty list. -/
theorem sortVEs_eq_nil : ∀ l, sortVEs l = [] ↔ l = [] := by
  intro l
  cases l with
  | nil => simp [sortVEs]
  | cons x xs =>
    simp only [sortVEs]
    exact ⟨fun h => absurd h (insertVE_ne_nil x _), fun h => nomatch h⟩

/-- **C3**: for every schema and every input (malformed input
included — the pipeline is total and turns lexer errors into
validation errors), the error list of `Validate` is sorted in
non-decreasing line order, with two errors on the same line ordered by
position — the key position (the negated line number) before the value
position. -/
theorem c3_errors_sorted (s : CSchema) (input : Str) :
    ((Validate s input).Errors).Pairwise veP := by
  unfold SResult.Errors
  split
  · exact List.Pairwise.nil
  · exact pairwise_sortVEs _


/-! ## Claim C8: duplicate keys on a required-keys matcher

In the keys branch, the first document key matching a `RequiredKeys`
matcher records that matcher (index) in `seenRequired`; a later,
*distinct* document key matching the same matcher takes the
`seenRequired` path, which appends a failing attempt carrying the
matcher as `duplicate` at the second key's position and skips the rest
of the entry's processing — producing exactly one error, `duplicate
key <raw>`, at the second occurrence. -/

/-- A successful pattern-matcher validation: an error-free scalar whose
content matches the compiled pattern yields a single successful attempt
at the given position. -/
theorem c8pat (s : CSchema) (f : Nat) :
    ∀ (mm : Matcher) (q : Str), mm.resolvedName = none → mm.pattern = some q →
    ∀ (tok : CTok) (p : Int), tok.error = none → matchesPattern q tok.content = true →
    mvalidate s (f + 1) mm (.mk (some tok) [] []) p =
      ⟨[(p, [valueAttempt (.mk (some tok) [] []) true (some mm)])], success, 0⟩ := by
  intro mm q hres hpat tok p het hmt
  rw [mvalidate_succ]
  simp [getDef, hres, patternBranch, ConlValue.Scalar, het, hpat, hmt, newResult,
    valueAttempt]


/-- Document for claim C8: a two-entry map, key `c1` (line 1) with a
scalar value `sv`, and key `c2` (line 2) with an arbitrary value
(never validated, as the duplicate path skips value validation). -/
def c8doc (c1 sv c2 : Str) (v2 : ConlValue) : ConlValue :=
  .mk none
    [(⟨1, .mapKey, c1, none⟩, .mk (some ⟨1, .value, sv, none⟩) [] [], 0),
     (⟨2, .mapKey, c2, none⟩, v2, 0)] []

/-- **C8**: validating a map with two distinct keys both matching the
single `RequiredKeys` matcher `km` (with the first value matching its
value matcher): the first occurrence marks `km` seen, and the second
yields precisely one error — `duplicate key` followed by the matcher's
description `km.raw` — at the key position of the second occurrence
(line 2), which is also the furthest-error score of the result. -/
theorem c8_required_key_duplicate
    (s : CSchema) (f : Nat) (m : Matcher) (d : Definition)
    (km vm : Matcher) (pk pv : Str) (c1 c2 sv : Str) (v2 : ConlValue)
    (hd : getDef s m = some d)
    (hds : d.scalar = none) (hda : d.anyOf = none)
    (hdi : d.items = none) (hdri : d.requiredItems = none)
    (hdk : d.keys = none) (hdrk : d.requiredKeys = some [(km, vm)])
    (hkm : km.resolvedName = none) (hkmp : km.pattern = some pk)
    (hvm : vm.resolvedName = none) (hvmp : vm.pattern = some pv)
    (hne : c1 ≠ c2)
    (hm1 : matchesPattern pk c1 = true) (hm2 : matchesPattern pk c2 = true)
    (hs1 : matchesPattern pv sv = true) :
    SResult.Errors ⟨(mvalidate s (f + 1 + 1) m (c8doc c1 sv c2 v2) 0).raw,
        (mvalidate s (f + 1 + 1) m (c8doc c1 sv c2 v2) 0).firstErr,
        c8doc c1 sv c2 v2, s⟩ =
      [⟨"duplicate key ".data ++ km.raw, posForKey 2⟩] ∧
    (mvalidate s (f + 1 + 1) m (c8doc c1 sv c2 v2) 0).firstErr = 2 := by
  have h21 : ([c1] : List Str).contains c2 = false := by simp [Ne.symm hne]
  have he1 : keysEntryStep (mvalidate s (f + 1)) [(km, vm)] [] (zeroResult, [], [])
      (⟨1, .mapKey, c1, none⟩, .mk (some ⟨1, .value, sv, none⟩) [] [], 0) =
      (⟨[(posForKey 1,
           [valueAttempt (.mk (some ⟨1, .mapKey, c1, none⟩) [] []) true (some km)]),
         (posForValue 1,
           [valueAttempt (.mk (some ⟨1, .value, sv, none⟩) [] []) true (some vm)])],
        success, 0⟩, [c1], [0]) := by
    simp only [keysEntryStep, VEntry.key, VEntry.val, List.contains_nil,
      Bool.false_eq_true, if_false]
    rw [show ([(km, vm)] : List (Matcher × Matcher)).enum = [(0, (km, vm))] from rfl]
    simp only [scanRequired,
      c8pat s f km pk hkm hkmp ⟨1, .mapKey, c1, none⟩ (posForKey 1) rfl hm1]
    simp only [pickBestResult, zeroResult]
    norm_num [success, appendAllResults, appendResult, rawFind, rawAppend, newResult,
      valueAttempt, posForKey, posForValue, c8pat s f vm pv hvm hvmp, hs1]
  have he2 : keysEntryStep (mvalidate s (f + 1)) [(km, vm)] []
      (⟨[(posForKey 1,
           [valueAttempt (.mk (some ⟨1, .mapKey, c1, none⟩) [] []) true (some km)]),
         (posForValue 1,
           [valueAttempt (.mk (some ⟨1, .value, sv, none⟩) [] []) true (some vm)])],
        success, 0⟩, [c1], [0]) (⟨2, .mapKey, c2, none⟩, v2, 0) =
      (⟨[(posForKey 1,
           [valueAttempt (.mk (some ⟨1, .mapKey, c1, none⟩) [] []) true (some km)]),
         (posForValue 1,
           [valueAttempt (.mk (some ⟨1, .value, sv, none⟩) [] []) true (some vm)]),
         (posForKey 2,
           [(keyAttempt (⟨2, .mapKey, c2, none⟩, v2, 0) false none).withDuplicate km])],
        2, 1⟩, [c2, c1], [0]) := by
    simp only [keysEntryStep, VEntry.key, VEntry.val, h21, Bool.false_eq_true, if_false]
    rw [show ([(km, vm)] : List (Matcher × Matcher)).enum = [(0, (km, vm))] from rfl]
    simp only [scanRequired,
      c8pat s f km pk hkm hkmp ⟨2, .mapKey, c2, none⟩ (posForKey 2) rfl hm2]
    simp only [pickBestResult, zeroResult]
    norm_num [success, appendResult, rawFind, rawAppend, keyAttempt,
      Attempt.withDuplicate, posForKey, posForValue, resultPosLno]
  have hmain : mvalidate s (f + 1 + 1) m (c8doc c1 sv c2 v2) 0 =
      ⟨[(posForKey 1,
          [valueAttempt (.mk (some ⟨1, .mapKey, c1, none⟩) [] []) true (some km)]),
        (posForValue 1,
          [valueAttempt (.mk (some ⟨1, .value, sv, none⟩) [] []) true (some vm)]),
        (posForKey 2,
          [(keyAttempt (⟨2, .mapKey, c2, none⟩, v2, 0) false none).withDuplicate km]),
        (0, [(valueAttempt (c8doc c1 sv c2 v2) true (some m)).withMissingKeys []])],
        2, 1⟩ := by
    rw [mvalidate_succ, hd]
    simp only [hds, hda, hdi, hdri, hdk, hdrk, Option.isSome_none, Option.isSome_some,
      Bool.or_self, Bool.false_or, Bool.or_false, Bool.or_true, if_true, if_false]
    simp only [keysBranch, hdk, hdrk, Option.getD_some, Option.getD_none]
    rw [show (c8doc c1 sv c2 v2).Scalar = none from rfl,
      show (c8doc c1 sv c2 v2).ListE = [] from rfl,
      show (c8doc c1 sv c2 v2).MapE =
        [(⟨1, .mapKey, c1, none⟩, .mk (some ⟨1, .value, sv, none⟩) [] [], 0),
         (⟨2, .mapKey, c2, none⟩, v2, 0)] from rfl]
    simp only [List.foldl_cons, List.foldl_nil, he1, he2, Option.isSome_none,
      List.isEmpty_nil, Bool.not_true, Bool.false_or, Bool.false_eq_true, if_false]
    rw [show ([(km, vm)] : List (Matcher × Matcher)).enum = [(0, (km, vm))] from rfl]
    norm_num [List.find?, appendResult, rawFind, rawAppend, valueAttempt,
      Attempt.withMissingKeys, posForKey, posForValue, success, resultPosLno]
  rw [hmain]
  have hmsg : (("duplicate key ".data ++ km.raw) : Str).isEmpty = false := rfl
  constructor
  · simp only [SResult.Errors]
    rw [if_neg (by decide)]
    simp [List.filterMap, buildError, buildErrStep, addError, valueAttempt, keyAttempt,
      Attempt.withDuplicate, Attempt.withMissingKeys, ConlValue.Scalar, hmsg,
      sortVEs, insertVE, getDef, posForKey, posForValue, VEntry.key, VEntry.val,
      VEntry.parentLno]
  · rfl

/-- Key matcher `a|b` for the C8 witness (Scenario D). -/
def c8km : Matcher := ⟨some "(?s)^a|b$".data, [], none, "a|b".data, []⟩

/-- Value matcher `.*` for the C8 witness. -/
def c8vm : Matcher := ⟨some "(?s)^.*$".data, [], none, ".*".data, []⟩

/-- Root matcher `<d>` for the C8 witness. -/
def c8root : Matcher := ⟨none, "d".data, some "d".data, "<d>".data, []⟩

/-- Definition with `required keys` `a|b = .*` for the C8 witness. -/
def c8def : Definition :=
  ⟨[], [], none, none, none, some [(c8km, c8vm)], none, none⟩

/-- Schema for the C8 witness. -/
def c8schema : CSchema := ⟨c8root, [("d".data, c8def)]⟩

/-- Witness for C8, Scenario D: required key pattern `a|b` with
document keys `a` and `b` yields `duplicate key a|b` on line 2. -/
theorem c8_required_key_duplicate_witness :
    SResult.Errors ⟨(mvalidate c8schema (0 + 1 + 1) c8root (c8doc ['a'] ['1'] ['b'] emptyValue) 0).raw,
        (mvalidate c8schema (0 + 1 + 1) c8root (c8doc ['a'] ['1'] ['b'] emptyValue) 0).firstErr,
        c8doc ['a'] ['1'] ['b'] emptyValue, c8schema⟩ =
      [⟨"duplicate key ".data ++ "a|b".data, posForKey 2⟩] ∧
    (mvalidate c8schema (0 + 1 + 1) c8root (c8doc ['a'] ['1'] ['b'] emptyValue) 0).firstErr = 2 :=
  c8_required_key_duplicate c8schema 0 c8root c8def c8km c8vm
    "(?s)^a|b$".data "(?s)^.*$".data ['a'] ['b'] ['1'] emptyValue
    rfl rfl rfl rfl rfl rfl rfl rfl rfl rfl rfl
    (by decide) (by decide) (by decide) (by decide)

/-! ## Claim C10: `Valid()` iff `Errors()` is empty

The proof goes through two invariants of every result produced by
`matcher.validate`: the result's `raw` map is non-empty and contains a
failing attempt whenever `firstErr ≠ success` (so a non-`Valid` result
has a position with a failing attempt), and every recorded attempt is
*well-formed* (`goodAttempt`): its document node carries no empty error
message, and its matcher — if resolved — resolves to a definition that
is neither a scalar nor an any-of shape (the two shapes `validate`
always delegates before recording).  Well-formedness makes `buildError`
produce a non-empty message at any position holding a failing attempt,
so `Errors()` is non-empty exactly when `Valid()` is false. -/

/-- A token whose attached error message, if any, is non-empty. -/
def tokGood (t : CTok) : Prop := ∀ e, t.error = some e → e ≠ []

/-- All tokens reachable in a document node have `tokGood` errors (the
shape `parseDoc` always produces, since the lexer's error messages are
non-empty). -/
inductive DocGood : ConlValue → Prop where
  | intro (sc : Option CTok) (m l : List VEntry) :
      (∀ t, sc = some t → tokGood t) →
      (∀ e ∈ m, tokGood e.key) → (∀ e ∈ m, DocGood e.val) →
      (∀ e ∈ l, tokGood e.key) → (∀ e ∈ l, DocGood e.val) →
      DocGood (.mk sc m l)

/-- A well-formed failing attempt: its value's scalar error (if any) is
non-empty, and its matcher (if any) does not resolve to a scalar or
any-of definition. -/
def goodAttempt (s : CSchema) (a : Attempt) : Prop :=
  a.ok = false →
    (∀ t e, a.val.Scalar = some t → t.error = some e → e ≠ []) ∧
    (∀ mm dd, a.matcher = some mm → getDef s mm = some dd →
      dd.scalar = none ∧ dd.anyOf = none)

/-- All attempts recorded in a raw map are well-formed. -/
def GoodRaw (s : CSchema) (raw : List (Int × List Attempt)) : Prop :=
  ∀ pm ∈ raw, ∀ a ∈ pm.2, goodAttempt s a

/-- Some position of the raw map holds a failing attempt. -/
def FailInRaw (raw : List (Int × List Attempt)) : Prop :=
  ∃ pm ∈ raw, ∃ a ∈ pm.2, a.ok = false

/-- The result invariant: non-empty raw map, a failing attempt whenever
the score is not `success`, and all attempts well-formed. -/
def NRG (s : CSchema) (r : VResult) : Prop :=
  r.raw ≠ [] ∧ (r.firstErr ≠ success → FailInRaw r.raw) ∧ GoodRaw s r.raw

/-- The invariant for intermediate accumulators, which may still be the
zero result. -/
def ResP0 (s : CSchema) (r : VResult) : Prop := r.raw = [] ∨ NRG s r

theorem P0_goodRaw {s r} (h : ResP0 s r) : GoodRaw s r.raw := by
  rcases h with h | h
  · intro pm hpm
    rw [h] at hpm
    exact absurd hpm (List.not_mem_nil pm)
  · exact h.2.2

theorem rawAppend_ne_nil (raw : List (Int × List Attempt)) (pos : Int) (att : Attempt) :
    rawAppend raw pos att ≠ [] := by
  cases raw with
  | nil => simp [rawAppend]
  | cons p rest => simp only [rawAppend]; split <;> simp

theorem failInRaw_rawAppend {raw : List (Int × List Attempt)} (pos : Int)
    (att : Attempt) (h : FailInRaw raw) : FailInRaw (rawAppend raw pos att) := by
  induction raw with
  | nil => rcases h with ⟨pm, hpm, _⟩; exact absurd hpm (List.not_mem_nil pm)
  | cons p rest ih =>
    obtain ⟨q, ms⟩ := p
    rcases h with ⟨pm, hpm, a, ha, hok⟩
    simp only [rawAppend]
    split
    · rcases List.mem_cons.mp hpm with rfl | hpm'
      · exact ⟨(q, ms ++ [att]), List.mem_cons_self _ _,
          a, List.mem_append_left _ ha, hok⟩
      · exact ⟨pm, List.mem_cons_of_mem _ hpm', a, ha, hok⟩
    · rcases List.mem_cons.mp hpm with rfl | hpm'
      · exact ⟨(q, ms), List.mem_cons_self _ _, a, ha, hok⟩
      · rcases ih ⟨pm, hpm', a, ha, hok⟩ with ⟨pm', hpm', a', ha', hok'⟩
        exact ⟨pm', List.mem_cons_of_mem _ hpm', a', ha', hok'⟩

theorem failInRaw_rawAppend_fail (raw : List (Int × List Attempt)) (pos : Int)
    {att : Attempt} (h : att.ok = false) : FailInRaw (rawAppend raw pos att) := by
  induction raw with
  | nil => exact ⟨(pos, [att]), by simp [rawAppend], att, by simp, h⟩
  | cons p rest ih =>
    obtain ⟨q, ms⟩ := p
    simp only [rawAppend]
    split
    · exact ⟨(q, ms ++ [att]), List.mem_cons_self _ _,
        att, List.mem_append_right _ (by simp), h⟩
    · rcases ih with ⟨pm', hpm', a', ha', hok'⟩
      exact ⟨pm', List.mem_cons_of_mem _ hpm', a', ha', hok'⟩

theorem goodRaw_rawAppend {s raw} (pos : Int) {att : Attempt} (hr : GoodRaw s raw)
    (ha : goodAttempt s att) : GoodRaw s (rawAppend raw pos att) := by
  induction raw with
  | nil =>
    intro pm hpm a hma
    simp only [rawAppend, List.mem_singleton] at hpm
    subst hpm
    simp only [List.mem_singleton] at hma
    subst hma
    exact ha
  | cons p rest ih =>
    obtain ⟨q, ms⟩ := p
    intro pm hpm a hma
    simp only [rawAppend] at hpm
    split at hpm
    · rcases List.mem_cons.mp hpm with rfl | hpm'
      · rcases List.mem_append.mp hma with h | h
        · exact hr (q, ms) (List.mem_cons_self _ _) a h
        · simp only [List.mem_singleton] at h
          subst h
          exact ha
      · exact hr pm (List.mem_cons_of_mem _ hpm') a hma
    · rcases List.mem_cons.mp hpm with rfl | hpm'
      · exact hr (q, ms) (List.mem_cons_self _ _) a hma
      · exact ih (fun u hu b hb => hr u (List.mem_cons_of_mem _ hu) b hb) pm hpm' a hma

theorem newResult_NRG {s : CSchema} (pos : Int) {att : Attempt}
    (hg : goodAttempt s att) : NRG s (newResult pos att) := by
  unfold newResult
  split
  · refine ⟨by simp, fun hfe => absurd rfl hfe, ?_⟩
    intro pm hpm a hma
    simp only [List.mem_singleton] at hpm
    subst hpm
    simp only [List.mem_singleton] at hma
    subst hma
    exact hg
  · rename_i hok
    refine ⟨by simp, fun _ => ⟨(pos, [att]), by simp, att, by simp, by
      revert hok; cases att.ok <;> simp⟩, ?_⟩
    intro pm hpm a hma
    simp only [List.mem_singleton] at hpm
    subst hpm
    simp only [List.mem_singleton] at hma
    subst hma
    exact hg

theorem appendResult_NRG {s : CSchema} {r : VResult} (pos : Int) {att : Attempt}
    (h : ResP0 s r) (hg : goodAttempt s att) : NRG s (appendResult r pos att) := by
  unfold appendResult
  split
  · exact newResult_NRG pos hg
  · rename_i hne
    have hraw : r.raw ≠ [] := by
      revert hne
      cases r.raw <;> simp
    have hnrg : NRG s r := h.resolve_left (by exact fun hh => absurd hh hraw)
    refine ⟨rawAppend_ne_nil _ _ _, ?_, goodRaw_rawAppend pos hnrg.2.2 hg⟩
    intro hfe
    by_cases hok : att.ok = false
    · exact failInRaw_rawAppend_fail _ _ hok
    · have hok' : att.ok = true := by revert hok; cases att.ok <;> simp
      simp only [hok', Bool.not_true, Bool.false_and, Bool.false_eq_true, if_false] at hfe
      exact failInRaw_rawAppend _ _ (hnrg.2.1 hfe)

theorem appendRow_NRG {s : CSchema} (pos : Int) :
    ∀ (ms : List Attempt) (acc : VResult), ResP0 s acc →
      (∀ a ∈ ms, goodAttempt s a) → ms ≠ [] →
      NRG s (ms.foldl (fun a m => appendResult a pos m) acc) := by
  intro ms
  induction ms with
  | nil => intro acc _ _ hne; exact absurd rfl hne
  | cons a rest ih =>
    intro acc hacc hg _
    simp only [List.foldl_cons]
    by_cases hr : rest = []
    · subst hr
      simpa using appendResult_NRG pos hacc (hg a (List.mem_cons_self _ _))
    · exact ih _ (Or.inr (appendResult_NRG pos hacc (hg a (List.mem_cons_self _ _))))
        (fun b hb => hg b (List.mem_cons_of_mem _ hb)) hr

theorem appendRow_P0 {s : CSchema} (pos : Int) :
    ∀ (ms : List Attempt) (acc : VResult), ResP0 s acc →
      (∀ a ∈ ms, goodAttempt s a) →
      ResP0 s (ms.foldl (fun a m => appendResult a pos m) acc) := by
  intro ms
  cases ms with
  | nil => intro acc hacc _; exact hacc
  | cons a rest =>
    intro acc hacc hg
    exact Or.inr (appendRow_NRG pos (a :: rest) acc hacc hg (by simp))

theorem appendAll_P0 {s : CSchema} {r1 r2 : VResult} (h1 : ResP0 s r1)
    (h2 : GoodRaw s r2.raw) : ResP0 s (appendAllResults r1 r2) := by
  unfold appendAllResults
  have : ∀ (L : List (Int × List Attempt)) (acc : VResult), ResP0 s acc →
      (∀ pm ∈ L, ∀ a ∈ pm.2, goodAttempt s a) →
      ResP0 s (L.foldl (fun acc pm => pm.2.foldl (fun a m => appendResult a pm.1 m) acc)
        acc) := by
    intro L
    induction L with
    | nil => intro acc hacc _; exact hacc
    | cons pm rest ih =>
      intro acc hacc hg
      simp only [List.foldl_cons]
      exact ih _ (appendRow_P0 pm.1 pm.2 acc hacc (hg pm (List.mem_cons_self _ _)))
        (fun q hq b hb => hg q (List.mem_cons_of_mem _ hq) b hb)
  exact this r2.raw r1 h1 h2

theorem appendAll_NRG {s : CSchema} {r1 r2 : VResult} (h1 : NRG s r1)
    (h2 : GoodRaw s r2.raw) : NRG s (appendAllResults r1 r2) := by
  unfold appendAllResults
  have : ∀ (L : List (Int × List Attempt)) (acc : VResult), NRG s acc →
      (∀ pm ∈ L, ∀ a ∈ pm.2, goodAttempt s a) →
      NRG s (L.foldl (fun acc pm => pm.2.foldl (fun a m => appendResult a pm.1 m) acc)
        acc) := by
    intro L
    induction L with
    | nil => intro acc hacc _; exact hacc
    | cons pm rest ih =>
      intro acc hacc hg
      simp only [List.foldl_cons]
      have hrow : NRG s (pm.2.foldl (fun a m => appendResult a pm.1 m) acc) := by
        cases hms : pm.2 with
        | nil => simpa [hms] using hacc
        | cons b bs =>
          exact hms ▸ appendRow_NRG pm.1 pm.2 acc (Or.inr hacc)
            (hg pm (List.mem_cons_self _ _)) (by simp [hms])
      exact ih _ hrow (fun q hq b hb => hg q (List.mem_cons_of_mem _ hq) b hb)
  exact this r2.raw r1 h1 h2

theorem pickBest_P0 {s : CSchema} {r1 r2 : VResult} (h1 : ResP0 s r1)
    (h2 : ResP0 s r2) : ResP0 s (pickBestResult r1 r2) := by
  unfold pickBestResult
  split
  · exact h2
  · split
    · exact h1
    · split
      · exact h1
      · split
        · exact h2
        · split
          · exact h1
          · split
            · exact h2
            · exact appendAll_P0 h1 (P0_goodRaw h2)

theorem pickBest_NRG {s : CSchema} {r1 r2 : VResult} (h1 : NRG s r1)
    (h2 : NRG s r2) : NRG s (pickBestResult r1 r2) := by
  unfold pickBestResult
  split
  · exact h2
  · split
    · exact h1
    · split
      · exact h1
      · split
        · exact h2
        · split
          · exact h1
          · split
            · exact h2
            · exact appendAll_NRG h1 h2.2.2

theorem pickBest_zero (r : VResult) : pickBestResult zeroResult r = r := rfl

theorem docGood_scalar_prop {val : ConlValue} (h : DocGood val) :
    ∀ t e, val.Scalar = some t → t.error = some e → e ≠ [] := by
  rcases h with ⟨sc, m, l, h1, _, _, _, _⟩
  intro t e hsc
  exact h1 t hsc e

theorem docGood_mapKey {sc : Option CTok} {m l : List VEntry}
    (h : DocGood (.mk sc m l)) : ∀ e ∈ m, tokGood e.key := by
  rcases h with ⟨_, _, _, _, h2, _, _, _⟩; exact h2

theorem docGood_mapVal {sc : Option CTok} {m l : List VEntry}
    (h : DocGood (.mk sc m l)) : ∀ e ∈ m, DocGood e.val := by
  rcases h with ⟨_, _, _, _, _, h3, _, _⟩; exact h3

theorem docGood_listKey {sc : Option CTok} {m l : List VEntry}
    (h : DocGood (.mk sc m l)) : ∀ e ∈ l, tokGood e.key := by
  rcases h with ⟨_, _, _, _, _, _, h4, _⟩; exact h4

theorem docGood_listVal {sc : Option CTok} {m l : List VEntry}
    (h : DocGood (.mk sc m l)) : ∀ e ∈ l, DocGood e.val := by
  rcases h with ⟨_, _, _, _, _, _, _, h5⟩; exact h5

/-- Wrapping a good token as a scalar document node
(`&conlValue{Scalar: entry.key}`). -/
theorem docGood_wrap {t : CTok} (h : tokGood t) : DocGood (.mk (some t) [] []) := by
  refine .intro _ _ _ (fun t' ht' => ?_) (by simp) (by simp) (by simp) (by simp)
  cases ht'
  exact h

theorem goodAttempt_value {s : CSchema} {val : ConlValue} (ok : Bool) {m : Matcher}
    (hv : DocGood val)
    (hm : ∀ dd, getDef s m = some dd → dd.scalar = none ∧ dd.anyOf = none) :
    goodAttempt s (valueAttempt val ok (some m)) := by
  intro _
  refine ⟨docGood_scalar_prop hv, ?_⟩
  intro mm dd hmm hdd
  simp only [valueAttempt, Option.some.injEq] at hmm
  subst hmm
  exact hm dd hdd

theorem goodAttempt_value_unresolved {s : CSchema} {val : ConlValue} (ok : Bool)
    {m : Matcher} (hv : DocGood val) (hm : getDef s m = none) :
    goodAttempt s (valueAttempt val ok (some m)) := by
  intro _
  refine ⟨docGood_scalar_prop hv, ?_⟩
  intro mm dd hmm hdd
  simp only [valueAttempt, Option.some.injEq] at hmm
  subst hmm
  exact absurd (hm ▸ hdd) (by simp)

theorem goodAttempt_key {s : CSchema} {e : VEntry} (ok : Bool) (h : tokGood e.key) :
    goodAttempt s (keyAttempt e ok none) := by
  intro _
  constructor
  · intro t er hsc
    simp only [keyAttempt, ConlValue.Scalar, Option.some.injEq] at hsc
    subst hsc
    exact h er
  · intro mm dd hmm
    exact absurd hmm (by simp [keyAttempt])

theorem goodAttempt_withDuplicate {s : CSchema} {a : Attempt} (k : Matcher)
    (h : goodAttempt s a) : goodAttempt s (a.withDuplicate k) := h

theorem goodAttempt_withMissingKeys {s : CSchema} {a : Attempt} (ks : List Matcher)
    (h : goodAttempt s a) : goodAttempt s (a.withMissingKeys ks) := h

/-- A definition reached through `getDef` in a schema whose definitions
never carry an empty (non-`nil`) `any of` list has a non-empty `any of`
list if any. -/
theorem getDef_anyOf_ne {s : CSchema}
    (hws : ∀ p ∈ s.definitions, p.2.anyOf ≠ some []) {m : Matcher} {d : Definition}
    (h : getDef s m = some d) : d.anyOf ≠ some [] := by
  unfold getDef at h
  cases hm : m.resolvedName with
  | none => rw [hm] at h; exact absurd h (by simp)
  | some n =>
    rw [hm] at h
    simp only [Option.some.injEq] at h
    subst h
    unfold lookupDef
    cases hf : s.definitions.find? (fun p => p.1 == n) with
    | none => simp [emptyDefinition]
    | some pr => simpa using hws pr (List.mem_of_find?_eq_some hf)

/-- Fold of `pickBestResult` over recursively-validated choices,
starting from a non-zero accumulator. -/
theorem foldPick_NRG_acc {s : CSchema} {α : Type} (F : α → VResult) :
    ∀ (l : List α) (acc : VResult), NRG s acc → (∀ x ∈ l, NRG s (F x)) →
      NRG s (l.foldl (fun acc x => pickBestResult acc (F x)) acc) := by
  intro l
  induction l with
  | nil => intro acc hacc _; exact hacc
  | cons x xs ih =>
    intro acc hacc hF
    simp only [List.foldl_cons]
    exact ih _ (pickBest_NRG hacc (hF x (List.mem_cons_self _ _)))
      (fun y hy => hF y (List.mem_cons_of_mem _ hy))

/-- The `AnyOf` merge loop (`var combined result; … pickBestResult`)
preserves the invariant for a non-empty choice list. -/
theorem foldPick_NRG {s : CSchema} {α : Type} (F : α → VResult) (l : List α)
    (hne : l ≠ []) (hF : ∀ x ∈ l, NRG s (F x)) :
    NRG s (l.foldl (fun acc x => pickBestResult acc (F x)) zeroResult) := by
  cases l with
  | nil => exact absurd rfl hne
  | cons x xs =>
    simp only [List.foldl_cons, pickBest_zero]
    exact foldPick_NRG_acc F xs _ (hF x (List.mem_cons_self _ _))
      (fun y hy => hF y (List.mem_cons_of_mem _ hy))

/-- `P0` version of `foldPick_NRG_acc`, for the key-result merges. -/
theorem foldPick_P0_acc {s : CSchema} {α : Type} (F : α → VResult) :
    ∀ (l : List α) (acc : VResult), ResP0 s acc → (∀ x ∈ l, NRG s (F x)) →
      ResP0 s (l.foldl (fun acc x => pickBestResult acc (F x)) acc) := by
  intro l
  induction l with
  | nil => intro acc hacc _; exact hacc
  | cons x xs ih =>
    intro acc hacc hF
    simp only [List.foldl_cons]
    exact ih _ (pickBest_P0 hacc (Or.inr (hF x (List.mem_cons_self _ _))))
      (fun y hy => hF y (List.mem_cons_of_mem _ hy))

/-- The items-branch loop preserves the invariant. -/
theorem itemsFold_NRG {s : CSchema} {F : Matcher → ConlValue → Int → VResult}
    (items : Option Matcher) (hF : ∀ mm v p, DocGood v → NRG s (F mm v p)) :
    ∀ (entries : List VEntry) (reqRem : List Matcher) (acc : VResult),
      (∀ e ∈ entries, tokGood e.key ∧ DocGood e.val) → NRG s acc →
      NRG s (itemsFold F items entries reqRem acc) := by
  intro entries
  induction entries with
  | nil => intro reqRem acc _ hacc; exact hacc
  | cons e rest ih =>
    intro reqRem acc hg hacc
    have hek := (hg e (List.mem_cons_self _ _)).1
    have hev := (hg e (List.mem_cons_self _ _)).2
    have hg' : ∀ x ∈ rest, tokGood x.key ∧ DocGood x.val :=
      fun x hx => hg x (List.mem_cons_of_mem _ hx)
    simp only [itemsFold]
    split
    · exact ih _ _ hg'
        (appendResult_NRG _ (Or.inr hacc) (goodAttempt_key false hek))
    · have hacc' : NRG s (appendResult acc (posForKey e.key.lno) (keyAttempt e true none)) :=
        appendResult_NRG _ (Or.inr hacc) (goodAttempt_key true hek)
      cases reqRem with
      | cons rm reqRem' =>
        exact ih _ _ hg' (appendAll_NRG hacc' (hF rm e.val _ hev).2.2)
      | nil =>
        cases items with
        | some im => exact ih _ _ hg' (appendAll_NRG hacc' (hF im e.val _ hev).2.2)
        | none =>
          exact ih _ _ hg'
            (appendResult_NRG _ (Or.inr hacc') (goodAttempt_key false hek))

/-- The required-keys scan preserves `P0` of its accumulated
`keyResult`. -/
theorem scanRequired_P0 {s : CSchema} {F : Matcher → ConlValue → Int → VResult}
    {keyVal : ConlValue} (posK : Int) (seenReq : List Nat)
    (hF : ∀ mm v p, DocGood v → NRG s (F mm v p)) (hkv : DocGood keyVal) :
    ∀ (reql : List (Nat × Matcher × Matcher)) (kr : VResult), ResP0 s kr →
      ResP0 s (scanRequired F keyVal posK seenReq reql kr).1 := by
  intro reql
  induction reql with
  | nil => intro kr hkr; exact hkr
  | cons ikv rest ih =>
    intro kr hkr
    obtain ⟨i, k, v⟩ := ikv
    simp only [scanRequired]
    have hkr' : ResP0 s (pickBestResult kr (F k keyVal posK)) :=
      pickBest_P0 hkr (Or.inr (hF k keyVal posK hkv))
    split
    · split <;> exact hkr'
    · exact ih _ hkr'

/-- The plain-keys scan preserves `P0` of its accumulated
`keyResult`. -/
theorem scanKeys_P0 {s : CSchema} {F : Matcher → ConlValue → Int → VResult}
    {keyVal : ConlValue} (posK : Int)
    (hF : ∀ mm v p, DocGood v → NRG s (F mm v p)) (hkv : DocGood keyVal) :
    ∀ (kl : List (Matcher × Matcher)) (acc : VResult × List Matcher),
      ResP0 s acc.1 → ResP0 s (scanKeys F keyVal posK kl acc).1 := by
  intro kl
  induction kl with
  | nil => intro acc hacc; exact hacc
  | cons kv rest ih =>
    intro acc hacc
    obtain ⟨k, v⟩ := kv
    simp only [scanKeys]
    exact ih _ (pickBest_P0 hacc (Or.inr (hF k keyVal posK hkv)))

/-- One map entry of the keys branch preserves `P0` of `combined`. -/
theorem keysEntryStep_P0 {s : CSchema} {F : Matcher → ConlValue → Int → VResult}
    (reqs keys : List (Matcher × Matcher))
    (hF : ∀ mm v p, DocGood v → NRG s (F mm v p))
    (st : VResult × List Str × List Nat) (e : VEntry)
    (hek : tokGood e.key) (hev : DocGood e.val) (hst : ResP0 s st.1) :
    ResP0 s (keysEntryStep F reqs keys st e).1 := by
  have hkv : DocGood (ConlValue.mk (some e.key) [] []) := docGood_wrap hek
  simp only [keysEntryStep]
  split
  · exact Or.inr (appendResult_NRG _ hst (goodAttempt_key false hek))
  · have hscan : ResP0 s (scanRequired F (ConlValue.mk (some e.key) [] [])
        (posForKey e.key.lno) st.2.2 reqs.enum zeroResult).1 :=
      scanRequired_P0 _ _ hF hkv _ _ (Or.inl rfl)
    split
    · exact Or.inr (appendResult_NRG _ hst
        (goodAttempt_withDuplicate _ (goodAttempt_key false hek)))
    · rename_i i v _
      refine appendAll_P0 ?_ (P0_goodRaw (Or.inr ?_))
      · exact appendAll_P0 hst (P0_goodRaw hscan)
      · rw [pickBest_zero]
        exact hF v e.val _ hev
    · have hks : ResP0 s (scanKeys F (ConlValue.mk (some e.key) [] [])
          (posForKey e.key.lno) keys
          ((scanRequired F (ConlValue.mk (some e.key) [] [])
            (posForKey e.key.lno) st.2.2 reqs.enum zeroResult).1, [])).1 :=
        scanKeys_P0 _ hF hkv _ _ hscan
      split
      · exact appendAll_P0 hst (P0_goodRaw hks)
      · rename_i hne
        refine appendAll_P0 (appendAll_P0 hst (P0_goodRaw hks)) (P0_goodRaw ?_)
        refine Or.inr (foldPick_NRG _ _ ?_ (fun mm _ => hF mm e.val _ hev))
        revert hne
        cases (scanKeys F (ConlValue.mk (some e.key) [] [])
          (posForKey e.key.lno) keys _).2 <;> simp

/-- The entry fold of the keys branch preserves `P0`. -/
theorem keysFold_P0 {s : CSchema} {F : Matcher → ConlValue → Int → VResult}
    (reqs keys : List (Matcher × Matcher))
    (hF : ∀ mm v p, DocGood v → NRG s (F mm v p)) :
    ∀ (entries : List VEntry) (st : VResult × List Str × List Nat),
      (∀ e ∈ entries, tokGood e.key ∧ DocGood e.val) → ResP0 s st.1 →
      ResP0 s ((entries.foldl (keysEntryStep F reqs keys) st).1) := by
  intro entries
  induction entries with
  | nil => intro st _ hst; exact hst
  | cons e rest ih =>
    intro st hg hst
    simp only [List.foldl_cons]
    exact ih _ (fun x hx => hg x (List.mem_cons_of_mem _ hx))
      (keysEntryStep_P0 reqs keys hF st e (hg e (List.mem_cons_self _ _)).1
        (hg e (List.mem_cons_self _ _)).2 hst)

/-- The keys branch produces an invariant-satisfying result. -/
theorem keysBranch_NRG {s : CSchema} {F : Matcher → ConlValue → Int → VResult}
    {m : Matcher} {val : ConlValue} (pos : Int) {d : Definition}
    (hF : ∀ mm v p, DocGood v → NRG s (F mm v p)) (hval : DocGood val)
    (hm : ∀ dd, getDef s m = some dd → dd.scalar = none ∧ dd.anyOf = none) :
    NRG s (keysBranch F m val pos d) := by
  cases val with
  | mk sc mE lE =>
    simp only [keysBranch]
    split
    · exact newResult_NRG pos (goodAttempt_value false hval hm)
    · have hg : ∀ e ∈ mE, tokGood (VEntry.key e) ∧ DocGood (VEntry.val e) :=
        fun e he => ⟨docGood_mapKey hval e he, docGood_mapVal hval e he⟩
      refine appendResult_NRG _ ?_
        (goodAttempt_withMissingKeys _ (goodAttempt_value _ hval hm))
      have hfold := keysFold_P0 (d.requiredKeys.getD []) (d.keys.getD []) hF mE
        (zeroResult, [], []) hg (Or.inl rfl)
      simpa [ConlValue.MapE] using hfold

/-- The items branch produces an invariant-satisfying result. -/
theorem itemsBranch_NRG {s : CSchema} {F : Matcher → ConlValue → Int → VResult}
    {m : Matcher} {val : ConlValue} (pos : Int) {d : Definition}
    (hF : ∀ mm v p, DocGood v → NRG s (F mm v p)) (hval : DocGood val)
    (hm : ∀ dd, getDef s m = some dd → dd.scalar = none ∧ dd.anyOf = none) :
    NRG s (itemsBranch F m val pos d) := by
  cases val with
  | mk sc mE lE =>
    simp only [itemsBranch]
    split
    · exact newResult_NRG pos (goodAttempt_value false hval hm)
    · have hg : ∀ e ∈ lE, tokGood (VEntry.key e) ∧ DocGood (VEntry.val e) :=
        fun e he => ⟨docGood_listKey hval e he, docGood_listVal hval e he⟩
      refine itemsFold_NRG _ hF _ _ _ (by simpa [ConlValue.ListE] using hg)
        (newResult_NRG pos (goodAttempt_value _ hval hm))

/-- The central invariant: for any well-formed schema (no empty `any
of` lists, the only shape `Parse` can produce) and any document all of
whose token errors are non-empty, every `validate` result has a
non-empty raw map, a failing attempt whenever its score is not
`success`, and only well-formed attempts. -/
theorem mvalidate_NRG (s : CSchema)
    (hws : ∀ p ∈ s.definitions, p.2.anyOf ≠ some []) :
    ∀ (fuel : Nat) (m : Matcher) (val : ConlValue) (pos : Int), DocGood val →
      NRG s (mvalidate s fuel m val pos) := by
  intro fuel
  induction fuel with
  | zero =>
    intro m val pos hv
    refine newResult_NRG pos ?_
    intro hok
    exact absurd hok (by simp [valueAttempt])
  | succ fuel ih =>
    intro m val pos hv
    cases hgd : getDef s m with
    | none =>
      rw [mvalidate_succ, hgd]
      simp only [patternBranch]
      split
      · exact newResult_NRG pos (goodAttempt_value_unresolved false hv hgd)
      · split
        · exact newResult_NRG pos (goodAttempt_value_unresolved false hv hgd)
        · split
          · split
            · exact newResult_NRG pos (goodAttempt_value_unresolved true hv hgd)
            · exact newResult_NRG pos (goodAttempt_value_unresolved false hv hgd)
          · exact newResult_NRG pos (goodAttempt_value_unresolved false hv hgd)
    | some d =>
      cases hs : d.scalar with
      | some sm =>
        rw [mvalidate_succ, hgd]
        simp only [hs]
        exact ih sm val pos hv
      | none =>
        cases ha : d.anyOf with
        | some choices =>
          rw [mvalidate_succ, hgd]
          simp only [hs, ha]
          have hch : choices ≠ [] := by
            intro hc
            exact getDef_anyOf_ne hws hgd (hc ▸ ha)
          exact foldPick_NRG _ choices hch (fun mm _ => ih mm val pos hv)
        | none =>
          have hm : ∀ dd, getDef s m = some dd →
              dd.scalar = none ∧ dd.anyOf = none := by
            intro dd hdd
            rw [hgd] at hdd
            injection hdd with hdd
            subst hdd
            exact ⟨hs, ha⟩
          rw [mvalidate_succ, hgd]
          simp only [hs, ha]
          split
          · exact itemsBranch_NRG pos (fun mm v p hg => ih mm v p hg) hv hm
          · split
            · exact keysBranch_NRG pos (fun mm v p hg => ih mm v p hg) hv hm
            · refine newResult_NRG pos (goodAttempt_value _ hv hm)

/-! ### `buildError` produces a message at a failing position

The fold state stays *plausible* (`topP ≠ 0` only with a non-empty
message) and, once a well-formed failing attempt has been processed,
*charged* (a positive priority, or a pending `expected`/`missingKeys`
suggestion); a plausible and charged final state makes every arm of the
final dispatch return a non-empty string. -/

/-- A non-zero priority always carries a non-empty message. -/
def PinvE (st : ErrState) : Prop := st.topP ≠ 0 → st.msg ≠ []

/-- The state has something to report. -/
def QE (st : ErrState) : Prop :=
  st.topP ≠ 0 ∨ st.expected ≠ [] ∨ st.missingKeys ≠ []

theorem append_right_ne {α : Type} (l : List α) {r : List α} (h : r ≠ []) :
    l ++ r ≠ [] := fun hcon => h (List.append_eq_nil.mp hcon).2

theorem splitBarAux_ne_nil : ∀ (s acc : Str), splitBarAux s acc ≠ [] := by
  intro s
  induction s with
  | nil => intro acc; simp [splitBarAux]
  | cons c rest ih =>
    intro acc
    simp only [splitBarAux]
    split
    · simp
    · exact ih _

theorem suggestions_raw_ne_nil (p : Str) : suggestionsFromPattern p true ≠ [] := by
  unfold suggestionsFromPattern
  split
  · simp
  · exact splitBarAux_ne_nil p []

theorem addError_topP_ge (st : ErrState) (p : Nat) (msg : Str) :
    st.topP ≤ (addError st p msg).topP := by
  unfold addError
  split
  · rename_i hgt
    simp only []
    omega
  · exact le_refl _

theorem addError_fields (st : ErrState) (p : Nat) (msg : Str) :
    (addError st p msg).expected = st.expected ∧
    (addError st p msg).missingKeys = st.missingKeys := by
  unfold addError
  split <;> exact ⟨rfl, rfl⟩

theorem addError_Pinv {st : ErrState} (p : Nat) {msg : Str} (h : PinvE st)
    (hm : msg ≠ []) : PinvE (addError st p msg) := by
  unfold addError
  split
  · exact fun _ => hm
  · exact h

theorem addError_Q {st : ErrState} {p : Nat} (msg : Str) (hp : 0 < p) :
    QE (addError st p msg) := by
  unfold addError
  split
  · exact Or.inl (by simpa using hp.ne')
  · rename_i hle
    exact Or.inl (by omega)

/-- One `buildError` step only raises the priority and extends the
suggestion lists. -/
theorem buildErrStep_mono (s : CSchema) (pos : Int) (st : ErrState) (a : Attempt) :
    st.topP ≤ (buildErrStep s pos st a).topP ∧
    (∃ l, (buildErrStep s pos st a).expected = st.expected ++ l) ∧
    (∃ l, (buildErrStep s pos st a).missingKeys = st.missingKeys ++ l) := by
  unfold buildErrStep
  split
  · exact ⟨le_refl _, ⟨[], by simp⟩, ⟨[], by simp⟩⟩
  · split
    · exact ⟨addError_topP_ge _ _ _, ⟨[], by simp [(addError_fields _ _ _).1]⟩,
        ⟨[], by simp [(addError_fields _ _ _).2]⟩⟩
    · split
      · split
        · exact ⟨addError_topP_ge _ _ _, ⟨[], by simp [(addError_fields _ _ _).1]⟩,
            ⟨[], by simp [(addError_fields _ _ _).2]⟩⟩
        · split
          · exact ⟨addError_topP_ge _ _ _, ⟨[], by simp [(addError_fields _ _ _).1]⟩,
              ⟨[], by simp [(addError_fields _ _ _).2]⟩⟩
          · exact ⟨addError_topP_ge _ _ _, ⟨[], by simp [(addError_fields _ _ _).1]⟩,
              ⟨[], by simp [(addError_fields _ _ _).2]⟩⟩
      · split
        · exact ⟨le_refl _, ⟨[], by simp⟩, ⟨_, rfl⟩⟩
        · split
          · split
            · exact ⟨addError_topP_ge _ _ _,
                ⟨[], by simp [(addError_fields _ _ _).1]⟩,
                ⟨[], by simp [(addError_fields _ _ _).2]⟩⟩
            · split
              · exact ⟨le_refl _, ⟨_, rfl⟩, ⟨[], by simp⟩⟩
              · exact ⟨le_refl _, ⟨_, rfl⟩, ⟨[], by simp⟩⟩
          · split
            · exact ⟨le_refl _, ⟨_, rfl⟩, ⟨[], by simp⟩⟩
            · split
              · split
                · exact ⟨addError_topP_ge _ _ _,
                    ⟨[], by simp [(addError_fields _ _ _).1]⟩,
                    ⟨[], by simp [(addError_fields _ _ _).2]⟩⟩
                · exact ⟨le_refl _, ⟨_, rfl⟩, ⟨[], by simp⟩⟩
              · split
                · exact ⟨le_refl _, ⟨[], by simp⟩, ⟨[], by simp⟩⟩
                · exact ⟨le_refl _, ⟨_, rfl⟩, ⟨[], by simp⟩⟩

theorem buildErrStep_Q_mono {s : CSchema} {pos : Int} {st : ErrState} (a : Attempt)
    (h : QE st) : QE (buildErrStep s pos st a) := by
  obtain ⟨hp, ⟨le, hle⟩, ⟨lm, hlm⟩⟩ := buildErrStep_mono s pos st a
  rcases h with h | h | h
  · exact Or.inl (by omega)
  · refine Or.inr (Or.inl ?_)
    rw [hle]
    intro hcon
    exact h (List.append_eq_nil.mp hcon).1
  · refine Or.inr (Or.inr ?_)
    rw [hlm]
    intro hcon
    exact h (List.append_eq_nil.mp hcon).1

theorem buildErrStep_Pinv {s : CSchema} {pos : Int} {st : ErrState} {a : Attempt}
    (hg : goodAttempt s a) (h : PinvE st) : PinvE (buildErrStep s pos st a) := by
  unfold buildErrStep
  split
  · exact h
  · rename_i hok
    have hok' : a.ok = false := by revert hok; cases a.ok <;> simp
    split
    · rename_i hbind
      refine addError_Pinv _ h ?_
      rcases Option.isSome_iff_exists.mp hbind with ⟨e, he⟩
      rcases Option.bind_eq_some.mp he with ⟨t, hts, hte⟩
      rw [he]
      simpa using (hg hok').1 t e hts hte
    · split
      · split
        · exact addError_Pinv _ h (by simp)
        · split
          · exact addError_Pinv _ h (by simp)
          · exact addError_Pinv _ h (by simp)
      · split
        · exact h
        · split
          · split
            · exact addError_Pinv _ h (by simp)
            · split
              · exact h
              · exact h
          · split
            · exact h
            · split
              · split
                · exact addError_Pinv _ h (by simp)
                · exact h
              · split
                · exact h
                · exact h

theorem buildErrStep_Q_fail {s : CSchema} {pos : Int} (st : ErrState) {a : Attempt}
    (hg : goodAttempt s a) (hf : a.ok = false) : QE (buildErrStep s pos st a) := by
  unfold buildErrStep
  split
  · rename_i hok
    rw [hf] at hok
    exact absurd hok (by simp)
  · split
    · exact addError_Q _ (by omega)
    · split
      · split
        · exact addError_Q _ (by omega)
        · split
          · exact addError_Q _ (by omega)
          · exact addError_Q _ (by omega)
      · rename_i mm hmm
        split
        · rename_i hmk
          refine Or.inr (Or.inr ?_)
          have hne : a.missingKeys ≠ [] := by
            revert hmk
            cases a.missingKeys <;> simp
          cases hms : a.missingKeys with
          | nil => exact absurd hms hne
          | cons k ks =>
            simp only [hms, List.flatMap_cons]
            refine append_right_ne _ ?_
            intro hcon
            exact suggestions_raw_ne_nil k.raw (List.append_eq_nil.mp hcon).1
        · split
          · split
            · exact addError_Q _ (by omega)
            · split
              · exact Or.inr (Or.inl (append_right_ne _ (by simp)))
              · exact Or.inr (Or.inl (append_right_ne _ (suggestions_raw_ne_nil _)))
          · rename_i d hgd
            split
            · exact Or.inr (Or.inl (append_right_ne _ (by simp)))
            · split
              · split
                · exact addError_Q _ (by omega)
                · exact Or.inr (Or.inl (append_right_ne _ (by simp)))
              · split
                · rename_i hcond
                  rcases (hg hf).2 mm d hmm hgd with ⟨h1, h2⟩
                  rw [h1, h2] at hcond
                  exact absurd hcond (by simp)
                · exact Or.inr (Or.inl (append_right_ne _ (by simp)))

theorem buildErrFold {s : CSchema} (pos : Int) :
    ∀ (ms : List Attempt) (st : ErrState), (∀ a ∈ ms, goodAttempt s a) → PinvE st →
      ((∃ a ∈ ms, a.ok = false) ∨ QE st) →
      PinvE (ms.foldl (buildErrStep s pos) st) ∧ QE (ms.foldl (buildErrStep s pos) st) := by
  intro ms
  induction ms with
  | nil =>
    intro st _ hp hq
    refine ⟨hp, ?_⟩
    rcases hq with ⟨a, ha, _⟩ | hq
    · exact absurd ha (List.not_mem_nil a)
    · exact hq
  | cons a rest ih =>
    intro st hg hp hq
    simp only [List.foldl_cons]
    have hga := hg a (List.mem_cons_self _ _)
    have hg' : ∀ b ∈ rest, goodAttempt s b := fun b hb => hg b (List.mem_cons_of_mem _ hb)
    have hp' : PinvE (buildErrStep s pos st a) := buildErrStep_Pinv hga hp
    rcases hq with ⟨b, hb, hbf⟩ | hq
    · rcases List.mem_cons.mp hb with rfl | hb'
      · exact ih _ hg' hp' (Or.inr (buildErrStep_Q_fail st hga hbf))
      · exact ih _ hg' hp' (Or.inl ⟨b, hb', hbf⟩)
    · exact ih _ hg' hp' (Or.inr (buildErrStep_Q_mono a hq))

/-- `buildError` reports a non-empty message at any position holding a
well-formed failing attempt. -/
theorem buildError_ne_nil {s : CSchema} (pos : Int) {ms : List Attempt}
    (hg : ∀ a ∈ ms, goodAttempt s a) (hf : ∃ a ∈ ms, a.ok = false) :
    buildError s pos ms ≠ [] := by
  simp only [buildError]
  obtain ⟨hp, hq⟩ := buildErrFold pos ms ⟨0, [], [], []⟩ hg (fun h => absurd rfl h)
    (Or.inl hf)
  split
  · exact hp (by omega)
  · split
    · simp
    · split
      · simp
      · rename_i hex hmk
        have hex' : (ms.foldl (buildErrStep s pos) ⟨0, [], [], []⟩).expected = [] := by
          revert hex
          cases (ms.foldl (buildErrStep s pos) ⟨0, [], [], []⟩).expected <;> simp
        have hmk' : (ms.foldl (buildErrStep s pos) ⟨0, [], [], []⟩).missingKeys = [] := by
          revert hmk
          cases (ms.foldl (buildErrStep s pos) ⟨0, [], [], []⟩).missingKeys <;> simp
        rcases hq with hq | hq | hq
        · exact hp hq
        · exact absurd hex' hq
        · exact absurd hmk' hq

/-! ### The lexer emits no `Error` tokens, and the normalizer's error
messages are non-empty

`tokenize` yields only structural and content kinds; every `Error`
token of `Tokens` is produced by the normalizer with either a literal
non-empty message or a decoder message guarded non-empty at the
emission site. -/

theorem popOutdents_no_error (lno : Nat) (indent : Str) :
    ∀ (stk : List Str), ∀ x ∈ (popOutdents lno indent stk).2, x.2.kind ≠ .error := by
  intro stk
  induction stk with
  | nil => intro x hx; simp [popOutdents] at hx
  | cons top rest ih =>
    intro x hx
    simp only [popOutdents] at hx
    split at hx
    · simp at hx
    · rcases List.mem_cons.mp hx with rfl | hx'
      · simp
      · exact ih x hx'

theorem keyValuePart_no_error (st : TokSt) (lno : Nat) (rest : Str) :
    ∀ x ∈ (keyValuePart st lno rest).1, x.2.kind ≠ .error := by
  intro x hx
  simp only [keyValuePart, List.mem_append] at hx
  rcases hx with h | h
  · split at h <;> (simp at h; rw [h]; simp)
  · split at h
    · simp at h; rw [h]; simp
    · split at h
      · simp only [List.mem_append] at h
        rcases h with h | h
        · simp at h; rw [h]; simp
        · split at h <;> simp_all
      · simp only [List.mem_append] at h
        rcases h with h | h
        · split at h <;> simp_all
        · split at h <;> simp_all

theorem mlStep_no_error (st : TokSt) (lno : Nat) (content rest indent : Str) :
    ∀ x ∈ (mlStep st lno content rest indent).1, x.2.kind ≠ .error := by
  intro x hx
  simp only [mlStep] at hx
  (repeat' split at hx) <;> simp_all

theorem lineStep_no_error (st : TokSt) (lno : Nat) (rest indent : Str) :
    ∀ x ∈ (lineStep st lno rest indent).1, x.2.kind ≠ .error := by
  intro x hx
  simp only [lineStep] at hx
  split at hx
  · simp at hx
  · split at hx
    · simp at hx; rw [hx]; simp
    · simp only [List.mem_append] at hx
      rcases hx with (hx | hx) | hx
      · exact popOutdents_no_error lno indent st.stack x hx
      · split at hx <;> simp_all
      · exact keyValuePart_no_error _ lno rest x hx

theorem tokenizeAux_no_error :
    ∀ (lines : List Str) (n : Nat) (st : TokSt),
      ∀ x ∈ tokenizeAux n lines st, x.2.kind ≠ .error := by
  intro lines
  induction lines with
  | nil =>
    intro n st x hx
    simp only [tokenizeAux] at hx
    split at hx <;> simp_all
  | cons content rest ih =>
    intro n st x hx
    simp only [tokenizeAux] at hx
    split at hx
    · rcases List.mem_append.mp hx with h | h
      · exact mlStep_no_error _ _ _ _ _ x h
      · exact ih _ _ x h
    · simp only [List.mem_append] at hx
      rcases hx with (h | h) | h
      · exact mlStep_no_error _ _ _ _ _ x h
      · exact lineStep_no_error _ _ _ _ x h
      · exact ih _ _ x h

theorem tokenize_no_error (input : Str) :
    ∀ x ∈ tokenize input, x.2.kind ≠ .error :=
  tokenizeAux_no_error (splitLines input) 1 initTokSt

theorem yieldDecoded_error_content (lno : Nat) (tok : Token) (hk : tok.kind ≠ .error) :
    ∀ p, p = yieldDecoded lno tok → p.2.kind = .error → p.2.content ≠ [] := by
  intro p hp hke
  simp only [yieldDecoded] at hp
  split at hp
  · subst hp
    simpa using ‹_›
  · subst hp
    exact absurd hke hk

theorem yieldChecked_error_content (lno : Nat) (tok : Token) (hk : tok.kind ≠ .error) :
    ∀ p, p = yieldChecked lno tok → p.2.kind = .error → p.2.content ≠ [] := by
  intro p hp hke
  unfold yieldChecked at hp
  split at hp
  · subst hp; simp
  · subst hp
    exact absurd hke hk

theorem yieldMultiline_error_content (lno : Nat) (tok : Token) (hk : tok.kind ≠ .error) :
    ∀ p, p = yieldMultiline lno tok → p.2.kind = .error → p.2.content ≠ [] := by
  intro p hp hke
  simp only [yieldMultiline] at hp
  split at hp
  · subst hp
    simpa using ‹_›
  · subst hp
    exact absurd hke hk

theorem normStep_error_content (states : List PState) (lno : Nat) (tok : Token)
    (hk : tok.kind ≠ .error) :
    ∀ p ∈ (normStep states lno tok).1, p.2.kind = .error → p.2.content ≠ [] := by
  intro p hp hke
  simp only [normStep] at hp
  split at hp <;>
    first
      | (split at hp <;>
          (simp only [List.mem_singleton, List.mem_cons, List.not_mem_nil, or_false]
            at hp <;>
          (first | (rcases hp with hp | hp) | skip) <;>
          first
            | (exact yieldDecoded_error_content lno tok hk p hp hke)
            | (exact yieldChecked_error_content lno tok hk p hp hke)
            | (exact yieldMultiline_error_content lno tok hk p hp hke)
            | (exact yieldDecoded_error_content lno tok hk _ rfl hke)
            | (exact yieldChecked_error_content lno tok hk _ rfl hke)
            | (exact yieldMultiline_error_content lno tok hk _ rfl hke)
            | (subst hp; simp_all)
            | simp_all))
      | (simp only [List.mem_singleton] at hp <;>
          first
            | (exact yieldChecked_error_content lno tok hk p hp hke)
            | (subst hp; simp_all))
      | simp_all

theorem normFlush_error_content :
    ∀ (states : List PState) (l : Nat),
      ∀ p ∈ normFlush states l, p.2.kind = .error → p.2.content ≠ [] := by
  intro states
  induction states with
  | nil => intro l p hp; simp [normFlush] at hp
  | cons st rest ih =>
    intro l p hp hke
    cases rest with
    | nil =>
      simp only [normFlush] at hp
      split at hp <;> simp_all
    | cons st2 rest2 =>
      simp only [normFlush, List.mem_append] at hp
      rcases hp with hp | hp
      · split at hp <;>
          simp only [List.mem_singleton, List.mem_cons, List.not_mem_nil, or_false]
            at hp <;>
          (first | (rcases hp with hp | hp) | skip) <;>
          first
            | (subst hp; simp_all)
            | simp_all
            | simp
      · exact ih l p hp hke

theorem normAux_error_content :
    ∀ (l : List (Nat × Token)) (states : List PState) (lastLine : Nat),
      (∀ x ∈ l, x.2.kind ≠ .error) →
      ∀ p ∈ normAux l states lastLine, p.2.kind = .error → p.2.content ≠ [] := by
  intro l
  induction l with
  | nil =>
    intro states lastLine _ p hp
    exact normFlush_error_content states lastLine p hp
  | cons x rest ih =>
    intro states lastLine hl p hp hke
    simp only [normAux, List.mem_append] at hp
    rcases hp with hp | hp
    · exact normStep_error_content states x.1 x.2 (hl x (List.mem_cons_self _ _)) p hp hke
    · exact ih _ _ (fun y hy => hl y (List.mem_cons_of_mem _ hy)) p hp hke

/-- Every `Error` token of the normalized stream carries a non-empty
message. -/
theorem tokens_error_content (input : Str) :
    ∀ p ∈ Tokens input, p.2.kind = .error → p.2.content ≠ [] := by
  unfold Tokens
  exact normAux_error_content _ _ _ (tokenize_no_error input)

/-! ### `parseDoc` only builds documents with non-empty token errors -/

theorem docGood_empty : DocGood emptyValue :=
  .intro none [] [] (by simp) (by simp) (by simp) (by simp) (by simp)

theorem adaptToken_good (lt : Nat × Token)
    (h : lt.2.kind = .error → lt.2.content ≠ []) : tokGood (adaptToken lt) := by
  intro e he
  unfold adaptToken at he
  split at he
  · rename_i hk
    have he' : lt.2.content = e := by simpa using he
    rw [← he']
    exact h (by simpa using hk)
  · exact absurd he (by simp)

theorem mem_replaceLastVal (c : ConlValue) :
    ∀ (l : List VEntry), ∀ e' ∈ replaceLastVal l c,
      e' ∈ l ∨ ∃ e, e ∈ l ∧ e' = (e.1, c, e.2.2) := by
  intro l
  induction l with
  | nil => intro e' he'; simp [replaceLastVal] at he'
  | cons e tail ih =>
    intro e' he'
    cases tail with
    | nil =>
      simp only [replaceLastVal, List.mem_singleton] at he'
      exact Or.inr ⟨e, List.mem_singleton_self e, he'⟩
    | cons e2 tail2 =>
      simp only [replaceLastVal] at he'
      rcases List.mem_cons.mp he' with rfl | he''
      · exact Or.inl (List.mem_cons_self _ _)
      · rcases ih e' he'' with h | ⟨e0, he0, hh⟩
        · exact Or.inl (List.mem_cons_of_mem _ h)
        · exact Or.inr ⟨e0, List.mem_cons_of_mem _ he0, hh⟩

theorem docGood_setLast {v child : ConlValue} (hv : DocGood v) (hc : DocGood child) :
    DocGood (setLastEntryValue v child) := by
  cases v with
  | mk sc m l =>
    rcases hv with ⟨_, _, _, h1, h2, h3, h4, h5⟩
    simp only [setLastEntryValue]
    split
    · refine .intro sc (replaceLastVal m child) l h1 ?_ ?_ h4 h5
      · intro e he
        rcases mem_replaceLastVal child m e he with h | ⟨e0, he0, rfl⟩
        · exact h2 e h
        · exact h2 e0 he0
      · intro e he
        rcases mem_replaceLastVal child m e he with h | ⟨e0, he0, rfl⟩
        · exact h3 e h
        · exact hc
    · refine .intro sc m (replaceLastVal l child) h1 h2 h3 ?_ ?_
      · intro e he
        rcases mem_replaceLastVal child l e he with h | ⟨e0, he0, rfl⟩
        · exact h4 e h
        · exact h4 e0 he0
      · intro e he
        rcases mem_replaceLastVal child l e he with h | ⟨e0, he0, rfl⟩
        · exact h5 e h
        · exact hc

theorem docGood_appendMap {v : ConlValue} {k : CTok} (hv : DocGood v)
    (hk : tokGood k) (pl : Nat) : DocGood (appendMapEntry v (k, emptyValue, pl)) := by
  cases v with
  | mk sc m l =>
    rcases hv with ⟨_, _, _, h1, h2, h3, h4, h5⟩
    simp only [appendMapEntry]
    refine .intro sc _ l h1 ?_ ?_ h4 h5
    · intro e he
      rcases List.mem_append.mp he with h | h
      · exact h2 e h
      · simp only [List.mem_singleton] at h
        subst h
        exact hk
    · intro e he
      rcases List.mem_append.mp he with h | h
      · exact h3 e h
      · simp only [List.mem_singleton] at h
        subst h
        exact docGood_empty

theorem docGood_appendList {v : ConlValue} {k : CTok} (hv : DocGood v)
    (hk : tokGood k) (pl : Nat) : DocGood (appendListEntry v (k, emptyValue, pl)) := by
  cases v with
  | mk sc m l =>
    rcases hv with ⟨_, _, _, h1, h2, h3, h4, h5⟩
    simp only [appendListEntry]
    refine .intro sc m _ h1 h2 h3 ?_ ?_
    · intro e he
      rcases List.mem_append.mp he with h | h
      · exact h4 e h
      · simp only [List.mem_singleton] at h
        subst h
        exact hk
    · intro e he
      rcases List.mem_append.mp he with h | h
      · exact h5 e h
      · simp only [List.mem_singleton] at h
        subst h
        exact docGood_empty

theorem parseDocAux_good :
    ∀ (toks : List CTok), (∀ t ∈ toks, tokGood t) →
      ∀ (stack : List (ConlValue × Nat)) (lastLno : Nat),
      (∀ v ∈ stack, DocGood v.1) →
      ∀ v ∈ parseDocAux toks stack lastLno, DocGood v.1 := by
  intro toks
  induction toks with
  | nil =>
    intro _ stack lastLne hstk v hv
    simp only [parseDocAux] at hv
    exact hstk v hv
  | cons tok rest ih =>
    intro htok stack lastLno hstk v hv
    have htok' : ∀ t ∈ rest, tokGood t := fun t ht => htok t (List.mem_cons_of_mem _ ht)
    have htok0 : tokGood tok := htok tok (List.mem_cons_self _ _)
    simp only [parseDocAux] at hv
    split at hv
    · refine ih htok' _ _ ?_ v hv
      intro w hw
      rcases List.mem_cons.mp hw with rfl | hw'
      · exact docGood_appendMap (hstk _ (List.mem_cons_self _ _)) htok0 _
      · exact hstk w (List.mem_cons_of_mem _ hw')
    · refine ih htok' _ _ ?_ v hv
      intro w hw
      rcases List.mem_cons.mp hw with rfl | hw'
      · exact docGood_appendList (hstk _ (List.mem_cons_self _ _)) htok0 _
      · exact hstk w (List.mem_cons_of_mem _ hw')
    · refine ih htok' _ _ ?_ v hv
      intro w hw
      rcases List.mem_cons.mp hw with rfl | hw'
      · exact docGood_setLast (hstk _ (List.mem_cons_self _ _)) (docGood_wrap htok0)
      · exact hstk w (List.mem_cons_of_mem _ hw')
    · refine ih htok' _ _ ?_ v hv
      intro w hw
      rcases List.mem_cons.mp hw with rfl | hw'
      · exact docGood_setLast (hstk _ (List.mem_cons_self _ _)) (docGood_wrap htok0)
      · exact hstk w (List.mem_cons_of_mem _ hw')
    · refine ih htok' _ _ ?_ v hv
      intro w hw
      rcases List.mem_cons.mp hw with rfl | hw'
      · exact docGood_empty
      · exact hstk w hw'
    · refine ih htok' _ _ ?_ v hv
      intro w hw
      rcases List.mem_cons.mp hw with rfl | hw'
      · exact docGood_setLast
          (hstk _ (List.mem_cons_of_mem _ (List.mem_cons_self _ _)))
          (hstk _ (List.mem_cons_self _ _))
      · exact hstk w (List.mem_cons_of_mem _ (List.mem_cons_of_mem _ hw'))
    · exact ih htok' _ _ hstk v hv

theorem parseDocCollapse_good :
    ∀ (up : List (ConlValue × Nat)) (child : ConlValue), DocGood child →
      (∀ v ∈ up, DocGood v.1) → DocGood (parseDocCollapse child up) := by
  intro up
  induction up with
  | nil => intro child hc _; exact hc
  | cons p rest ih =>
    intro child hc hup
    simp only [parseDocCollapse]
    exact ih _ (docGood_setLast (hup p (List.mem_cons_self _ _)) hc)
      (fun w hw => hup w (List.mem_cons_of_mem _ hw))

/-- Every document produced by `parseDoc` is well-formed: all its token
errors carry non-empty messages. -/
theorem docGood_parseDoc (input : Str) : DocGood (parseDoc input) := by
  have htoks : ∀ t ∈ (Tokens input).map adaptToken, tokGood t := by
    intro t ht
    rcases List.mem_map.mp ht with ⟨lt, hlt, rfl⟩
    exact adaptToken_good lt (tokens_error_content input lt hlt)
  have hstk : ∀ v ∈ ([(emptyValue, 0)] : List (ConlValue × Nat)), DocGood v.1 := by
    intro v hv
    simp only [List.mem_singleton] at hv
    subst hv
    exact docGood_empty
  have hall := parseDocAux_good _ htoks [(emptyValue, 0)] 0 hstk
  unfold parseDoc
  cases hres : parseDocAux ((Tokens input).map adaptToken) [(emptyValue, 0)] 0 with
  | nil => exact docGood_empty
  | cons v up =>
    exact parseDocCollapse_good up v.1 (hall v (hres ▸ List.mem_cons_self _ _))
      (fun w hw => hall w (hres ▸ List.mem_cons_of_mem _ hw))

/-- **C10**: for every schema the resolver could have produced (its
definitions never carry a present-but-empty `any of` list — the only
shapes `Parse` constructs) and every input string, the result of
`Validate` is `Valid()` if and only if `Errors()` is empty.  A failing
score guarantees a raw position holding a well-formed failing attempt,
whose `buildError` message is non-empty, so the error list of an
invalid result is never empty; a valid result reports no errors by
construction. -/
theorem c10_valid_iff_errors_empty (s : CSchema) (input : Str)
    (hws : ∀ p ∈ s.definitions, p.2.anyOf ≠ some []) :
    (Validate s input).Valid = true ↔ (Validate s input).Errors = [] := by
  unfold Validate
  constructor
  · intro hvalid
    simp only [SResult.Valid] at hvalid
    simp only [SResult.Errors, hvalid, if_true]
  · intro herr
    by_contra hval
    have hfe : (mvalidate s (docFuel s input) s.root (parseDoc input) 0).firstErr ≠
        success := by
      intro hfe
      exact hval (by simp [SResult.Valid, hfe])
    have hnrg := mvalidate_NRG s hws (docFuel s input) s.root (parseDoc input) 0
      (docGood_parseDoc input)
    rcases hnrg.2.1 hfe with ⟨pm, hpm, a, ha, hok⟩
    have hmsg : buildError s pm.1 pm.2 ≠ [] :=
      buildError_ne_nil pm.1 (hnrg.2.2 pm hpm) ⟨a, ha, hok⟩
    have hmem : (⟨buildError s pm.1 pm.2, pm.1⟩ : ValidationError) ∈
        (mvalidate s (docFuel s input) s.root (parseDoc input) 0).raw.filterMap
          (fun q =>
            let msg := buildError s q.1 q.2
            if msg.isEmpty then none else some ⟨msg, q.1⟩) := by
      refine List.mem_filterMap.mpr ⟨pm, hpm, ?_⟩
      simp only []
      rw [if_neg (by simpa [List.isEmpty_iff] using hmsg)]
    have hne : SResult.Errors ⟨(mvalidate s (docFuel s input) s.root (parseDoc input)
        0).raw, (mvalidate s (docFuel s input) s.root (parseDoc input) 0).firstErr,
        parseDoc input, s⟩ ≠ [] := by
      simp only [SResult.Errors]
      rw [if_neg (by simpa using hfe)]
      intro hnil
      rw [sortVEs_eq_nil] at hnil
      rw [hnil] at hmem
      exact absurd hmem (List.not_mem_nil _)
    exact hne herr

/-- Witness for C10 at the Scenario-D schema and a concrete document
(for which the result is invalid, so both sides of the biconditional
are false). -/
theorem c10_valid_iff_errors_empty_witness :
    (Validate c8schema "a = 1\nb = 2".data).Valid = true ↔
      (Validate c8schema "a = 1\nb = 2".data).Errors = [] :=
  c10_valid_iff_errors_empty c8schema "a = 1\nb = 2".data (by decide)

end Conl
